import Mathlib


/-!
Shallow embedding of `src/cpdqsort.h`, pattern-defeating quicksort written as C macros.

* The caller's array is a `List α`, one cell per element.  An element stands for the
  `size` bytes the C code moves with `memcpy` or the byte loop of `CPDQS_SW`; a `char *`
  into the array is the index of the element it points to, so `CPDQS_SFT(p, k)` is `p + k`
  and `CPDQS_LEN(b, e)` is `e - b`.
* A read or a write outside the array is undefined behaviour in C; here it makes the
  operation return `none`.  Loops whose trip count is not known in advance carry a fuel
  argument and return `none` when it runs out.
* The comparator is a function `compar : α → α → Int`; the state counts how often it is
  called.
* The element size only enters through `CPDQS_LOG2`, which the driver applies to it.
-/

namespace Cpdqsort

/-- Partitions below this size are sorted using insertion sort. -/
def CPDQS_ISRT_THRESHOLD : Nat := 24

/-- Number of element moves a partial insertion sort is allowed before giving up. -/
def CPDQS_PISRT_LIMIT : Nat := 8

/-- Partitions above this size use Tukey's ninther to select the pivot. -/
def CPDQS_T9THER : Nat := 128

/-- Machine state: the array and the number of comparator calls made so far. -/
structure St (α : Type) where
  mem : List α
  calls : Nat
deriving DecidableEq, Repr

/-- One entry of `struct pdqsort_loop_lifo` (the `prev` link is the tail of the list that
holds the entry). -/
structure Frame where
  begin : Nat
  end_ : Nat
  bad_allowed : Nat
  is_leftmost : Bool
deriving DecidableEq, Repr

variable {α : Type}

/-- Account for one call of the comparator. -/
def tick (st : St α) : St α := { st with calls := st.calls + 1 }

/-- Read the element a pointer designates. -/
def rd (st : St α) (i : Nat) : Option α := st.mem[i]?

/-- `CPDQS_SET(d, s)` with `d` inside the array: overwrite one element. -/
def wr (st : St α) (i : Nat) (v : α) : Option (St α) :=
  if i < st.mem.length then some { st with mem := st.mem.set i v } else none

/-- `CPDQS_SW(a, b)`: exchange the elements `*a` and `*b` byte by byte. -/
def CPDQS_SW (st : St α) (a b : Nat) : Option (St α) := do
  let x ← rd st a
  let y ← rd st b
  let st1 ← wr st a y
  wr st1 b x

/-- `CPDQS_SRT2(a, b)`: swap when `compar(b, a) < 0`. -/
def CPDQS_SRT2 (compar : α → α → Int) (st : St α) (a b : Nat) : Option (St α) := do
  let y ← rd st b
  let x ← rd st a
  let st1 := tick st
  if compar y x < 0 then CPDQS_SW st1 a b else some st1

/-- `CPDQS_SRT3(a, b, c)`. -/
def CPDQS_SRT3 (compar : α → α → Int) (st : St α) (a b c : Nat) : Option (St α) := do
  let st1 ← CPDQS_SRT2 compar st a b
  let st2 ← CPDQS_SRT2 compar st1 b c
  CPDQS_SRT2 compar st2 a b

/-- The loop `while (_n >>= 1) ++dest;` of the portable `CPDQS_LOG2`. -/
def CPDQS_LOG2_loop : Nat → Nat → Nat → Nat
  | 0, _, dest => dest
  | fuel + 1, n, dest =>
    if n / 2 = 0 then dest else CPDQS_LOG2_loop fuel (n / 2) (dest + 1)

/-- `CPDQS_LOG2(dest, n)`: the value stored in `dest`.  The `__builtin_clz` variant
`31 - clz(n)` gives the same value for `0 < n < 2^32`. -/
def CPDQS_LOG2 (n : Nat) : Nat := CPDQS_LOG2_loop n n 0

/-! ### Insertion sorts -/

/-- The `do ... while (sift != 0 && compar(tmp, AT(--sift_1)) < 0)` loop of `CPDQS_ISRT`
and `CPDQS_PISRT`; returns the final `sift`.  Entered with `sift = sift_1 + 1`. -/
def ISRT_shift (compar : α → α → Int) :
    Nat → St α → Nat → α → Nat → Nat → Option (St α × Nat)
  | 0, _, _, _, _, _ => none
  | fuel + 1, st, begin, tmp, sift, sift_1 => do
    let v ← rd st (begin + sift_1)
    let st1 ← wr st (begin + sift) v
    let sift := sift - 1
    if sift ≠ 0 then
      let sift_1 := sift_1 - 1
      let x ← rd st1 (begin + sift_1)
      if compar tmp x < 0 then ISRT_shift compar fuel (tick st1) begin tmp sift sift_1
      else some (tick st1, sift)
    else some (st1, sift)

/-- Body of the `for` loop of `CPDQS_ISRT` for one value of `cur`. -/
def ISRT_body (compar : α → α → Int) (st : St α) (begin cur : Nat) : Option (St α) := do
  let sift := cur
  let sift_1 := cur - 1
  let a ← rd st (begin + sift)
  let b ← rd st (begin + sift_1)
  let st1 := tick st
  if compar a b < 0 then
    let tmp := a
    let (st2, sift) ← ISRT_shift compar (cur + 1) st1 begin tmp sift sift_1
    wr st2 (begin + sift) tmp
  else some st1

/-- The loop `for (cur = ..; cur < nmemb; ++cur)` of `CPDQS_ISRT`, with the number of
iterations still to run as first argument. -/
def ISRT_for (compar : α → α → Int) : Nat → St α → Nat → Nat → Option (St α)
  | 0, st, _, _ => some st
  | k + 1, st, begin, cur => do
    let st1 ← ISRT_body compar st begin cur
    ISRT_for compar k st1 begin (cur + 1)

/-- `CPDQS_ISRT(begin, nmemb)`: guarded insertion sort of `nmemb` elements at `begin`. -/
def CPDQS_ISRT (compar : α → α → Int) (st : St α) (begin nmemb : Nat) : Option (St α) :=
  if nmemb > 1 then ISRT_for compar (nmemb - 1) st begin 1 else some st

/-- The `do ... while (compar(tmp, AT(--sift_1)) < 0)` loop of `CPDQS_UISRT`.  Its
counters wrap below zero when the loop walks past `begin`, so `sift` and `sift_1` are kept
as the positions `AT(sift)` and `AT(sift_1)` in the whole array; stepping below the first
cell of the array is an access outside it. -/
def UISRT_shift (compar : α → α → Int) :
    Nat → St α → α → Nat → Nat → Option (St α × Nat)
  | 0, _, _, _, _ => none
  | fuel + 1, st, tmp, sift, sift_1 => do
    let v ← rd st sift_1
    let st1 ← wr st sift v
    let sift := sift - 1
    if sift_1 = 0 then none
    else
      let sift_1 := sift_1 - 1
      let x ← rd st1 sift_1
      if compar tmp x < 0 then UISRT_shift compar fuel (tick st1) tmp sift sift_1
      else some (tick st1, sift)

/-- Body of the `for` loop of `CPDQS_UISRT` for one value of `cur`. -/
def UISRT_body (compar : α → α → Int) (st : St α) (begin cur : Nat) : Option (St α) := do
  let sift := begin + cur
  let sift_1 := begin + (cur - 1)
  let a ← rd st sift
  let b ← rd st sift_1
  let st1 := tick st
  if compar a b < 0 then
    let tmp := a
    let (st2, sift) ← UISRT_shift compar (begin + cur + 1) st1 tmp sift sift_1
    wr st2 sift tmp
  else some st1

/-- The `for` loop of `CPDQS_UISRT`. -/
def UISRT_for (compar : α → α → Int) : Nat → St α → Nat → Nat → Option (St α)
  | 0, st, _, _ => some st
  | k + 1, st, begin, cur => do
    let st1 ← UISRT_body compar st begin cur
    UISRT_for compar k st1 begin (cur + 1)

/-- `CPDQS_UISRT(begin, nmemb)`: unguarded insertion sort. -/
def CPDQS_UISRT (compar : α → α → Int) (st : St α) (begin nmemb : Nat) : Option (St α) :=
  if nmemb > 1 then UISRT_for compar (nmemb - 1) st begin 1 else some st

/-- Body of the `for` loop of `CPDQS_PISRT` up to the update of `limit`. -/
def PISRT_body (compar : α → α → Int) (st : St α) (begin cur limit : Nat) :
    Option (St α × Nat) := do
  let sift := cur
  let sift_1 := cur - 1
  let a ← rd st (begin + sift)
  let b ← rd st (begin + sift_1)
  let st1 := tick st
  if compar a b < 0 then
    let tmp := a
    let (st2, sift) ← ISRT_shift compar (cur + 1) st1 begin tmp sift sift_1
    let st3 ← wr st2 (begin + sift) tmp
    some (st3, limit + (cur - sift))
  else some (st1, limit)

/-- The `for` loop of `CPDQS_PISRT`, left by `break` once `limit` exceeds
`CPDQS_PISRT_LIMIT`; returns the final `limit`. -/
def PISRT_for (compar : α → α → Int) : Nat → St α → Nat → Nat → Nat → Option (St α × Nat)
  | 0, st, _, _, limit => some (st, limit)
  | k + 1, st, begin, cur, limit => do
    let (st1, limit1) ← PISRT_body compar st begin cur limit
    if limit1 > CPDQS_PISRT_LIMIT then some (st1, limit1)
    else PISRT_for compar k st1 begin (cur + 1) limit1

/-- `CPDQS_PISRT(dest, _begin, nmemb)`: partial insertion sort; the Boolean is `dest`.
For `nmemb <= 1` the macro reads `limit` without having set it: no result. -/
def CPDQS_PISRT (compar : α → α → Int) (st : St α) (begin nmemb : Nat) :
    Option (St α × Bool) :=
  if nmemb > 1 then do
    let (st1, limit) ← PISRT_for compar (nmemb - 1) st begin 1 0
    some (st1, decide (limit ≤ CPDQS_PISRT_LIMIT))
  else none

/-! ### Partitioning -/

/-- The scan `while (compar(first += size, pivot) < 0);` of `CPDQS_PAR`; returns the final
`first`.  The fuel is the distance from `first` to the end of the array. -/
def PAR_first (compar : α → α → Int) : Nat → St α → α → Nat → Option (St α × Nat)
  | 0, _, _, _ => none
  | fuel + 1, st, pivot, first => do
    let first := first + 1
    let x ← rd st first
    if compar x pivot < 0 then PAR_first compar fuel (tick st) pivot first
    else some (tick st, first)

/-- The scan `while (!(compar(last -= size, pivot) < 0));` of `CPDQS_PAR`, by recursion on
`last`; returns the final `last`.  Stepping below the first cell is an access outside the
array. -/
def PAR_last (compar : α → α → Int) : Nat → St α → α → Option (St α × Nat)
  | 0, _, _ => none
  | last + 1, st, pivot => do
    let x ← rd st last
    if ¬ (compar x pivot < 0) then PAR_last compar last (tick st) pivot
    else some (tick st, last)

/-- The scan `while (first < last && !(compar(last -= size, pivot) < 0));`. -/
def PAR_last_guarded (compar : α → α → Int) : Nat → St α → α → Nat → Option (St α × Nat)
  | 0, st, _, _ => some (st, 0)
  | last + 1, st, pivot, first =>
    if first < last + 1 then do
      let x ← rd st last
      if ¬ (compar x pivot < 0) then PAR_last_guarded compar last (tick st) pivot first
      else some (tick st, last)
    else some (st, last + 1)

/-- The loop `while (first < last) { swap; scan; scan }` of `CPDQS_PAR`; returns the
final `first`. -/
def PAR_loop (compar : α → α → Int) : Nat → St α → α → Nat → Nat → Option (St α × Nat)
  | 0, st, _, first, last => if first < last then none else some (st, first)
  | fuel + 1, st, pivot, first, last =>
    if first < last then do
      let st1 ← CPDQS_SW st first last
      let (st2, first) ← PAR_first compar (st1.mem.length - first) st1 pivot first
      let (st3, last) ← PAR_last compar last st2 pivot
      PAR_loop compar fuel st3 pivot first last
    else some (st, first)

/-- `CPDQS_PAR(pos, already_partitioned, base, nmemb)`: partition around the pivot at
`base`, elements equal to the pivot going right; returns `pos` and
`already_partitioned`. -/
def CPDQS_PAR (compar : α → α → Int) (st : St α) (base nmemb : Nat) :
    Option (St α × Nat × Bool) := do
  let pbegin := base
  let first := pbegin
  let last := pbegin + nmemb
  let pivot ← rd st pbegin
  let (st1, first) ← PAR_first compar (st.mem.length - first) st pivot first
  let (st2, last) ←
    if first - 1 = pbegin then PAR_last_guarded compar last st1 pivot first
    else PAR_last compar last st1 pivot
  let already_partitioned := decide (first ≥ last)
  let (st3, first) ← PAR_loop compar (last - first) st2 pivot first last
  let x ← rd st3 (first - 1)
  let st4 ← wr st3 pbegin x
  let st5 ← wr st4 (first - 1) pivot
  some (st5, first - 1, already_partitioned)

/-- The loop `while (first < last) { swap; scan; scan }` of `CPDQS_PAR` as in `PAR_loop`,
returning the final `last` together with the final `first`. -/
def PAR_loop_ptrs (compar : α → α → Int) :
    Nat → St α → α → Nat → Nat → Option (St α × Nat × Nat)
  | 0, st, _, first, last => if first < last then none else some (st, first, last)
  | fuel + 1, st, pivot, first, last =>
    if first < last then do
      let st1 ← CPDQS_SW st first last
      let (st2, first) ← PAR_first compar (st1.mem.length - first) st1 pivot first
      let (st3, last) ← PAR_last compar last st2 pivot
      PAR_loop_ptrs compar fuel st3 pivot first last
    else some (st, first, last)

/-- `CPDQS_PAR` up to the exit of its swap loop, before the pivot is put in place: the
state there and the values of `first` and `last`. -/
def CPDQS_PAR_ptrs (compar : α → α → Int) (st : St α) (base nmemb : Nat) :
    Option (St α × Nat × Nat) := do
  let pbegin := base
  let first := pbegin
  let last := pbegin + nmemb
  let pivot ← rd st pbegin
  let (st1, first) ← PAR_first compar (st.mem.length - first) st pivot first
  let (st2, last) ←
    if first - 1 = pbegin then PAR_last_guarded compar last st1 pivot first
    else PAR_last compar last st1 pivot
  PAR_loop_ptrs compar (last - first) st2 pivot first last

/-- The scan `while (compar(pivot, (last -= size)) < 0);` of `CPDQS_PAL`, by recursion on
`last`. -/
def PAL_last (compar : α → α → Int) : Nat → St α → α → Option (St α × Nat)
  | 0, _, _ => none
  | last + 1, st, pivot => do
    let x ← rd st last
    if compar pivot x < 0 then PAL_last compar last (tick st) pivot
    else some (tick st, last)

/-- The scan `while (!(compar(pivot, first += size) < 0));` of `CPDQS_PAL`. -/
def PAL_first (compar : α → α → Int) : Nat → St α → α → Nat → Option (St α × Nat)
  | 0, _, _, _ => none
  | fuel + 1, st, pivot, first => do
    let first := first + 1
    let x ← rd st first
    if ¬ (compar pivot x < 0) then PAL_first compar fuel (tick st) pivot first
    else some (tick st, first)

/-- The scan `while (first < last && !(compar(pivot, first += size) < 0));`. -/
def PAL_first_guarded (compar : α → α → Int) :
    Nat → St α → α → Nat → Nat → Option (St α × Nat)
  | 0, _, _, _, _ => none
  | fuel + 1, st, pivot, first, last =>
    if first < last then do
      let first := first + 1
      let x ← rd st first
      if ¬ (compar pivot x < 0) then PAL_first_guarded compar fuel (tick st) pivot first last
      else some (tick st, first)
    else some (st, first)

/-- The loop `while (first < last) { swap; scan; scan }` of `CPDQS_PAL`; returns the
final `last`. -/
def PAL_loop (compar : α → α → Int) : Nat → St α → α → Nat → Nat → Option (St α × Nat)
  | 0, st, _, first, last => if first < last then none else some (st, last)
  | fuel + 1, st, pivot, first, last =>
    if first < last then do
      let st1 ← CPDQS_SW st first last
      let (st2, last) ← PAL_last compar last st1 pivot
      let (st3, first) ← PAL_first compar (st2.mem.length - first) st2 pivot first
      PAL_loop compar fuel st3 pivot first last
    else some (st, last)

/-- `CPDQS_PAL(pos, base, nmemb)`: partition around the pivot at `base`, elements equal to
the pivot going left; returns `pos`. -/
def CPDQS_PAL (compar : α → α → Int) (st : St α) (base nmemb : Nat) :
    Option (St α × Nat) := do
  let pbegin := base
  let pend := pbegin + nmemb
  let first := pbegin
  let last := pend
  let pivot ← rd st pbegin
  let (st1, last) ← PAL_last compar last st pivot
  let (st2, first) ←
    if last + 1 = pend then
      PAL_first_guarded compar (st1.mem.length + 1 - first) st1 pivot first last
    else PAL_first compar (st1.mem.length - first) st1 pivot first
  let (st3, last) ← PAL_loop compar (last - first) st2 pivot first last
  let x ← rd st3 last
  let st4 ← wr st3 pbegin x
  let st5 ← wr st4 last pivot
  some (st5, last)

/-- `CPDQS_PAL` up to the exit of its swap loop, before the pivot is put in place: the
state there and the value of `last`. -/
def CPDQS_PAL_ptrs (compar : α → α → Int) (st : St α) (base nmemb : Nat) :
    Option (St α × Nat) := do
  let pbegin := base
  let pend := pbegin + nmemb
  let first := pbegin
  let last := pend
  let pivot ← rd st pbegin
  let (st1, last) ← PAL_last compar last st pivot
  let (st2, first) ←
    if last + 1 = pend then
      PAL_first_guarded compar (st1.mem.length + 1 - first) st1 pivot first last
    else PAL_first compar (st1.mem.length - first) st1 pivot first
  PAL_loop compar (last - first) st2 pivot first last

/-! ### Heapsort -/

/-- The `while (1)` sift-down loop of `CPDQS_HSRTM`; `bound` is `nmemb` in the first
phase and `cur` in the second. -/
def HSRTM_sift (compar : α → α → Int) : Nat → St α → Nat → Nat → Nat → Option (St α)
  | 0, _, _, _, _ => none
  | fuel + 1, st, begin, bound, node =>
    let left := 2 * node + 1
    let right := left + 1
    if left ≥ bound then some st
    else do
      let (useLeft, st1) ←
        if left = bound - 1 then some (true, st)
        else do
          let r ← rd st (begin + right)
          let l ← rd st (begin + left)
          some (decide (compar r l < 0), tick st)
      let child := if useLeft then left else right
      let n ← rd st1 (begin + node)
      let c ← rd st1 (begin + child)
      let st2 := tick st1
      if compar n c < 0 then do
        let st3 ← CPDQS_SW st2 (begin + node) (begin + child)
        HSRTM_sift compar fuel st3 begin bound child
      else some st2

/-- The loop `for (cur = nmemb >> 1; cur--;)` of `CPDQS_HSRTM`, by recursion on the value
of `cur` before the decrement. -/
def HSRTM_heapify (compar : α → α → Int) : Nat → St α → Nat → Nat → Option (St α)
  | 0, st, _, _ => some st
  | cur + 1, st, begin, nmemb => do
    let st1 ← HSRTM_sift compar nmemb st begin nmemb cur
    HSRTM_heapify compar cur st1 begin nmemb

/-- The loop `for (cur = nmemb; --cur >= 1;)` of `CPDQS_HSRTM`, by recursion on the value
of `cur` after the decrement. -/
def HSRTM_extract (compar : α → α → Int) : Nat → St α → Nat → Option (St α)
  | 0, st, _ => some st
  | k + 1, st, begin => do
    let cur := k + 1
    let st1 ← CPDQS_SW st (begin + cur) begin
    let st2 ← HSRTM_sift compar cur st1 begin cur 0
    HSRTM_extract compar k st2 begin

/-- `CPDQS_HSRTM(base, nmemb)`. -/
def CPDQS_HSRTM (compar : α → α → Int) (st : St α) (base nmemb : Nat) : Option (St α) :=
  if nmemb > 1 then do
    let st1 ← HSRTM_heapify compar (nmemb / 2) st base nmemb
    HSRTM_extract compar (nmemb - 1) st1 base
  else some st

/-- `heapsort(base, nmemb, _size, _compar)`; the array starts at element 0 of `base`. -/
def heapsort (compar : α → α → Int) (base : List α) (nmemb _size : Nat) : Option (St α) :=
  CPDQS_HSRTM compar ⟨base, 0⟩ 0 nmemb

/-! ### The pdqsort driver -/

/-- Pivot selection of `CPDQS_PDQSRTL`: ninther above `CPDQS_T9THER`, else median of
three. -/
def PDQSRTL_pivot (compar : α → α → Int) (st : St α) (begin end_ tlen : Nat) :
    Option (St α) :=
  let s2 := tlen / 2
  if tlen > CPDQS_T9THER then do
    let st1 ← CPDQS_SRT3 compar st begin (begin + s2) (end_ - 1)
    let st2 ← CPDQS_SRT3 compar st1 (begin + 1) (begin + (s2 - 1)) (end_ - 2)
    let st3 ← CPDQS_SRT3 compar st2 (begin + 2) (begin + (s2 + 1)) (end_ - 3)
    let st4 ← CPDQS_SRT3 compar st3 (begin + (s2 - 1)) (begin + s2) (begin + (s2 + 1))
    CPDQS_SW st4 begin (begin + s2)
  else CPDQS_SRT3 compar st (begin + s2) begin (end_ - 1)

/-- The swaps of the highly unbalanced branch on the left partition. -/
def PDQSRTL_shuffle_left (st : St α) (begin pivot_pos l_size : Nat) : Option (St α) :=
  if l_size ≥ CPDQS_ISRT_THRESHOLD then do
    let st1 ← CPDQS_SW st begin (begin + l_size / 4)
    let st2 ← CPDQS_SW st1 (pivot_pos - 1) (pivot_pos - l_size / 4)
    if l_size > CPDQS_T9THER then do
      let st3 ← CPDQS_SW st2 (begin + 1) (begin + (l_size / 4 + 1))
      let st4 ← CPDQS_SW st3 (begin + 2) (begin + (l_size / 4 + 2))
      let st5 ← CPDQS_SW st4 (pivot_pos - 2) (pivot_pos - (l_size / 4 + 1))
      CPDQS_SW st5 (pivot_pos - 3) (pivot_pos - (l_size / 4 + 2))
    else some st2
  else some st

/-- The swaps of the highly unbalanced branch on the right partition. -/
def PDQSRTL_shuffle_right (st : St α) (pivot_pos end_ r_size : Nat) : Option (St α) :=
  if r_size ≥ CPDQS_ISRT_THRESHOLD then do
    let st1 ← CPDQS_SW st (pivot_pos + 1) (pivot_pos + (1 + r_size / 4))
    let st2 ← CPDQS_SW st1 (end_ - 1) (end_ - r_size / 4)
    if r_size > CPDQS_T9THER then do
      let st3 ← CPDQS_SW st2 (pivot_pos + 2) (pivot_pos + (2 + r_size / 4))
      let st4 ← CPDQS_SW st3 (pivot_pos + 3) (pivot_pos + (3 + r_size / 4))
      let st5 ← CPDQS_SW st4 (end_ - 2) (end_ - (1 + r_size / 4))
      CPDQS_SW st5 (end_ - 3) (end_ - (2 + r_size / 4))
    else some st2
  else some st

/-- `CPDQS_SW` applied to each pair of positions of a list in turn. -/
def SW_all : St α → List (Nat × Nat) → Option (St α)
  | st, [] => some st
  | st, (a, b) :: t => do
    let st1 ← CPDQS_SW st a b
    SW_all st1 t

/-- The pairs of positions that the highly unbalanced branch swaps on the left partition,
in the order of the source. -/
def PDQSRTL_shuffle_left_swaps (begin pivot_pos l_size : Nat) : List (Nat × Nat) :=
  if l_size ≥ CPDQS_ISRT_THRESHOLD then
    [(begin, begin + l_size / 4), (pivot_pos - 1, pivot_pos - l_size / 4)] ++
      (if l_size > CPDQS_T9THER then
        [(begin + 1, begin + (l_size / 4 + 1)), (begin + 2, begin + (l_size / 4 + 2)),
          (pivot_pos - 2, pivot_pos - (l_size / 4 + 1)),
          (pivot_pos - 3, pivot_pos - (l_size / 4 + 2))]
      else [])
  else []

/-- The pairs of positions that the highly unbalanced branch swaps on the right partition,
in the order of the source. -/
def PDQSRTL_shuffle_right_swaps (pivot_pos end_ r_size : Nat) : List (Nat × Nat) :=
  if r_size ≥ CPDQS_ISRT_THRESHOLD then
    [(pivot_pos + 1, pivot_pos + (1 + r_size / 4)), (end_ - 1, end_ - r_size / 4)] ++
      (if r_size > CPDQS_T9THER then
        [(pivot_pos + 2, pivot_pos + (2 + r_size / 4)),
          (pivot_pos + 3, pivot_pos + (3 + r_size / 4)),
          (end_ - 2, end_ - (1 + r_size / 4)), (end_ - 3, end_ - (2 + r_size / 4))]
      else [])
  else []

/-- The two pushes at the end of the loop body, as the entries put on the stack, topmost
first: `[begin, pivot_pos)` is pushed first, `[pivot_pos + 1, end)` second and so ends on
top. -/
def PDQSRTL_push (begin end_ pivot_pos bad_allowed : Nat) (is_leftmost : Bool) :
    List Frame :=
  [⟨pivot_pos + 1, end_, bad_allowed, false⟩, ⟨begin, pivot_pos, bad_allowed, is_leftmost⟩]

/-- `--bad_allowed` on an `unsigned int`. -/
def dec_u32 (n : Nat) : Nat := (n + 4294967296 - 1) % 4294967296

/-- The test `!is_leftmost && !(compar(begin - 1, begin) < 0)` of the equal-to-predecessor
shortcut; the comparator is called only when `is_leftmost` is 0. -/
def PDQSRTL_shortcut_test (compar : α → α → Int) (st : St α) (begin : Nat)
    (is_leftmost : Bool) : Option (Bool × St α) :=
  if ¬ is_leftmost then
    if begin = 0 then none
    else do
      let a ← rd st (begin - 1)
      let b ← rd st begin
      some (decide (¬ (compar a b < 0)), tick st)
  else some (false, st)

/-- The branch `if (highly_unbalanced)` of the loop body and, when it does not end in
`continue`, the two pushes that follow it. -/
def PDQSRTL_unbalanced (compar : α → α → Int) (st : St α)
    (begin end_ pivot_pos bad_allowed : Nat) (is_leftmost : Bool) :
    Option (St α × List Frame) :=
  let tlen := end_ - begin
  let l_size := pivot_pos - begin
  let r_size := (end_ - pivot_pos) - 1
  let bad_allowed := dec_u32 bad_allowed
  if bad_allowed = 0 then do
    let st1 ← CPDQS_HSRTM compar st begin tlen
    some (st1, [])
  else do
    let st1 ← PDQSRTL_shuffle_left st begin pivot_pos l_size
    let st2 ← PDQSRTL_shuffle_right st1 pivot_pos end_ r_size
    some (st2, PDQSRTL_push begin end_ pivot_pos bad_allowed is_leftmost)

/-- The `else` branch of `if (highly_unbalanced)` and, when it does not end in `continue`,
the two pushes that follow it. -/
def PDQSRTL_balanced (compar : α → α → Int) (st : St α)
    (begin end_ pivot_pos bad_allowed : Nat) (is_leftmost already_partitioned : Bool) :
    Option (St α × List Frame) :=
  if already_partitioned then do
    let (st1, pisrt_ok) ← CPDQS_PISRT compar st begin (pivot_pos - begin)
    if pisrt_ok then do
      let (st2, pisrt_ok) ← CPDQS_PISRT compar st1 (pivot_pos + 1) ((end_ - pivot_pos) - 1)
      if pisrt_ok then some (st2, [])
      else some (st2, PDQSRTL_push begin end_ pivot_pos bad_allowed is_leftmost)
    else some (st1, PDQSRTL_push begin end_ pivot_pos bad_allowed is_leftmost)
  else some (st, PDQSRTL_push begin end_ pivot_pos bad_allowed is_leftmost)

/-- One pass through the body of `while (top != NULL)` for the popped entry `f`: the new
state and the entries pushed, topmost first.  Every `continue` of the body ends the pass
with nothing pushed. -/
def PDQSRTL_step (compar : α → α → Int) (st : St α) (f : Frame) :
    Option (St α × List Frame) :=
  let begin := f.begin
  let end_ := f.end_
  let bad_allowed := f.bad_allowed
  let is_leftmost := f.is_leftmost
  let tlen := end_ - begin
  if tlen < CPDQS_ISRT_THRESHOLD then do
    let st1 ← if is_leftmost then CPDQS_ISRT compar st begin tlen
              else CPDQS_UISRT compar st begin tlen
    some (st1, [])
  else do
    let st1 ← PDQSRTL_pivot compar st begin end_ tlen
    let (shortcut, st2) ← PDQSRTL_shortcut_test compar st1 begin is_leftmost
    if shortcut then do
      let (st3, _pos) ← CPDQS_PAL compar st2 begin tlen
      some (st3, [])
    else do
      let (st3, pivot_pos, already_partitioned) ← CPDQS_PAR compar st2 begin tlen
      let l_size := pivot_pos - begin
      let r_size := (end_ - pivot_pos) - 1
      let highly_unbalanced := decide (l_size < tlen / 8 ∨ r_size < tlen / 8)
      if highly_unbalanced then
        PDQSRTL_unbalanced compar st3 begin end_ pivot_pos bad_allowed is_leftmost
      else
        PDQSRTL_balanced compar st3 begin end_ pivot_pos bad_allowed is_leftmost
          already_partitioned

/-- The loop `while (top != NULL)`: pop, run the body, push. -/
def PDQSRTL_loop (compar : α → α → Int) : Nat → St α → List Frame → Option (St α)
  | _, st, [] => some st
  | 0, _, _ :: _ => none
  | fuel + 1, st, f :: top => do
    let (st1, pushed) ← PDQSRTL_step compar st f
    PDQSRTL_loop compar fuel st1 (pushed ++ top)

/-- The first `k` passes of the loop `while (top != NULL)`: the state and the stack at the
loop test that follows them (fewer passes are made when the stack runs empty). -/
def PDQSRTL_passes (compar : α → α → Int) :
    Nat → St α → List Frame → Option (St α × List Frame)
  | 0, st, stack => some (st, stack)
  | _ + 1, st, [] => some (st, [])
  | k + 1, st, f :: top => do
    let (st1, pushed) ← PDQSRTL_step compar st f
    PDQSRTL_passes compar k st1 (pushed ++ top)

/-- The entry `CPDQS_PDQSRTL` pushes before its loop. -/
def PDQSRTL_init (nmemb size : Nat) : Frame :=
  ⟨0, nmemb, CPDQS_LOG2 size, true⟩

/-- `CPDQS_PDQSRTL(base, nmemb)` for an array starting at element 0. -/
def CPDQS_PDQSRTL (compar : α → α → Int) (size : Nat) (st : St α) (nmemb : Nat) :
    Option (St α) :=
  PDQSRTL_loop compar (2 * nmemb + 1) st [PDQSRTL_init nmemb size]

/-- `CPDQS_PDQSRTM(base, nmemb)`. -/
def CPDQS_PDQSRTM (compar : α → α → Int) (size : Nat) (st : St α) (nmemb : Nat) :
    Option (St α) :=
  if nmemb > 1 then CPDQS_PDQSRTL compar size st nmemb else some st

/-- `pdqsort(base, nmemb, _size, _compar)`: the final state, whose `mem` is the array
after the call and whose `calls` is the number of comparator calls. -/
def pdqsort (compar : α → α → Int) (base : List α) (nmemb size : Nat) : Option (St α) :=
  CPDQS_PDQSRTM compar size ⟨base, 0⟩ nmemb

/-- The ascending comparator on integers of the end-to-end scenarios. -/
def int_compar (a b : Int) : Int := if a < b then -1 else if b < a then 1 else 0

end Cpdqsort


namespace Cpdqsort

/-! ## Evaluation at concrete inputs -/

/-- The array of scenario E3, `[0, 1, ..., 99]`. -/
def E3_input : List Int := (List.range 100).map Int.ofNat

/-- Twenty-four equal elements followed by a descending pair. -/
def dup_input : List Int := List.replicate 24 1 ++ [3, 2]

/-- A sorted array with a run of equal elements: fourteen ones, then `2, 3, ..., 12`. -/
def sorted_dup_input : List Int :=
  List.replicate 14 1 ++ (List.range 11).map (fun i => Int.ofNat i + 2)

/-- The array `dup_input` after the first pass of the driver loop: partition-right has
left the pivot at position 0 and the shuffle of the right side has exchanged positions
20 and 25. -/
def dup_after_first_pass : List Int :=
  List.replicate 20 1 ++ [2, 1, 1, 1, 3, 1]

/-- A range of 24 distinct integers with the median of its first, middle and last element
in front: `12`, then `0, ..., 11`, then `13, ..., 23`. -/
def PAR_input : List Int :=
  12 :: ((List.range 12).map Int.ofNat ++ (List.range 11).map (fun i => Int.ofNat i + 13))

/-- The array `PAR_input` after partition-right: the pivot 12 stands at position 12 and
the element that was there stands in front. -/
def PAR_output : List Int :=
  11 :: ((List.range 11).map Int.ofNat ++ (List.range 12).map (fun i => Int.ofNat i + 12))

end Cpdqsort


namespace Cpdqsort

variable {α : Type}

/-! ## Specification vocabulary -/

/-- The comparator induces a strict weak ordering: `compar a b < 0` is irreflexive and
transitive, and being unordered either way is transitive. -/
structure StrictWeakOrder (compar : α → α → Int) : Prop where
  irrefl : ∀ a, ¬ compar a a < 0
  trans : ∀ a b c, compar a b < 0 → compar b c < 0 → compar a c < 0
  incomp_trans : ∀ a b c, ¬ compar a b < 0 → ¬ compar b a < 0 →
    ¬ compar b c < 0 → ¬ compar c b < 0 → ¬ compar a c < 0 ∧ ¬ compar c a < 0

/-- The element in cell `i`, with `d` standing in for cells outside the array. -/
def cell (d : α) (m : List α) (i : Nat) : α := (m[i]?).getD d

/-- The array with cells `a` and `b` exchanged. -/
def swapL (d : α) (m : List α) (a b : Nat) : List α :=
  (m.set a (cell d m b)).set b (cell d m a)

/-- The array `m2` arises from `m` by a sequence of exchanges of two cells, all inside
`[b, e)`. -/
inductive PermOn (b e : Nat) : List α → List α → Prop
  | refl (m : List α) : PermOn b e m m
  | step (m m2 : List α) (i j : Nat) (x y : α) :
      b ≤ i → i < e → b ≤ j → j < e → m[i]? = some x → m[j]? = some y →
      PermOn b e ((m.set i y).set j x) m2 → PermOn b e m m2

/-- Cells `[b, e)` are in non-decreasing order: no later element is less than an earlier
one. -/
def SortedOn (compar : α → α → Int) (d : α) (m : List α) (b e : Nat) : Prop :=
  ∀ i j, b ≤ i → i < j → j < e → ¬ compar (cell d m j) (cell d m i) < 0

/-- The whole list is in non-decreasing order, stated on neighbours as in the contract:
`A[i] <= A[i+1]`, that is, not `compar(A[i+1], A[i]) < 0`. -/
def Sorted (compar : α → α → Int) (m : List α) : Prop :=
  ∀ i x y, m[i]? = some x → m[i + 1]? = some y → ¬ compar y x < 0

/-- Executable test for `Sorted`: no element is less than its left neighbour. -/
def sortedB (compar : α → α → Int) : List α → Bool
  | [] => true
  | [_] => true
  | a :: b :: t => !decide (compar b a < 0) && sortedB compar (b :: t)

/-- Max-heap order on the cells `begin + i`, `i < bound`, at every node `i ≥ lo` other
than `hole`: the node is not less than either child. -/
def HeapExcept (compar : α → α → Int) (d : α) (m : List α) (begin bound lo hole : Nat) :
    Prop :=
  ∀ i c, lo ≤ i → i ≠ hole → (c = 2 * i + 1 ∨ c = 2 * i + 2) → c < bound →
    ¬ compar (cell d m (begin + i)) (cell d m (begin + c)) < 0

/-- The parent of `hole`, when it is a node `≥ lo`, is not less than the children of
`hole`. -/
def HeapAbove (compar : α → α → Int) (d : α) (m : List α) (begin bound lo hole : Nat) :
    Prop :=
  ∀ p c, lo ≤ p → (hole = 2 * p + 1 ∨ hole = 2 * p + 2) →
    (c = 2 * hole + 1 ∨ c = 2 * hole + 2) → c < bound →
    ¬ compar (cell d m (begin + p)) (cell d m (begin + c)) < 0

/-- Max-heap order at every node `i ≥ lo`. -/
def HeapFrom (compar : α → α → Int) (d : α) (m : List α) (begin bound lo : Nat) : Prop :=
  ∀ i c, lo ≤ i → (c = 2 * i + 1 ∨ c = 2 * i + 2) → c < bound →
    ¬ compar (cell d m (begin + i)) (cell d m (begin + c)) < 0

/-- Loop invariant of `CPDQS_PAR` at the test `first < last`, for the range `[p, e)` with
the pivot kept at `p`: everything before `first` is less than the pivot, everything after
`last` is not, and the two scans have stopped on elements to exchange. -/
structure ParInv (compar : α → α → Int) (d : α) (pivot : α) (p e : Nat) (m : List α)
    (first last : Nat) : Prop where
  hp : p < first
  hfe : first < e
  hle : last < e
  hlen : e ≤ m.length
  atp : cell d m p = pivot
  left : ∀ i, p < i → i < first → compar (cell d m i) pivot < 0
  right : ∀ i, last < i → i < e → ¬ compar (cell d m i) pivot < 0
  atfirst : ¬ compar (cell d m first) pivot < 0
  atlast : first < last → compar (cell d m last) pivot < 0

/-- Loop invariant of `CPDQS_PAL` at the test `first < last`: everything after `last` is
greater than the pivot, everything before `first` is not. -/
structure PalInv (compar : α → α → Int) (d : α) (pivot : α) (p e : Nat) (m : List α)
    (first last : Nat) : Prop where
  hp : p ≤ last
  hle : last < e
  hlen : e ≤ m.length
  atp : cell d m p = pivot
  right : ∀ i, last < i → i < e → compar pivot (cell d m i) < 0
  left : ∀ i, p < i → i < first → ¬ compar pivot (cell d m i) < 0
  atlast : ¬ compar pivot (cell d m last) < 0
  atfirst : first < last → p < first ∧ compar pivot (cell d m first) < 0

/-- A stack entry is well formed for the array `m`: its range lies inside the array, and
an entry that is not leftmost has, just before its range, an element that no element of
the range is less than. -/
def FrameOK (compar : α → α → Int) (d : α) (m : List α) (f : Frame) : Prop :=
  f.begin ≤ f.end_ ∧ f.end_ ≤ m.length ∧
    (f.is_leftmost = false → 1 ≤ f.begin ∧
      ∀ i, f.begin ≤ i → i < f.end_ → ¬ compar (cell d m i) (cell d m (f.begin - 1)) < 0)

/-- The stack, topmost entry first, is well formed below `hi`: every entry is well formed
and ends at or before `hi`, and the entries under it end before the cell that precedes
its range. -/
def StackOK (compar : α → α → Int) (d : α) (m : List α) : Nat → List Frame → Prop
  | _, [] => True
  | hi, f :: rest => FrameOK compar d m f ∧ f.end_ ≤ hi ∧ StackOK compar d m (f.begin - 1) rest

/-- Number of passes of the driver loop that the stack can still cause, as an upper
bound. -/
def stackMeasure : List Frame → Nat
  | [] => 0
  | f :: rest => 2 * (f.end_ - f.begin) + 1 + stackMeasure rest

/-- Two cells of the first `n` that do not both lie in the range of one stack entry are
already in order. -/
def Settled (compar : α → α → Int) (d : α) (m : List α) (n : Nat) (stack : List Frame) :
    Prop :=
  ∀ i j, i < j → j < n → (∀ f ∈ stack, ¬ (f.begin ≤ i ∧ j < f.end_)) →
    ¬ compar (cell d m j) (cell d m i) < 0

/-- No two of the first `n` cells hold elements that the comparator leaves unordered. -/
def Distinct (compar : α → α → Int) (d : α) (m : List α) (n : Nat) : Prop :=
  ∀ i j, i < n → j < n → i ≠ j →
    compar (cell d m i) (cell d m j) < 0 ∨ compar (cell d m j) (cell d m i) < 0

/-- The list is strictly decreasing: each element is less than the one before it. -/
def StrictlyDecreasing (compar : α → α → Int) (m : List α) : Prop :=
  ∀ i x y, m[i]? = some x → m[i + 1]? = some y → compar y x < 0

/-- The range `[b, e)` is partitioned around cell `pos`: everything before it is less
than the element at `pos`, nothing after it is. -/
def Partitioned (compar : α → α → Int) (d : α) (m : List α) (b pos e : Nat) : Prop :=
  (∀ i, b ≤ i → i < pos → compar (cell d m i) (cell d m pos) < 0) ∧
    ∀ i, pos < i → i < e → ¬ compar (cell d m i) (cell d m pos) < 0

/-- What a pass of the driver loop leaves behind on the range `[b, e)` of the popped
entry: either nothing is pushed and the range is sorted, or the pass took the
equal-to-predecessor shortcut (then some element of the range is not greater than the
element before the range), or the two halves of a partition are pushed. -/
def StepPost (compar : α → α → Int) (d : α) (m m2 : List α) (f : Frame)
    (pushed : List Frame) : Prop :=
  (pushed = [] ∧ (SortedOn compar d m2 f.begin f.end_ ∨
      (f.is_leftmost = false ∧ ∃ i, f.begin ≤ i ∧ i < f.end_ ∧
        ¬ compar (cell d m (f.begin - 1)) (cell d m i) < 0))) ∨
    ∃ pos bad, f.begin ≤ pos ∧ pos < f.end_ ∧
      pushed = PDQSRTL_push f.begin f.end_ pos bad f.is_leftmost ∧
      Partitioned compar d m2 f.begin pos f.end_

/-- The cells strictly between `b` and `e` are partitioned against `pivot`: every element
less than the pivot stands before every element that is not. -/
def AlreadyPartitioned (compar : α → α → Int) (m : List α) (pivot : α) (b e : Nat) : Prop :=
  ∀ i j x y, b < i → i < e → b < j → j < e → m[i]? = some x → m[j]? = some y →
    compar x pivot < 0 → ¬ compar y pivot < 0 → i < j

/-- Number of inversions of a list: pairs of positions `i < j` whose elements are out of
order, the later one less than the earlier one. -/
def inversions (compar : α → α → Int) : List α → Nat
  | [] => 0
  | x :: t => t.countP (fun y => decide (compar y x < 0)) + inversions compar t

end Cpdqsort


namespace Cpdqsort

variable {α : Type}

/-! ## Cells, reads and writes -/

theorem getElem?_eq_cell (d : α) {m : List α} {i : Nat} (h : i < m.length) :
    m[i]? = some (cell d m i) := by
  simp [cell, List.getElem?_eq_getElem h]

theorem cell_of_getElem? (d : α) {m : List α} {i : Nat} {x : α} (h : m[i]? = some x) :
    cell d m i = x := by
  simp [cell, h]

theorem lt_length_of_getElem? {m : List α} {i : Nat} {x : α} (h : m[i]? = some x) :
    i < m.length := by
  rcases List.getElem?_eq_some.1 h with ⟨h1, _⟩
  exact h1

theorem cell_set (d : α) (m : List α) (i j : Nat) (v : α) :
    cell d (m.set i v) j = if i = j ∧ i < m.length then v else cell d m j := by
  unfold cell
  rw [List.getElem?_set]
  by_cases h : i = j
  · subst h
    by_cases h2 : i < m.length
    · simp [h2]
    · simp [h2, List.getElem?_eq_none (Nat.le_of_not_lt h2)]
  · simp [h]

theorem cell_set_eq (d : α) {m : List α} {i : Nat} (v : α) (h : i < m.length) :
    cell d (m.set i v) i = v := by
  simp [cell_set, h]

theorem cell_set_ne (d : α) (m : List α) {i j : Nat} (v : α) (h : i ≠ j) :
    cell d (m.set i v) j = cell d m j := by
  simp [cell_set, h]

@[simp] theorem tick_mem (st : St α) : (tick st).mem = st.mem := rfl

@[simp] theorem tick_calls (st : St α) : (tick st).calls = st.calls + 1 := rfl

theorem rd_eq (d : α) {st : St α} {i : Nat} (h : i < st.mem.length) :
    rd st i = some (cell d st.mem i) :=
  getElem?_eq_cell d h

theorem rd_tick (st : St α) (i : Nat) : rd (tick st) i = rd st i := rfl

theorem wr_eq {st : St α} {i : Nat} (v : α) (h : i < st.mem.length) :
    wr st i v = some ⟨st.mem.set i v, st.calls⟩ := by
  simp [wr, h]

theorem length_swapL (d : α) (m : List α) (a b : Nat) :
    (swapL d m a b).length = m.length := by
  simp [swapL]

theorem cell_swapL (d : α) {m : List α} {a b : Nat} (ha : a < m.length)
    (hb : b < m.length) (i : Nat) :
    cell d (swapL d m a b) i =
      if i = b then cell d m a else if i = a then cell d m b else cell d m i := by
  unfold swapL
  rw [cell_set, cell_set]
  by_cases h1 : i = b
  · subst h1
    simp [hb]
  · by_cases h2 : i = a
    · subst h2
      have : ¬ b = i := fun h => h1 h.symm
      simp [this, ha, h1]
    · have h3 : ¬ b = i := fun h => h1 h.symm
      have h4 : ¬ a = i := fun h => h2 h.symm
      simp [h1, h2, h3, h4]

theorem SW_eq (d : α) {st : St α} {a b : Nat} (ha : a < st.mem.length)
    (hb : b < st.mem.length) :
    CPDQS_SW st a b = some ⟨swapL d st.mem a b, st.calls⟩ := by
  simp [CPDQS_SW, rd_eq d ha, rd_eq d hb, wr, ha, hb, swapL]

/-! ## Strict weak orderings -/

theorem StrictWeakOrder.asymm {compar : α → α → Int} (h : StrictWeakOrder compar)
    {a b : α} (hab : compar a b < 0) : ¬ compar b a < 0 :=
  fun hba => h.irrefl a (h.trans a b a hab hba)

/-- "Not less" is transitive: from `c ≤ b` and `b ≤ a` follows `c ≤ a`. -/
theorem StrictWeakOrder.not_lt_trans {compar : α → α → Int} (h : StrictWeakOrder compar)
    {a b c : α} (hab : ¬ compar a b < 0) (hbc : ¬ compar b c < 0) : ¬ compar a c < 0 := by
  intro hac
  by_cases hba : compar b a < 0
  · exact hbc (h.trans b a c hba hac)
  · by_cases hcb : compar c b < 0
    · exact hab (h.trans a c b hac hcb)
    · exact (h.incomp_trans a b c hab hba hbc hcb).1 hac

theorem StrictWeakOrder.lt_of_lt_of_not_lt {compar : α → α → Int}
    (h : StrictWeakOrder compar) {a b c : α} (hab : compar a b < 0)
    (hcb : ¬ compar c b < 0) : compar a c < 0 := by
  by_contra hac
  exact h.not_lt_trans hac hcb hab

theorem StrictWeakOrder.lt_of_not_lt_of_lt {compar : α → α → Int}
    (h : StrictWeakOrder compar) {a b c : α} (hba : ¬ compar b a < 0)
    (hbc : compar b c < 0) : compar a c < 0 := by
  by_contra hac
  exact h.not_lt_trans hba hac hbc

theorem int_compar_lt (a b : Int) : int_compar a b < 0 ↔ a < b := by
  unfold int_compar
  split_ifs <;> omega

theorem int_compar_swo : StrictWeakOrder int_compar := by
  refine ⟨?_, ?_, ?_⟩
  · intro a
    simp [int_compar_lt]
  · intro a b c
    simp only [int_compar_lt]
    omega
  · intro a b c
    simp only [int_compar_lt]
    omega

/-! ## Exchanges inside a range -/

theorem PermOn.length_eq {b e : Nat} {m m2 : List α} (h : PermOn b e m m2) :
    m2.length = m.length := by
  induction h with
  | refl m => rfl
  | step m m2 i j x y _ _ _ _ _ _ _ ih => simpa using ih

theorem PermOn.trans {b e : Nat} {m m2 m3 : List α} (h1 : PermOn b e m m2)
    (h2 : PermOn b e m2 m3) : PermOn b e m m3 := by
  induction h1 with
  | refl m => exact h2
  | step m m2 i j x y hi1 hi2 hj1 hj2 hx hy _ ih =>
    exact PermOn.step m m3 i j x y hi1 hi2 hj1 hj2 hx hy (ih h2)

theorem PermOn.mono {b e b2 e2 : Nat} {m m2 : List α} (h : PermOn b e m m2)
    (hb : b2 ≤ b) (he : e ≤ e2) : PermOn b2 e2 m m2 := by
  induction h with
  | refl m => exact PermOn.refl m
  | step m m2 i j x y hi1 hi2 hj1 hj2 hx hy _ ih =>
    exact PermOn.step m m2 i j x y (by omega) (by omega) (by omega) (by omega) hx hy ih

theorem PermOn.swap (d : α) {b e : Nat} {m : List α} {i j : Nat} (hi1 : b ≤ i)
    (hi2 : i < e) (hj1 : b ≤ j) (hj2 : j < e) (hi : i < m.length) (hj : j < m.length) :
    PermOn b e m (swapL d m i j) :=
  PermOn.step m _ i j (cell d m i) (cell d m j) hi1 hi2 hj1 hj2 (getElem?_eq_cell d hi)
    (getElem?_eq_cell d hj) (PermOn.refl _)

theorem PermOn.cell_outside (d : α) {b e : Nat} {m m2 : List α} (h : PermOn b e m m2)
    {k : Nat} (hk : k < b ∨ e ≤ k) : cell d m2 k = cell d m k := by
  induction h with
  | refl m => rfl
  | step m m2 i j x y hi1 hi2 hj1 hj2 hx hy _ ih =>
    rw [ih, cell_set_ne, cell_set_ne]
    · omega
    · omega

theorem PermOn.forall_range (d : α) {b e : Nat} {m m2 : List α} (h : PermOn b e m m2)
    (P : α → Prop) (hP : ∀ k, b ≤ k → k < e → P (cell d m k)) :
    ∀ k, b ≤ k → k < e → P (cell d m2 k) := by
  induction h with
  | refl m => exact hP
  | step m m2 i j x y hi1 hi2 hj1 hj2 hx hy _ ih =>
    apply ih
    intro k hk1 hk2
    rw [cell_set, cell_set]
    have hx2 := cell_of_getElem? d hx
    have hy2 := cell_of_getElem? d hy
    split_ifs
    · rw [← hx2]; exact hP i hi1 hi2
    · rw [← hy2]; exact hP j hj1 hj2
    · exact hP k hk1 hk2

theorem set_perm_cons {x y : α} : ∀ {t : List α} {j : Nat}, t[j]? = some y →
    List.Perm (y :: t.set j x) (x :: t)
  | [], j, h => by simp at h
  | a :: t, 0, h => by
    simp at h
    subst h
    simpa using List.Perm.swap x a t
  | a :: t, j + 1, h => by
    simp at h
    have ih := set_perm_cons (x := x) h
    simp only [List.set_cons_succ]
    exact ((List.Perm.swap a y _).trans ((ih.cons a).trans (List.Perm.swap x a t)))

theorem set_set_perm_of_getElem? {x y : α} : ∀ {m : List α} {i j : Nat},
    m[i]? = some x → m[j]? = some y → List.Perm ((m.set i y).set j x) m
  | [], i, j, h, _ => by simp at h
  | a :: t, 0, 0, hx, hy => by
    simp at hx hy
    subst hx
    subst hy
    simp
  | a :: t, 0, j + 1, hx, hy => by
    simp at hx hy
    subst hx
    simpa using set_perm_cons (x := a) hy
  | a :: t, i + 1, 0, hx, hy => by
    simp at hx hy
    subst hy
    simpa using set_perm_cons (x := a) hx
  | a :: t, i + 1, j + 1, hx, hy => by
    simp at hx hy
    simpa using (set_set_perm_of_getElem? hx hy).cons a

theorem PermOn.perm {b e : Nat} {m m2 : List α} (h : PermOn b e m m2) : List.Perm m2 m := by
  induction h with
  | refl m => exact List.Perm.refl m
  | step m m2 i j x y _ _ _ _ hx hy _ ih =>
    exact ih.trans (set_set_perm_of_getElem? hx hy)

/-! ## The logarithm macro -/

theorem CPDQS_LOG2_loop_eq : ∀ (fuel n dest : Nat), n ≤ fuel →
    CPDQS_LOG2_loop fuel n dest = dest + Nat.log2 n := by
  intro fuel
  induction fuel with
  | zero =>
    intro n dest h
    have : n = 0 := by omega
    subst this
    simp [CPDQS_LOG2_loop, Nat.log2]
  | succ fuel ih =>
    intro n dest h
    rw [CPDQS_LOG2_loop]
    by_cases h2 : n / 2 = 0
    · rw [if_pos h2]
      have : ¬ n ≥ 2 := by omega
      rw [Nat.log2, if_neg this]
      rfl
    · rw [if_neg h2, ih (n / 2) (dest + 1) (by omega)]
      have : n ≥ 2 := by omega
      conv_rhs => rw [Nat.log2, if_pos this]
      omega

/-- `CPDQS_LOG2` computes `floor (log2 n)`, as the comment on the macro says. -/
theorem CPDQS_LOG2_eq (n : Nat) : CPDQS_LOG2 n = Nat.log2 n := by
  unfold CPDQS_LOG2
  rw [CPDQS_LOG2_loop_eq n n 0 (le_refl _)]
  omega

end Cpdqsort

namespace Cpdqsort

variable {α : Type}

/-! ## Heapsort -/

theorem HSRTM_sift_spec {compar : α → α → Int} (hswo : StrictWeakOrder compar) (d : α)
    (begin bound lo : Nat) :
    ∀ (fuel : Nat) (st : St α) (node : Nat),
      begin + bound ≤ st.mem.length → node < bound → bound ≤ node + fuel → lo ≤ node →
      HeapExcept compar d st.mem begin bound lo node →
      HeapAbove compar d st.mem begin bound lo node →
      ∃ st2, HSRTM_sift compar fuel st begin bound node = some st2 ∧
        PermOn (begin + node) (begin + bound) st.mem st2.mem ∧
        HeapFrom compar d st2.mem begin bound lo := by
  intro fuel
  induction fuel with
  | zero => intro st node _ h1 h2; omega
  | succ fuel ih =>
    intro st node hlen hnode hfuel hlo hex hab
    -- the common continuation once the child to compare with is chosen
    have key : ∀ (st1 : St α) (child : Nat), st1.mem = st.mem →
        (child = 2 * node + 1 ∨ child = 2 * node + 2) → child < bound →
        (∀ c, (c = 2 * node + 1 ∨ c = 2 * node + 2) → c < bound →
          ¬ compar (cell d st.mem (begin + child)) (cell d st.mem (begin + c)) < 0) →
        ∃ st2, ((rd st1 (begin + node)).bind fun n =>
            (rd st1 (begin + child)).bind fun c =>
              if compar n c < 0 then
                (CPDQS_SW (tick st1) (begin + node) (begin + child)).bind fun st3 =>
                  HSRTM_sift compar fuel st3 begin bound child
              else some (tick st1)) = some st2 ∧
          PermOn (begin + node) (begin + bound) st.mem st2.mem ∧
          HeapFrom compar d st2.mem begin bound lo := by
      intro st1 child hmem hchild hcb hother
      have hn : begin + node < st1.mem.length := by rw [hmem]; omega
      have hc : begin + child < st1.mem.length := by rw [hmem]; omega
      rw [rd_eq d hn, rd_eq d hc]
      simp only [Option.some_bind, hmem]
      by_cases hlt : compar (cell d st.mem (begin + node)) (cell d st.mem (begin + child)) < 0
      · rw [if_pos hlt]
        have hn2 : begin + node < (tick st1).mem.length := hn
        have hc2 : begin + child < (tick st1).mem.length := hc
        rw [SW_eq d hn2 hc2]
        simp only [Option.some_bind, tick_mem, hmem]
        have hn3 : begin + node < st.mem.length := by omega
        have hc3 : begin + child < st.mem.length := by omega
        have hcell_child : cell d (swapL d st.mem (begin + node) (begin + child))
            (begin + child) = cell d st.mem (begin + node) := by
          rw [cell_swapL d hn3 hc3, if_pos rfl]
        have hcell_node : cell d (swapL d st.mem (begin + node) (begin + child))
            (begin + node) = cell d st.mem (begin + child) := by
          rw [cell_swapL d hn3 hc3, if_neg (by omega), if_pos rfl]
        have hcell_other : ∀ k, k ≠ child → k ≠ node →
            cell d (swapL d st.mem (begin + node) (begin + child)) (begin + k) =
              cell d st.mem (begin + k) := by
          intro k h1 h2
          rw [cell_swapL d hn3 hc3, if_neg (by omega), if_neg (by omega)]
        obtain ⟨st2, hst2, hperm, hheap⟩ := ih
          ⟨swapL d st.mem (begin + node) (begin + child), (tick st1).calls⟩ child
          (by simp [length_swapL]; omega) hcb (by omega) (by omega)
          (by
            intro i c hi hne hc hcb2
            show ¬ compar (cell d (swapL d st.mem (begin + node) (begin + child)) (begin + i))
              (cell d (swapL d st.mem (begin + node) (begin + child)) (begin + c)) < 0
            by_cases h1 : i = node
            · subst h1
              rw [hcell_node]
              by_cases h2 : c = child
              · subst h2
                rw [hcell_child]; exact hswo.asymm hlt
              · rw [hcell_other c h2 (by omega)]
                exact hother c hc hcb2
            · rw [hcell_other i hne h1]
              by_cases h3 : c = node
              · subst h3
                rw [hcell_node]
                exact hab i child hi hc hchild hcb
              · rw [hcell_other c (by omega) h3]
                exact hex i c hi h1 hc hcb2)
          (by
            intro p c hp hpc hc hcb2
            have hpn : p = node := by omega
            subst hpn
            show ¬ compar (cell d (swapL d st.mem (begin + p) (begin + child)) (begin + p))
              (cell d (swapL d st.mem (begin + p) (begin + child)) (begin + c)) < 0
            rw [hcell_node, hcell_other c (by omega) (by omega)]
            exact hex child c (by omega) (by omega) hc hcb2)
        refine ⟨st2, hst2, ?_, hheap⟩
        exact (PermOn.swap d (by omega) (by omega) (by omega) (by omega) hn3 hc3).trans
          (hperm.mono (by omega) (le_refl _))
      · rw [if_neg hlt]
        refine ⟨tick st1, rfl, ?_, ?_⟩
        · rw [tick_mem, hmem]; exact PermOn.refl _
        · rw [tick_mem, hmem]
          intro i c hi hc hcb2
          by_cases h1 : i = node
          · subst h1
            exact hswo.not_lt_trans hlt (hother c hc hcb2)
          · exact hex i c hi h1 hc hcb2
    rw [HSRTM_sift]
    simp only []
    by_cases h1 : 2 * node + 1 ≥ bound
    · rw [if_pos h1]
      refine ⟨st, rfl, PermOn.refl _, ?_⟩
      intro i c hi hc hcb
      by_cases h2 : i = node
      · omega
      · exact hex i c hi h2 hc hcb
    · rw [if_neg h1]
      by_cases h2 : 2 * node + 1 = bound - 1
      · rw [if_pos h2]
        apply key st (2 * node + 1) rfl (Or.inl rfl) (by omega)
        intro c hc hcb
        have : c = 2 * node + 1 := by omega
        subst this
        exact hswo.irrefl _
      · rw [if_neg h2]
        have hr : begin + (2 * node + 1 + 1) < st.mem.length := by omega
        have hl : begin + (2 * node + 1) < st.mem.length := by omega
        rw [rd_eq d hr, rd_eq d hl]
        by_cases h3 : compar (cell d st.mem (begin + (2 * node + 1 + 1)))
            (cell d st.mem (begin + (2 * node + 1))) < 0
        · simp only [Option.bind_eq_bind, Option.some_bind, h3, decide_True]
          apply key (tick st) (2 * node + 1) rfl (Or.inl rfl) (by omega)
          intro c hc hcb
          rcases hc with hc | hc
          · subst hc; exact hswo.irrefl _
          · subst hc; exact hswo.asymm h3
        · simp only [Option.bind_eq_bind, Option.some_bind, h3, decide_False]
          apply key (tick st) (2 * node + 1 + 1) rfl (Or.inr rfl) (by omega)
          intro c hc hcb
          rcases hc with hc | hc
          · subst hc; exact h3
          · subst hc; exact hswo.irrefl _
theorem heap_root_max {compar : α → α → Int} (hswo : StrictWeakOrder compar) (d : α)
    {m : List α} {begin bound : Nat} (h : HeapFrom compar d m begin bound 0) :
    ∀ i, i < bound → ¬ compar (cell d m (begin + 0)) (cell d m (begin + i)) < 0 := by
  intro i
  induction i using Nat.strong_induction_on with
  | _ i ih =>
    intro hi
    by_cases h0 : i = 0
    · subst h0
      exact hswo.irrefl _
    · have hp : (i - 1) / 2 < i := by omega
      have h1 := ih ((i - 1) / 2) hp (by omega)
      have h2 := h ((i - 1) / 2) i (Nat.zero_le _) (by omega) hi
      exact hswo.not_lt_trans h1 h2

theorem HSRTM_heapify_spec {compar : α → α → Int} (hswo : StrictWeakOrder compar) (d : α)
    (begin nmemb : Nat) :
    ∀ (cur : Nat) (st : St α),
      begin + nmemb ≤ st.mem.length → cur ≤ nmemb →
      HeapFrom compar d st.mem begin nmemb cur →
      ∃ st2, HSRTM_heapify compar cur st begin nmemb = some st2 ∧
        PermOn begin (begin + nmemb) st.mem st2.mem ∧
        HeapFrom compar d st2.mem begin nmemb 0 := by
  intro cur
  induction cur with
  | zero =>
    intro st _ _ hheap
    exact ⟨st, rfl, PermOn.refl _, hheap⟩
  | succ cur ih =>
    intro st hlen hcur hheap
    obtain ⟨st1, hst1, hperm1, hheap1⟩ := HSRTM_sift_spec hswo d begin nmemb cur nmemb st cur
      hlen (by omega) (by omega) (le_refl _)
      (by
        intro i c hi hne hc hcb
        exact hheap i c (by omega) hc hcb)
      (by
        intro p c hp hpc hc hcb
        omega)
    have hlen1 : begin + nmemb ≤ st1.mem.length := by rw [hperm1.length_eq]; exact hlen
    obtain ⟨st2, hst2, hperm2, hheap2⟩ := ih st1 hlen1 (by omega) hheap1
    refine ⟨st2, ?_, ?_, hheap2⟩
    · rw [HSRTM_heapify]
      simp only [Option.bind_eq_bind, hst1, Option.some_bind, hst2]
    · exact (hperm1.mono (by omega) (le_refl _)).trans hperm2

theorem HSRTM_extract_spec {compar : α → α → Int} (hswo : StrictWeakOrder compar) (d : α)
    (begin nmemb : Nat) :
    ∀ (k : Nat) (st : St α),
      begin + nmemb ≤ st.mem.length → k < nmemb →
      HeapFrom compar d st.mem begin (k + 1) 0 →
      SortedOn compar d st.mem (begin + (k + 1)) (begin + nmemb) →
      (∀ i j, i ≤ k → k < j → j < nmemb →
        ¬ compar (cell d st.mem (begin + j)) (cell d st.mem (begin + i)) < 0) →
      ∃ st2, HSRTM_extract compar k st begin = some st2 ∧
        PermOn begin (begin + nmemb) st.mem st2.mem ∧
        SortedOn compar d st2.mem begin (begin + nmemb) := by
  intro k
  induction k with
  | zero =>
    intro st _ _ _ hsorted hle
    refine ⟨st, rfl, PermOn.refl _, ?_⟩
    intro i j hi hij hj
    by_cases h0 : i = begin
    · subst h0
      have := hle 0 (j - i) (le_refl _) (by omega) (by omega)
      rw [show i + (j - i) = j by omega] at this
      exact this
    · exact hsorted i j (by omega) hij hj
  | succ k ih =>
    intro st hlen hk hheap hsorted hle
    have hc : begin + (k + 1) < st.mem.length := by omega
    have hb : begin < st.mem.length := by omega
    have hcell_cur : cell d (swapL d st.mem (begin + (k + 1)) begin) (begin + (k + 1)) =
        cell d st.mem begin := by
      rw [cell_swapL d hc hb, if_neg (by omega), if_pos rfl]
    have hcell_root : cell d (swapL d st.mem (begin + (k + 1)) begin) begin =
        cell d st.mem (begin + (k + 1)) := by
      rw [cell_swapL d hc hb, if_pos rfl]
    have hcell_other : ∀ i, i ≠ 0 → i ≠ k + 1 →
        cell d (swapL d st.mem (begin + (k + 1)) begin) (begin + i) =
          cell d st.mem (begin + i) := by
      intro i h1 h2
      rw [cell_swapL d hc hb, if_neg (by omega), if_neg (by omega)]
    have hmax := heap_root_max hswo d hheap
    obtain ⟨st2, hst2, hperm2, hheap2⟩ := HSRTM_sift_spec hswo d begin (k + 1) 0 (k + 1)
      ⟨swapL d st.mem (begin + (k + 1)) begin, st.calls⟩ 0
      (by simp [length_swapL]; omega) (by omega) (by omega) (le_refl _)
      (by
        intro i c _ hne hc2 hcb
        show ¬ compar (cell d (swapL d st.mem (begin + (k + 1)) begin) (begin + i))
          (cell d (swapL d st.mem (begin + (k + 1)) begin) (begin + c)) < 0
        rw [hcell_other i hne (by omega), hcell_other c (by omega) (by omega)]
        exact hheap i c (Nat.zero_le _) hc2 (by omega))
      (by
        intro p c _ hpc
        omega)
    have hperm2b : PermOn begin (begin + (k + 1)) (swapL d st.mem (begin + (k + 1)) begin)
        st2.mem := by
      simpa using hperm2
    have hlen2 : begin + nmemb ≤ st2.mem.length := by
      rw [hperm2b.length_eq, length_swapL]; exact hlen
    have hout : ∀ j, k + 1 ≤ j → cell d st2.mem (begin + j) =
        cell d (swapL d st.mem (begin + (k + 1)) begin) (begin + j) := by
      intro j hj
      exact hperm2b.cell_outside d (Or.inr (by omega))
    obtain ⟨st3, hst3, hperm3, hsorted3⟩ := ih st2 hlen2 (by omega) hheap2
      (by
        intro i j hi hij hj
        have e1 : i = begin + (i - begin) := by omega
        have e2 : j = begin + (j - begin) := by omega
        rw [e1, e2, hout _ (by omega), hout _ (by omega)]
        rw [hcell_other (j - begin) (by omega) (by omega)]
        by_cases h1 : i - begin = k + 1
        · rw [h1, hcell_cur]
          have := hle 0 (j - begin) (Nat.zero_le _) (by omega) (by omega)
          simpa using this
        · rw [hcell_other (i - begin) (by omega) h1]
          have := hsorted i j (by omega) hij hj
          rw [e1, e2] at this
          exact this)
      (by
        intro i j hi hij hj
        rw [hout j (by omega)]
        have hP : ∀ x, begin ≤ x → x < begin + (k + 1) →
            ¬ compar (cell d (swapL d st.mem (begin + (k + 1)) begin) (begin + j))
              (cell d (swapL d st.mem (begin + (k + 1)) begin) x) < 0 := by
          intro x hx1 hx2
          have e1 : x = begin + (x - begin) := by omega
          rw [e1]
          by_cases hj2 : j = k + 1
          · subst hj2
            rw [hcell_cur]
            by_cases hx0 : x - begin = 0
            · rw [hx0]
              simp only [Nat.add_zero]
              rw [hcell_root]
              have := hmax (k + 1) (by omega)
              simpa using this
            · rw [hcell_other _ hx0 (by omega)]
              have := hmax (x - begin) (by omega)
              simpa using this
          · rw [hcell_other j (by omega) hj2]
            by_cases hx0 : x - begin = 0
            · rw [hx0]
              simp only [Nat.add_zero]
              rw [hcell_root]
              exact hle (k + 1) j (le_refl _) (by omega) hj
            · rw [hcell_other _ hx0 (by omega)]
              exact hle (x - begin) j (by omega) (by omega) hj
        exact hperm2b.forall_range d
          (fun y => ¬ compar (cell d (swapL d st.mem (begin + (k + 1)) begin) (begin + j)) y < 0)
          hP (begin + i) (by omega) (by omega))
    refine ⟨st3, ?_, ?_, hsorted3⟩
    · rw [HSRTM_extract]
      simp only [Option.bind_eq_bind]
      rw [SW_eq d hc hb]
      simp only [Option.some_bind, hst2, hst3]
    · exact ((PermOn.swap d (by omega) (by omega) (le_refl _) (by omega) hc hb).trans
        (hperm2b.mono (le_refl _) (by omega))).trans hperm3

theorem CPDQS_HSRTM_spec {compar : α → α → Int} (hswo : StrictWeakOrder compar) (d : α)
    (st : St α) (base nmemb : Nat) (hlen : base + nmemb ≤ st.mem.length) :
    ∃ st2, CPDQS_HSRTM compar st base nmemb = some st2 ∧
      PermOn base (base + nmemb) st.mem st2.mem ∧
      SortedOn compar d st2.mem base (base + nmemb) := by
  unfold CPDQS_HSRTM
  by_cases h : nmemb > 1
  · rw [if_pos h]
    obtain ⟨st1, hst1, hperm1, hheap1⟩ := HSRTM_heapify_spec hswo d base nmemb (nmemb / 2) st
      hlen (Nat.div_le_self _ _)
      (by
        intro i c hi hc hcb
        omega)
    have hlen1 : base + nmemb ≤ st1.mem.length := by rw [hperm1.length_eq]; exact hlen
    obtain ⟨st2, hst2, hperm2, hsorted⟩ := HSRTM_extract_spec hswo d base nmemb (nmemb - 1) st1
      hlen1 (by omega)
      (by rw [show nmemb - 1 + 1 = nmemb by omega]; exact hheap1)
      (by
        intro i j hi hij hj
        omega)
      (by
        intro i j hi hij hj
        omega)
    refine ⟨st2, ?_, hperm1.trans hperm2, hsorted⟩
    simp only [Option.bind_eq_bind, hst1, Option.some_bind, hst2]
  · rw [if_neg h]
    refine ⟨st, rfl, PermOn.refl _, ?_⟩
    intro i j hi hij hj
    omega

theorem sorted_nil (compar : α → α → Int) : Sorted compar ([] : List α) := by
  intro i x y h
  simp at h

theorem sorted_of_sortedOn {compar : α → α → Int} (d : α) {m : List α}
    (h : SortedOn compar d m 0 m.length) : Sorted compar m := by
  intro i x y hx hy
  have h1 := h i (i + 1) (Nat.zero_le _) (Nat.lt_succ_self _) (lt_length_of_getElem? hy)
  rw [cell_of_getElem? d hx, cell_of_getElem? d hy] at h1
  exact h1

end Cpdqsort


namespace Cpdqsort

variable {α : Type}

/-! ## Insertion sorts -/

theorem set_cell_self (d : α) {m : List α} {i : Nat} (h : i < m.length) :
    m.set i (cell d m i) = m := by
  apply List.ext_getElem?
  intro j
  rw [List.getElem?_set]
  by_cases hij : i = j
  · subst hij
    simp [h, getElem?_eq_cell d h]
  · simp [hij]

theorem swapL_set_hole (d : α) {m : List α} {p q : Nat} (tmp : α) (hpq : p ≠ q)
    (hp : p < m.length) :
    (m.set p (cell d m q)).set q tmp = swapL d (m.set p tmp) p q := by
  unfold swapL
  rw [cell_set_ne d m tmp hpq, cell_set_eq d tmp hp, List.set_set]

theorem ISRT_shift_spec (compar : α → α → Int) (d : α) (begin : Nat) (tmp : α) :
    ∀ (fuel : Nat) (st : St α) (s : Nat),
      begin + s + 1 < st.mem.length → s < fuel →
      ∃ st2 f, ISRT_shift compar fuel st begin tmp (s + 1) s = some (st2, f) ∧
        f ≤ s ∧ st2.mem.length = st.mem.length ∧
        (∀ i, cell d st2.mem i =
          if begin + f < i ∧ i ≤ begin + s + 1 then cell d st.mem (i - 1)
          else cell d st.mem i) ∧
        (∀ i, f ≤ i → i < s → compar tmp (cell d st.mem (begin + i)) < 0) ∧
        (f = 0 ∨ ¬ compar tmp (cell d st.mem (begin + f - 1)) < 0) ∧
        PermOn (begin + f) (begin + s + 2) (st.mem.set (begin + s + 1) tmp)
          (st2.mem.set (begin + f) tmp) := by
  intro fuel
  induction fuel with
  | zero => intro st s _ h; omega
  | succ fuel ih =>
    intro st s hlen hfuel
    have h1 : begin + s < st.mem.length := by omega
    have h2 : begin + (s + 1) < st.mem.length := by omega
    rw [ISRT_shift]
    simp only [Option.bind_eq_bind]
    rw [rd_eq d h1, Option.some_bind, wr_eq _ h2, Option.some_bind]
    simp only [Nat.add_sub_cancel]
    have hm1 : ∀ j, cell d (st.mem.set (begin + (s + 1)) (cell d st.mem (begin + s))) j =
        if j = begin + s + 1 then cell d st.mem (begin + s) else cell d st.mem j := by
      intro j
      rw [cell_set]
      by_cases hj : j = begin + s + 1
      · rw [if_pos hj, if_pos ⟨by omega, h2⟩]
      · rw [if_neg hj, if_neg (by omega)]
    have hswap : PermOn (begin + s) (begin + s + 2) (st.mem.set (begin + s + 1) tmp)
        ((st.mem.set (begin + (s + 1)) (cell d st.mem (begin + s))).set (begin + s) tmp) := by
      rw [swapL_set_hole d tmp (by omega) h2]
      exact PermOn.swap d (by omega) (by omega) (by omega) (by omega) (by simpa using h2)
        (by simpa using h1)
    by_cases hs : s = 0
    · subst hs
      rw [if_neg (by simp)]
      refine ⟨_, 0, rfl, le_refl _, by simp, ?_, ?_, Or.inl rfl, ?_⟩
      · intro i
        rw [hm1]
        by_cases hi : i = begin + 0 + 1
        · rw [if_pos hi, if_pos (by omega)]
          congr 1
          omega
        · rw [if_neg hi, if_neg (by omega)]
      · intro i _ hi
        omega
      · exact hswap
    · rw [if_pos hs]
      obtain ⟨s2, rfl⟩ : ∃ s2, s = s2 + 1 := ⟨s - 1, by omega⟩
      simp only [Nat.add_sub_cancel]
      have h3 : begin + s2 < (St.mk (st.mem.set (begin + (s2 + 1 + 1))
          (cell d st.mem (begin + (s2 + 1)))) st.calls).mem.length := by
        simp; omega
      rw [rd_eq d h3, Option.some_bind]
      simp only [hm1]
      rw [if_neg (show ¬ begin + s2 = begin + (s2 + 1) + 1 by omega)]
      by_cases hlt : compar tmp (cell d st.mem (begin + s2)) < 0
      · rw [if_pos hlt]
        obtain ⟨st2, f, hst2, hf, hlen2, hpt, hgt, hle, hperm⟩ := ih
          (tick ⟨st.mem.set (begin + (s2 + 1 + 1)) (cell d st.mem (begin + (s2 + 1))), st.calls⟩)
          s2 (by simp; omega) (by omega)
        simp only [tick_mem] at hlen2 hpt hgt hle hperm
        refine ⟨st2, f, hst2, by omega, by simpa using hlen2, ?_, ?_, ?_, ?_⟩
        · intro i
          rw [hpt i]
          by_cases hi1 : begin + f < i ∧ i ≤ begin + s2 + 1
          · rw [if_pos hi1, if_pos (by omega), hm1, if_neg (by omega)]
          · rw [if_neg hi1, hm1]
            by_cases hi2 : i = begin + (s2 + 1) + 1
            · rw [if_pos hi2, if_pos (by omega)]
              congr 1
              omega
            · rw [if_neg hi2, if_neg (by omega)]
        · intro i hi1 hi2
          by_cases hi3 : i = s2
          · subst hi3; exact hlt
          · have := hgt i hi1 (by omega)
            rw [hm1, if_neg (by omega)] at this
            exact this
        · rcases hle with hle | hle
          · exact Or.inl hle
          · right
            rw [hm1, if_neg (by omega)] at hle
            exact hle
        · have e1 : begin + s2 + 1 = begin + (s2 + 1) := by omega
          rw [e1] at hperm
          exact (hswap.mono (by omega) (le_refl _)).trans (hperm.mono (le_refl _) (by omega))
      · rw [if_neg hlt]
        refine ⟨_, s2 + 1, rfl, le_refl _, by simp, ?_, ?_, Or.inr ?_, ?_⟩
        · intro i
          simp only [tick_mem]
          rw [hm1]
          by_cases hi : i = begin + (s2 + 1) + 1
          · rw [if_pos hi, if_pos (by omega)]
            congr 1
            omega
          · rw [if_neg hi, if_neg (by omega)]
        · intro i hi1 hi2
          omega
        · simpa using hlt
        · simpa using hswap

theorem insert_sorted {compar : α → α → Int} (hswo : StrictWeakOrder compar) (d : α)
    {m m2 : List α} {b f c : Nat} {t : α} (hbf : b ≤ f) (hfc : f ≤ c)
    (hs : SortedOn compar d m b c)
    (hcell : ∀ i, cell d m2 i =
      if i = f then t else if f < i ∧ i ≤ c then cell d m (i - 1) else cell d m i)
    (hgt : ∀ i, f ≤ i → i < c → compar t (cell d m i) < 0)
    (hle : f = b ∨ ¬ compar t (cell d m (f - 1)) < 0) :
    SortedOn compar d m2 b (c + 1) := by
  intro i j hi hij hj
  rw [hcell i, hcell j]
  by_cases hjf : j = f
  · rw [if_pos hjf, if_neg (by omega), if_neg (by omega)]
    rcases hle with hle | hle
    · omega
    · by_cases hif : i = f - 1
      · rw [hif]; exact hle
      · exact hswo.not_lt_trans hle (hs i (f - 1) hi (by omega) (by omega))
  · rw [if_neg hjf]
    by_cases hjf2 : f < j
    · rw [if_pos ⟨hjf2, by omega⟩]
      by_cases hif : i = f
      · rw [if_pos hif]
        exact hswo.asymm (hgt (j - 1) (by omega) (by omega))
      · rw [if_neg hif]
        by_cases hif2 : f < i
        · rw [if_pos ⟨hif2, by omega⟩]
          exact hs (i - 1) (j - 1) (by omega) (by omega) (by omega)
        · rw [if_neg (by omega)]
          exact hs i (j - 1) hi (by omega) (by omega)
    · rw [if_neg (by omega), if_neg (by omega), if_neg (by omega)]
      exact hs i j hi hij (by omega)

theorem sortedOn_snoc {compar : α → α → Int} (hswo : StrictWeakOrder compar) (d : α)
    {m : List α} {b c : Nat} (hbc : b < c) (hs : SortedOn compar d m b c)
    (hle : ¬ compar (cell d m c) (cell d m (c - 1)) < 0) : SortedOn compar d m b (c + 1) := by
  intro i j hi hij hj
  by_cases hjc : j = c
  · subst hjc
    by_cases hic : i = j - 1
    · rw [hic]; exact hle
    · exact hswo.not_lt_trans hle (hs i (j - 1) hi (by omega) (by omega))
  · exact hs i j hi hij (by omega)

theorem PISRT_body_spec {compar : α → α → Int} (hswo : StrictWeakOrder compar) (d : α)
    (st : St α) (begin cur limit : Nat) (hcur : 1 ≤ cur) (hlen : begin + cur < st.mem.length)
    (hs : SortedOn compar d st.mem begin (begin + cur)) :
    ∃ st2 limit2, PISRT_body compar st begin cur limit = some (st2, limit2) ∧
      PermOn begin (begin + cur + 1) st.mem st2.mem ∧
      SortedOn compar d st2.mem begin (begin + cur + 1) := by
  obtain ⟨s, rfl⟩ : ∃ s, cur = s + 1 := ⟨cur - 1, by omega⟩
  have h1 : begin + (s + 1) < st.mem.length := hlen
  have h2 : begin + s < st.mem.length := by omega
  unfold PISRT_body
  simp only [Option.bind_eq_bind, Nat.add_sub_cancel]
  rw [rd_eq d h1, Option.some_bind, rd_eq d h2, Option.some_bind]
  by_cases hlt : compar (cell d st.mem (begin + (s + 1))) (cell d st.mem (begin + s)) < 0
  · rw [if_pos hlt]
    obtain ⟨st2, f, hst2, hf, hlen2, hpt, hgt, hle, hperm⟩ := ISRT_shift_spec compar d begin
      (cell d st.mem (begin + (s + 1))) (s + 1 + 1) (tick st) s (by simpa using hlen) (by omega)
    simp only [tick_mem] at hlen2 hpt hgt hle hperm
    rw [hst2, Option.some_bind]
    have h3 : begin + f < st2.mem.length := by omega
    rw [wr_eq _ h3, Option.some_bind]
    refine ⟨_, _, rfl, ?_, ?_⟩
    · have e : st.mem.set (begin + s + 1) (cell d st.mem (begin + (s + 1))) = st.mem := by
        have := set_cell_self d h1
        rw [show begin + (s + 1) = begin + s + 1 by omega] at this
        rw [show begin + (s + 1) = begin + s + 1 by omega]
        exact this
      rw [e] at hperm
      exact hperm.mono (by omega) (by omega)
    · apply insert_sorted hswo d (b := begin) (f := begin + f) (c := begin + (s + 1))
        (t := cell d st.mem (begin + (s + 1))) (m := st.mem) (by omega) (by omega) hs
      · intro i
        show cell d (st2.mem.set (begin + f) (cell d st.mem (begin + (s + 1)))) i = _
        rw [cell_set]
        by_cases hi : i = begin + f
        · rw [if_pos ⟨hi.symm, h3⟩, if_pos hi]
        · rw [if_neg (by omega), if_neg hi, hpt]
          by_cases hi2 : begin + f < i ∧ i ≤ begin + s + 1
          · rw [if_pos hi2, if_pos (by omega)]
          · rw [if_neg hi2, if_neg (by omega)]
      · intro i hi1 hi2
        by_cases hi3 : i = begin + s
        · rw [hi3]; exact hlt
        · have := hgt (i - begin) (by omega) (by omega)
          rw [show begin + (i - begin) = i by omega] at this
          exact this
      · rcases hle with hle | hle
        · left; omega
        · right; exact hle
  · rw [if_neg hlt]
    refine ⟨_, _, rfl, ?_, ?_⟩
    · rw [tick_mem]; exact PermOn.refl _
    · rw [tick_mem]
      apply sortedOn_snoc hswo d (by omega) hs
      simpa using hlt

theorem ISRT_body_eq (compar : α → α → Int) (st : St α) (begin cur limit : Nat) :
    ISRT_body compar st begin cur =
      (PISRT_body compar st begin cur limit).map Prod.fst := by
  unfold ISRT_body PISRT_body
  simp only [Option.bind_eq_bind]
  cases rd st (begin + cur) with
  | none => rfl
  | some a =>
    cases rd st (begin + (cur - 1)) with
    | none => rfl
    | some b =>
      simp only [Option.some_bind]
      split_ifs with h
      · cases ISRT_shift compar (cur + 1) (tick st) begin a cur (cur - 1) with
        | none => rfl
        | some r =>
          simp only [Option.some_bind]
          cases wr r.1 (begin + r.2) a <;> rfl
      · rfl

theorem ISRT_body_spec {compar : α → α → Int} (hswo : StrictWeakOrder compar) (d : α)
    (st : St α) (begin cur : Nat) (hcur : 1 ≤ cur) (hlen : begin + cur < st.mem.length)
    (hs : SortedOn compar d st.mem begin (begin + cur)) :
    ∃ st2, ISRT_body compar st begin cur = some st2 ∧
      PermOn begin (begin + cur + 1) st.mem st2.mem ∧
      SortedOn compar d st2.mem begin (begin + cur + 1) := by
  obtain ⟨st2, l2, h, hperm, hsorted⟩ := PISRT_body_spec hswo d st begin cur 0 hcur hlen hs
  exact ⟨st2, by rw [ISRT_body_eq compar st begin cur 0, h]; rfl, hperm, hsorted⟩

theorem ISRT_for_spec {compar : α → α → Int} (hswo : StrictWeakOrder compar) (d : α)
    (begin : Nat) :
    ∀ (k : Nat) (st : St α) (cur : Nat), 1 ≤ cur → begin + cur + k ≤ st.mem.length →
      SortedOn compar d st.mem begin (begin + cur) →
      ∃ st2, ISRT_for compar k st begin cur = some st2 ∧
        PermOn begin (begin + cur + k) st.mem st2.mem ∧
        SortedOn compar d st2.mem begin (begin + cur + k) := by
  intro k
  induction k with
  | zero =>
    intro st cur _ _ hs
    exact ⟨st, rfl, PermOn.refl _, hs⟩
  | succ k ih =>
    intro st cur hcur hlen hs
    obtain ⟨st1, h1, hperm1, hs1⟩ := ISRT_body_spec hswo d st begin cur hcur (by omega) hs
    obtain ⟨st2, h2, hperm2, hs2⟩ := ih st1 (cur + 1) (by omega)
      (by rw [hperm1.length_eq]; omega) hs1
    refine ⟨st2, ?_, ?_, ?_⟩
    · rw [ISRT_for]
      simp only [Option.bind_eq_bind, h1, Option.some_bind, h2]
    · rw [show begin + cur + (k + 1) = begin + (cur + 1) + k by omega]
      exact (hperm1.mono (le_refl _) (by omega)).trans hperm2
    · rw [show begin + cur + (k + 1) = begin + (cur + 1) + k by omega]
      exact hs2

theorem sortedOn_short (compar : α → α → Int) (d : α) (m : List α) (b e : Nat)
    (h : e ≤ b + 1) : SortedOn compar d m b e := by
  intro i j hi hij hj
  omega

theorem CPDQS_ISRT_spec {compar : α → α → Int} (hswo : StrictWeakOrder compar) (d : α)
    (st : St α) (begin nmemb : Nat) (hlen : begin + nmemb ≤ st.mem.length) :
    ∃ st2, CPDQS_ISRT compar st begin nmemb = some st2 ∧
      PermOn begin (begin + nmemb) st.mem st2.mem ∧
      SortedOn compar d st2.mem begin (begin + nmemb) := by
  unfold CPDQS_ISRT
  by_cases h : nmemb > 1
  · rw [if_pos h]
    obtain ⟨st2, h2, hperm, hs⟩ := ISRT_for_spec hswo d begin (nmemb - 1) st 1 (le_refl _)
      (by omega) (sortedOn_short compar d _ _ _ (le_refl _))
    rw [show begin + 1 + (nmemb - 1) = begin + nmemb by omega] at hperm hs
    exact ⟨st2, h2, hperm, hs⟩
  · rw [if_neg h]
    exact ⟨st, rfl, PermOn.refl _, sortedOn_short compar d _ _ _ (by omega)⟩

theorem PISRT_for_spec {compar : α → α → Int} (hswo : StrictWeakOrder compar) (d : α)
    (begin : Nat) :
    ∀ (k : Nat) (st : St α) (cur limit : Nat), 1 ≤ cur → begin + cur + k ≤ st.mem.length →
      SortedOn compar d st.mem begin (begin + cur) →
      ∃ st2 limit2, PISRT_for compar k st begin cur limit = some (st2, limit2) ∧
        PermOn begin (begin + cur + k) st.mem st2.mem ∧
        (limit2 ≤ CPDQS_PISRT_LIMIT → SortedOn compar d st2.mem begin (begin + cur + k)) := by
  intro k
  induction k with
  | zero =>
    intro st cur limit _ _ hs
    exact ⟨st, limit, rfl, PermOn.refl _, fun _ => hs⟩
  | succ k ih =>
    intro st cur limit hcur hlen hs
    obtain ⟨st1, l1, h1, hperm1, hs1⟩ :=
      PISRT_body_spec hswo d st begin cur limit hcur (by omega) hs
    rw [PISRT_for]
    simp only [Option.bind_eq_bind, h1, Option.some_bind]
    by_cases hl : l1 > CPDQS_PISRT_LIMIT
    · rw [if_pos hl]
      refine ⟨st1, l1, rfl, hperm1.mono (le_refl _) (by omega), ?_⟩
      intro h
      omega
    · rw [if_neg hl]
      obtain ⟨st2, l2, h2, hperm2, hs2⟩ := ih st1 (cur + 1) l1 (by omega)
        (by rw [hperm1.length_eq]; omega) hs1
      rw [show begin + cur + (k + 1) = begin + (cur + 1) + k by omega]
      exact ⟨st2, l2, h2, (hperm1.mono (le_refl _) (by omega)).trans hperm2, hs2⟩

theorem CPDQS_PISRT_spec {compar : α → α → Int} (hswo : StrictWeakOrder compar) (d : α)
    (st : St α) (begin nmemb : Nat) (hn : 1 < nmemb) (hlen : begin + nmemb ≤ st.mem.length) :
    ∃ st2 ok, CPDQS_PISRT compar st begin nmemb = some (st2, ok) ∧
      PermOn begin (begin + nmemb) st.mem st2.mem ∧
      (ok = true → SortedOn compar d st2.mem begin (begin + nmemb)) := by
  unfold CPDQS_PISRT
  rw [if_pos hn]
  obtain ⟨st2, l2, h2, hperm, hs⟩ := PISRT_for_spec hswo d begin (nmemb - 1) st 1 0
    (le_refl _) (by omega) (sortedOn_short compar d _ _ _ (le_refl _))
  rw [show begin + 1 + (nmemb - 1) = begin + nmemb by omega] at hperm hs
  simp only [Option.bind_eq_bind, h2, Option.some_bind]
  refine ⟨st2, _, rfl, hperm, ?_⟩
  intro hok
  exact hs (by simpa using hok)

theorem UISRT_shift_spec (compar : α → α → Int) (d : α) (tmp : α) (q : Nat) :
    ∀ (fuel : Nat) (st : St α) (s : Nat),
      q < s → s + 1 < st.mem.length → s ≤ q + fuel →
      ¬ compar tmp (cell d st.mem q) < 0 →
      ∃ st2 f, UISRT_shift compar fuel st tmp (s + 1) s = some (st2, f) ∧
        q < f ∧ f ≤ s ∧ st2.mem.length = st.mem.length ∧
        (∀ i, cell d st2.mem i =
          if f < i ∧ i ≤ s + 1 then cell d st.mem (i - 1) else cell d st.mem i) ∧
        (∀ i, f ≤ i → i < s → compar tmp (cell d st.mem i) < 0) ∧
        ¬ compar tmp (cell d st.mem (f - 1)) < 0 ∧
        PermOn f (s + 2) (st.mem.set (s + 1) tmp) (st2.mem.set f tmp) := by
  intro fuel
  induction fuel with
  | zero => intro st s h1 _ h2; omega
  | succ fuel ih =>
    intro st s hq hlen hfuel hstop
    have h1 : s < st.mem.length := by omega
    rw [UISRT_shift]
    simp only [Option.bind_eq_bind]
    rw [rd_eq d h1, Option.some_bind, wr_eq _ hlen, Option.some_bind]
    simp only [Nat.add_sub_cancel]
    rw [if_neg (by omega)]
    have hm1 : ∀ j, cell d (st.mem.set (s + 1) (cell d st.mem s)) j =
        if j = s + 1 then cell d st.mem s else cell d st.mem j := by
      intro j
      rw [cell_set]
      by_cases hj : j = s + 1
      · rw [if_pos hj, if_pos ⟨by omega, hlen⟩]
      · rw [if_neg hj, if_neg (by omega)]
    have hswap : PermOn s (s + 2) (st.mem.set (s + 1) tmp)
        ((st.mem.set (s + 1) (cell d st.mem s)).set s tmp) := by
      rw [swapL_set_hole d tmp (by omega) hlen]
      exact PermOn.swap d (by omega) (by omega) (by omega) (by omega) (by simpa using hlen)
        (by simpa using h1)
    have h3 : s - 1 < (St.mk (st.mem.set (s + 1) (cell d st.mem s)) st.calls).mem.length := by
      simp; omega
    rw [rd_eq d h3, Option.some_bind]
    simp only [hm1]
    rw [if_neg (show ¬ s - 1 = s + 1 by omega)]
    by_cases hlt : compar tmp (cell d st.mem (s - 1)) < 0
    · rw [if_pos hlt]
      have hq2 : q < s - 1 := by
        by_contra hcon
        have : s - 1 = q := by omega
        rw [this] at hlt
        exact hstop hlt
      obtain ⟨s2, rfl⟩ : ∃ s2, s = s2 + 1 := ⟨s - 1, by omega⟩
      simp only [Nat.add_sub_cancel] at hlt hq2 ⊢
      obtain ⟨st2, f, hst2, hqf, hf, hlen2, hpt, hgt, hle, hperm⟩ := ih
        (tick ⟨st.mem.set (s2 + 1 + 1) (cell d st.mem (s2 + 1)), st.calls⟩)
        s2 hq2 (by simp; omega) (by omega)
        (by
          simp only [tick_mem]
          rw [hm1, if_neg (by omega)]
          exact hstop)
      simp only [tick_mem] at hlen2 hpt hgt hle hperm
      refine ⟨st2, f, hst2, hqf, by omega, by simpa using hlen2, ?_, ?_, ?_, ?_⟩
      · intro i
        rw [hpt i]
        by_cases hi1 : f < i ∧ i ≤ s2 + 1
        · rw [if_pos hi1, if_pos (by omega), hm1, if_neg (by omega)]
        · rw [if_neg hi1, hm1]
          by_cases hi2 : i = s2 + 1 + 1
          · rw [if_pos hi2, if_pos (by omega)]
            congr 1
            omega
          · rw [if_neg hi2, if_neg (by omega)]
      · intro i hi1 hi2
        by_cases hi3 : i = s2
        · subst hi3; exact hlt
        · have := hgt i hi1 (by omega)
          rw [hm1, if_neg (by omega)] at this
          exact this
      · rw [hm1, if_neg (by omega)] at hle
        exact hle
      · exact (hswap.mono (by omega) (le_refl _)).trans (hperm.mono (le_refl _) (by omega))
    · rw [if_neg hlt]
      refine ⟨_, s, rfl, hq, le_refl _, by simp, ?_, ?_, hlt, ?_⟩
      · intro i
        simp only [tick_mem]
        rw [hm1]
        by_cases hi : i = s + 1
        · rw [if_pos hi, if_pos (by omega)]
          congr 1
          omega
        · rw [if_neg hi, if_neg (by omega)]
      · intro i hi1 hi2
        omega
      · simpa using hswap

theorem UISRT_body_spec {compar : α → α → Int} (hswo : StrictWeakOrder compar) (d : α)
    (st : St α) (begin cur : Nat) (hcur : 1 ≤ cur) (hlen : begin + cur < st.mem.length)
    (hb : 1 ≤ begin)
    (hsent : ¬ compar (cell d st.mem (begin + cur)) (cell d st.mem (begin - 1)) < 0)
    (hs : SortedOn compar d st.mem begin (begin + cur)) :
    ∃ st2, UISRT_body compar st begin cur = some st2 ∧
      PermOn begin (begin + cur + 1) st.mem st2.mem ∧
      SortedOn compar d st2.mem begin (begin + cur + 1) := by
  obtain ⟨s, rfl⟩ : ∃ s, cur = s + 1 := ⟨cur - 1, by omega⟩
  have e0 : begin + (s + 1) = begin + s + 1 := by omega
  rw [e0] at hlen hsent hs ⊢
  have h2 : begin + s < st.mem.length := by omega
  unfold UISRT_body
  simp only [Option.bind_eq_bind, Nat.add_sub_cancel]
  rw [e0, rd_eq d hlen, Option.some_bind, rd_eq d h2, Option.some_bind]
  by_cases hlt : compar (cell d st.mem (begin + s + 1)) (cell d st.mem (begin + s)) < 0
  · rw [if_pos hlt]
    obtain ⟨st2, f, hst2, hqf, hf, hlen2, hpt, hgt, hle, hperm⟩ := UISRT_shift_spec compar d
      (cell d st.mem (begin + s + 1)) (begin - 1) (begin + s + 1 + 1) (tick st) (begin + s)
      (by omega) (by simpa using hlen) (by omega) (by simpa using hsent)
    simp only [tick_mem] at hlen2 hpt hgt hle hperm
    rw [hst2, Option.some_bind]
    have h3 : f < st2.mem.length := by omega
    rw [wr_eq _ h3]
    refine ⟨_, rfl, ?_, ?_⟩
    · rw [set_cell_self d hlen] at hperm
      exact hperm.mono (by omega) (by omega)
    · apply insert_sorted hswo d (b := begin) (f := f) (c := begin + s + 1)
        (t := cell d st.mem (begin + s + 1)) (m := st.mem) (by omega) (by omega) hs
      · intro i
        show cell d (st2.mem.set f (cell d st.mem (begin + s + 1))) i = _
        rw [cell_set]
        by_cases hi : i = f
        · rw [if_pos ⟨hi.symm, h3⟩, if_pos hi]
        · rw [if_neg (by omega), if_neg hi, hpt]
      · intro i hi1 hi2
        by_cases hi3 : i = begin + s
        · rw [hi3]
          exact hlt
        · exact hgt i hi1 (by omega)
      · right; exact hle
  · rw [if_neg hlt]
    refine ⟨_, rfl, ?_, ?_⟩
    · rw [tick_mem]; exact PermOn.refl _
    · rw [tick_mem]
      apply sortedOn_snoc hswo d (by omega) hs
      simpa using hlt

theorem UISRT_for_spec {compar : α → α → Int} (hswo : StrictWeakOrder compar) (d : α)
    (begin : Nat) (hb : 1 ≤ begin) :
    ∀ (k : Nat) (st : St α) (cur : Nat), 1 ≤ cur → begin + cur + k ≤ st.mem.length →
      (∀ i, begin ≤ i → i < begin + cur + k →
        ¬ compar (cell d st.mem i) (cell d st.mem (begin - 1)) < 0) →
      SortedOn compar d st.mem begin (begin + cur) →
      ∃ st2, UISRT_for compar k st begin cur = some st2 ∧
        PermOn begin (begin + cur + k) st.mem st2.mem ∧
        SortedOn compar d st2.mem begin (begin + cur + k) := by
  intro k
  induction k with
  | zero =>
    intro st cur _ _ _ hs
    exact ⟨st, rfl, PermOn.refl _, hs⟩
  | succ k ih =>
    intro st cur hcur hlen hsent hs
    obtain ⟨st1, h1, hperm1, hs1⟩ := UISRT_body_spec hswo d st begin cur hcur (by omega) hb
      (hsent (begin + cur) (by omega) (by omega)) hs
    have hperm1b : PermOn begin (begin + cur + (k + 1)) st.mem st1.mem :=
      hperm1.mono (le_refl _) (by omega)
    obtain ⟨st2, h2, hperm2, hs2⟩ := ih st1 (cur + 1) (by omega)
      (by rw [hperm1.length_eq]; omega)
      (by
        rw [hperm1b.cell_outside d (Or.inl (by omega))]
        rw [show begin + (cur + 1) + k = begin + cur + (k + 1) by omega]
        exact hperm1b.forall_range d
          (fun y => ¬ compar y (cell d st.mem (begin - 1)) < 0) hsent)
      hs1
    refine ⟨st2, ?_, ?_, ?_⟩
    · rw [UISRT_for]
      simp only [Option.bind_eq_bind, h1, Option.some_bind, h2]
    · rw [show begin + cur + (k + 1) = begin + (cur + 1) + k by omega]
      exact (hperm1.mono (le_refl _) (by omega)).trans hperm2
    · rw [show begin + cur + (k + 1) = begin + (cur + 1) + k by omega]
      exact hs2

theorem CPDQS_UISRT_spec {compar : α → α → Int} (hswo : StrictWeakOrder compar) (d : α)
    (st : St α) (begin nmemb : Nat) (hlen : begin + nmemb ≤ st.mem.length) (hb : 1 ≤ begin)
    (hsent : ∀ i, begin ≤ i → i < begin + nmemb →
      ¬ compar (cell d st.mem i) (cell d st.mem (begin - 1)) < 0) :
    ∃ st2, CPDQS_UISRT compar st begin nmemb = some st2 ∧
      PermOn begin (begin + nmemb) st.mem st2.mem ∧
      SortedOn compar d st2.mem begin (begin + nmemb) := by
  unfold CPDQS_UISRT
  by_cases h : nmemb > 1
  · rw [if_pos h]
    obtain ⟨st2, h2, hperm, hs⟩ := UISRT_for_spec hswo d begin hb (nmemb - 1) st 1 (le_refl _)
      (by omega)
      (by rw [show begin + 1 + (nmemb - 1) = begin + nmemb by omega]; exact hsent)
      (sortedOn_short compar d _ _ _ (le_refl _))
    rw [show begin + 1 + (nmemb - 1) = begin + nmemb by omega] at hperm hs
    exact ⟨st2, h2, hperm, hs⟩
  · rw [if_neg h]
    exact ⟨st, rfl, PermOn.refl _, sortedOn_short compar d _ _ _ (by omega)⟩

end Cpdqsort


namespace Cpdqsort

variable {α : Type}

/-! ## Partitioning -/

theorem PAR_first_spec (compar : α → α → Int) (d : α) (pivot : α) :
    ∀ (fuel : Nat) (st : St α) (first q : Nat),
      first < q → q < st.mem.length → q ≤ first + fuel →
      ¬ compar (cell d st.mem q) pivot < 0 →
      ∃ st2 f, PAR_first compar fuel st pivot first = some (st2, f) ∧
        st2.mem = st.mem ∧ first < f ∧ f ≤ q ∧
        ¬ compar (cell d st.mem f) pivot < 0 ∧
        ∀ i, first < i → i < f → compar (cell d st.mem i) pivot < 0 := by
  intro fuel
  induction fuel with
  | zero => intro st first q h1 _ h2; omega
  | succ fuel ih =>
    intro st first q hq hlen hfuel hstop
    have h1 : first + 1 < st.mem.length := by omega
    rw [PAR_first]
    simp only [Option.bind_eq_bind]
    rw [rd_eq d h1, Option.some_bind]
    by_cases hlt : compar (cell d st.mem (first + 1)) pivot < 0
    · rw [if_pos hlt]
      have hq2 : first + 1 < q := by
        by_contra hcon
        have : first + 1 = q := by omega
        rw [this] at hlt
        exact hstop hlt
      obtain ⟨st2, f, h2, hmem, hf1, hf2, hf3, hf4⟩ := ih (tick st) (first + 1) q hq2
        (by simpa using hlen) (by omega) (by simpa using hstop)
      simp only [tick_mem] at hmem hf3 hf4
      refine ⟨st2, f, h2, hmem, by omega, hf2, hf3, ?_⟩
      intro i hi1 hi2
      by_cases hi3 : i = first + 1
      · rw [hi3]; exact hlt
      · exact hf4 i (by omega) hi2
    · rw [if_neg hlt]
      refine ⟨tick st, first + 1, rfl, rfl, by omega, by omega, hlt, ?_⟩
      intro i hi1 hi2
      omega

theorem PAR_last_spec (compar : α → α → Int) (d : α) (pivot : α) :
    ∀ (last : Nat) (st : St α) (q : Nat),
      q < last → last ≤ st.mem.length →
      compar (cell d st.mem q) pivot < 0 →
      ∃ st2 l, PAR_last compar last st pivot = some (st2, l) ∧
        st2.mem = st.mem ∧ q ≤ l ∧ l < last ∧
        compar (cell d st.mem l) pivot < 0 ∧
        ∀ i, l < i → i < last → ¬ compar (cell d st.mem i) pivot < 0 := by
  intro last
  induction last with
  | zero => intro st q h1; omega
  | succ last ih =>
    intro st q hq hlen hstop
    have h1 : last < st.mem.length := by omega
    rw [PAR_last]
    simp only [Option.bind_eq_bind]
    rw [rd_eq d h1, Option.some_bind]
    by_cases hlt : compar (cell d st.mem last) pivot < 0
    · rw [if_neg (by simpa using hlt)]
      refine ⟨tick st, last, rfl, rfl, by omega, by omega, hlt, ?_⟩
      intro i hi1 hi2
      omega
    · rw [if_pos hlt]
      have hq2 : q < last := by
        by_contra hcon
        have : last = q := by omega
        rw [this] at hlt
        exact hlt hstop
      obtain ⟨st2, l, h2, hmem, hl1, hl2, hl3, hl4⟩ := ih (tick st) q hq2
        (by simp; omega) (by simpa using hstop)
      simp only [tick_mem] at hmem hl3 hl4
      refine ⟨st2, l, h2, hmem, hl1, by omega, hl3, ?_⟩
      intro i hi1 hi2
      by_cases hi3 : i = last
      · rw [hi3]; exact hlt
      · exact hl4 i hi1 (by omega)

theorem PAR_last_guarded_spec (compar : α → α → Int) (d : α) (pivot : α) (first : Nat) :
    ∀ (last : Nat) (st : St α),
      first ≤ last → last ≤ st.mem.length →
      ∃ st2 l, PAR_last_guarded compar last st pivot first = some (st2, l) ∧
        st2.mem = st.mem ∧ first ≤ l ∧ l ≤ last ∧ (first < last → l < last) ∧
        (first < l → compar (cell d st.mem l) pivot < 0) ∧
        ∀ i, l < i → i < last → ¬ compar (cell d st.mem i) pivot < 0 := by
  intro last
  induction last with
  | zero =>
    intro st h1 _
    refine ⟨st, 0, rfl, rfl, h1, le_refl _, ?_, ?_, ?_⟩
    · intro h; omega
    · intro h; omega
    · intro i _ h; omega
  | succ last ih =>
    intro st hq hlen
    rw [PAR_last_guarded]
    by_cases hfl : first < last + 1
    · rw [if_pos hfl]
      have h1 : last < st.mem.length := by omega
      simp only [Option.bind_eq_bind]
      rw [rd_eq d h1, Option.some_bind]
      by_cases hlt : compar (cell d st.mem last) pivot < 0
      · rw [if_neg (by simpa using hlt)]
        refine ⟨tick st, last, rfl, rfl, by omega, by omega, by omega, fun _ => hlt, ?_⟩
        intro i hi1 hi2
        omega
      · rw [if_pos hlt]
        obtain ⟨st2, l, h2, hmem, hl1, hl2, _, hl3, hl4⟩ := ih (tick st) (by omega)
          (by simp; omega)
        simp only [tick_mem] at hmem hl3 hl4
        refine ⟨st2, l, h2, hmem, hl1, by omega, by omega, hl3, ?_⟩
        intro i hi1 hi2
        by_cases hi3 : i = last
        · rw [hi3]; exact hlt
        · exact hl4 i hi1 (by omega)
    · rw [if_neg hfl]
      refine ⟨st, last + 1, rfl, rfl, hq, le_refl _, ?_, ?_, ?_⟩
      · intro h; omega
      · intro h; omega
      · intro i hi1 hi2; omega

theorem PAR_loop_spec (compar : α → α → Int) (d : α) (pivot : α) (p e : Nat) :
    ∀ (fuel : Nat) (st : St α) (first last : Nat),
      ParInv compar d pivot p e st.mem first last → last - first ≤ fuel →
      ∃ st2 f, PAR_loop compar fuel st pivot first last = some (st2, f) ∧
        PermOn (p + 1) e st.mem st2.mem ∧ p < f ∧ f < e ∧
        (∀ i, p < i → i < f → compar (cell d st2.mem i) pivot < 0) ∧
        (∀ i, f ≤ i → i < e → ¬ compar (cell d st2.mem i) pivot < 0) := by
  intro fuel
  induction fuel with
  | zero =>
    intro st first last inv hfuel
    rw [PAR_loop, if_neg (by omega)]
    refine ⟨st, first, rfl, PermOn.refl _, inv.hp, inv.hfe, inv.left, ?_⟩
    intro i hi1 hi2
    by_cases hi3 : i = first
    · rw [hi3]; exact inv.atfirst
    · exact inv.right i (by omega) hi2
  | succ fuel ih =>
    intro st first last inv hfuel
    rw [PAR_loop]
    by_cases hfl : first < last
    · rw [if_pos hfl]
      have hf : first < st.mem.length := by have := inv.hlen; have := inv.hle; omega
      have hl : last < st.mem.length := by have := inv.hlen; have := inv.hle; omega
      simp only [Option.bind_eq_bind]
      rw [SW_eq d hf hl, Option.some_bind]
      have hc_first : cell d (swapL d st.mem first last) first = cell d st.mem last := by
        rw [cell_swapL d hf hl, if_neg (by omega), if_pos rfl]
      have hc_last : cell d (swapL d st.mem first last) last = cell d st.mem first := by
        rw [cell_swapL d hf hl, if_pos rfl]
      have hc_other : ∀ i, i ≠ first → i ≠ last →
          cell d (swapL d st.mem first last) i = cell d st.mem i := by
        intro i h1 h2
        rw [cell_swapL d hf hl, if_neg h2, if_neg h1]
      obtain ⟨st2, f, h2, hmem2, hf1, hf2, hf3, hf4⟩ := PAR_first_spec compar d pivot
        ((St.mk (swapL d st.mem first last) st.calls).mem.length - first)
        ⟨swapL d st.mem first last, st.calls⟩ first last hfl
        (by simpa [length_swapL] using hl) (by simp [length_swapL]; omega)
        (by
          show ¬ compar (cell d (swapL d st.mem first last) last) pivot < 0
          rw [hc_last]; exact inv.atfirst)
      rw [h2, Option.some_bind]
      simp only [] at hmem2 hf3 hf4
      obtain ⟨st3, l, h3, hmem3, hl1, hl2, hl3, hl4⟩ := PAR_last_spec compar d pivot last st2
        first hfl (by rw [hmem2, length_swapL]; omega)
        (by rw [hmem2, hc_first]; exact inv.atlast hfl)
      rw [h3, Option.some_bind]
      rw [hmem2] at hmem3 hl3 hl4
      have e1 := inv.hle
      have e2 := inv.hp
      obtain ⟨st4, f4, h4, hperm4, hp4, hfe4, hleft4, hright4⟩ := ih st3 f l
        { hp := by omega
          hfe := by omega
          hle := by omega
          hlen := by rw [hmem3, length_swapL]; exact inv.hlen
          atp := by rw [hmem3, hc_other p (by omega) (by omega)]; exact inv.atp
          left := by
            intro i hi1 hi2
            rw [hmem3]
            by_cases hi3 : i < first
            · rw [hc_other i (by omega) (by omega)]; exact inv.left i hi1 hi3
            · by_cases hi4 : i = first
              · rw [hi4, hc_first]; exact inv.atlast hfl
              · exact hf4 i (by omega) hi2
          right := by
            intro i hi1 hi2
            rw [hmem3]
            by_cases hi3 : last < i
            · rw [hc_other i (by omega) (by omega)]; exact inv.right i hi3 hi2
            · by_cases hi4 : i = last
              · rw [hi4, hc_last]; exact inv.atfirst
              · exact hl4 i hi1 (by omega)
          atfirst := by rw [hmem3]; exact hf3
          atlast := by intro _; rw [hmem3]; exact hl3 }
        (by omega)
      refine ⟨st4, f4, h4, ?_, hp4, hfe4, hleft4, hright4⟩
      rw [hmem3] at hperm4
      exact (PermOn.swap d (by omega) (by omega) (by omega) (by omega) hf hl).trans hperm4
    · rw [if_neg hfl]
      refine ⟨st, first, rfl, PermOn.refl _, inv.hp, inv.hfe, inv.left, ?_⟩
      intro i hi1 hi2
      by_cases hi3 : i = first
      · rw [hi3]; exact inv.atfirst
      · exact inv.right i (by omega) hi2

theorem PAR_tail_spec (compar : α → α → Int) (d : α) (m : List α) (st2 : St α)
    (base nmemb f1 l : Nat) (ap : Bool) (hmem2 : st2.mem = m)
    (inv : ParInv compar d (cell d m base) base (base + nmemb) m f1 l) :
    ∃ st5 pos, ((PAR_loop compar (l - f1) st2 (cell d m base) f1 l).bind fun a_1 =>
        (rd a_1.1 (a_1.2 - 1)).bind fun a_2 =>
          (wr a_1.1 base a_2).bind fun a_3 =>
            (wr a_3 (a_1.2 - 1) (cell d m base)).bind fun a_4 =>
              some (a_4, a_1.2 - 1, ap)) = some (st5, pos, ap) ∧
      base ≤ pos ∧ pos < base + nmemb ∧
      PermOn base (base + nmemb) m st5.mem ∧
      cell d st5.mem pos = cell d m base ∧
      (∀ i, base ≤ i → i < pos → compar (cell d st5.mem i) (cell d m base) < 0) ∧
      (∀ i, pos < i → i < base + nmemb →
        ¬ compar (cell d st5.mem i) (cell d m base) < 0) := by
  subst hmem2
  have hlen := inv.hlen
  obtain ⟨st3, f3, h3, hperm3, hp3, hfe3, hleft3, hright3⟩ := PAR_loop_spec compar d
    (cell d st2.mem base) base (base + nmemb) (l - f1) st2 f1 l inv (le_refl _)
  rw [h3, Option.some_bind]
  simp only []
  have hlen3 : st3.mem.length = st2.mem.length := hperm3.length_eq
  have hpos : f3 - 1 < st3.mem.length := by omega
  have hb3 : base < st3.mem.length := by omega
  have hatp : cell d st3.mem base = cell d st2.mem base :=
    hperm3.cell_outside d (Or.inl (by omega))
  rw [rd_eq d hpos, Option.some_bind, wr_eq _ hb3, Option.some_bind,
    wr_eq _ (by simpa using hpos), Option.some_bind]
  have hfin : (st3.mem.set base (cell d st3.mem (f3 - 1))).set (f3 - 1)
      (cell d st2.mem base) =
      swapL d st3.mem base (f3 - 1) := by
    unfold swapL
    rw [hatp]
  refine ⟨_, f3 - 1, rfl, by omega, by omega, ?_, ?_, ?_, ?_⟩
  · show PermOn base (base + nmemb) st2.mem
      ((st3.mem.set base (cell d st3.mem (f3 - 1))).set (f3 - 1) (cell d st2.mem base))
    rw [hfin]
    exact (hperm3.mono (by omega) (le_refl _)).trans
      (PermOn.swap d (le_refl _) (by omega) (by omega) (by omega) hb3 hpos)
  · show cell d ((st3.mem.set base (cell d st3.mem (f3 - 1))).set (f3 - 1)
      (cell d st2.mem base)) (f3 - 1) = _
    rw [hfin, cell_swapL d hb3 hpos, if_pos rfl, hatp]
  · intro i hi1 hi2
    show compar (cell d ((st3.mem.set base (cell d st3.mem (f3 - 1))).set (f3 - 1)
      (cell d st2.mem base)) i) _ < 0
    rw [hfin, cell_swapL d hb3 hpos, if_neg (by omega)]
    by_cases hi3 : i = base
    · rw [if_pos hi3]
      exact hleft3 (f3 - 1) (by omega) (by omega)
    · rw [if_neg hi3]
      exact hleft3 i (by omega) (by omega)
  · intro i hi1 hi2
    show ¬ compar (cell d ((st3.mem.set base (cell d st3.mem (f3 - 1))).set (f3 - 1)
      (cell d st2.mem base)) i) _ < 0
    rw [hfin, cell_swapL d hb3 hpos, if_neg (by omega), if_neg (by omega)]
    exact hright3 i (by omega) hi2

theorem CPDQS_PAR_spec (compar : α → α → Int) (d : α) (st : St α) (base nmemb q : Nat)
    (hlen : base + nmemb ≤ st.mem.length) (hq1 : base < q) (hq2 : q < base + nmemb)
    (hstop : ¬ compar (cell d st.mem q) (cell d st.mem base) < 0) :
    ∃ st2 pos ap, CPDQS_PAR compar st base nmemb = some (st2, pos, ap) ∧
      base ≤ pos ∧ pos < base + nmemb ∧
      PermOn base (base + nmemb) st.mem st2.mem ∧
      cell d st2.mem pos = cell d st.mem base ∧
      (∀ i, base ≤ i → i < pos → compar (cell d st2.mem i) (cell d st.mem base) < 0) ∧
      (∀ i, pos < i → i < base + nmemb →
        ¬ compar (cell d st2.mem i) (cell d st.mem base) < 0) := by
  have hb : base < st.mem.length := by omega
  unfold CPDQS_PAR
  simp only [Option.bind_eq_bind]
  rw [rd_eq d hb, Option.some_bind]
  obtain ⟨st1, f1, h1, hmem1, hf1, hf2, hf3, hf4⟩ := PAR_first_spec compar d
    (cell d st.mem base) (st.mem.length - base) st base q hq1 (by omega) (by omega) hstop
  rw [h1, Option.some_bind]
  simp only []
  by_cases hg : f1 - 1 = base
  · rw [if_pos hg]
    obtain ⟨st2, l, h2, hmem2, hl1, hl2, hl2b, hl3, hl4⟩ := PAR_last_guarded_spec compar d
      (cell d st.mem base) f1 (base + nmemb) st1 (by omega) (by rw [hmem1]; exact hlen)
    rw [hmem1] at hmem2 hl3 hl4
    rw [h2, Option.some_bind]
    obtain ⟨st5, pos, h5, hrest⟩ := PAR_tail_spec compar d st.mem st2 base nmemb f1 l
      (decide (f1 ≥ l)) hmem2
      { hp := hf1
        hfe := by omega
        hle := by omega
        hlen := hlen
        atp := rfl
        left := hf4
        right := hl4
        atfirst := hf3
        atlast := hl3 }
    exact ⟨st5, pos, _, h5, hrest⟩
  · rw [if_neg hg]
    obtain ⟨st2, l, h2, hmem2, hl1, hl2, hl3, hl4⟩ := PAR_last_spec compar d
      (cell d st.mem base) (base + nmemb) st1 (f1 - 1) (by omega)
      (by rw [hmem1]; exact hlen)
      (by rw [hmem1]; exact hf4 (f1 - 1) (by omega) (by omega))
    rw [hmem1] at hmem2 hl3 hl4
    rw [h2, Option.some_bind]
    obtain ⟨st5, pos, h5, hrest⟩ := PAR_tail_spec compar d st.mem st2 base nmemb f1 l
      (decide (f1 ≥ l)) hmem2
      { hp := hf1
        hfe := by omega
        hle := by omega
        hlen := hlen
        atp := rfl
        left := hf4
        right := hl4
        atfirst := hf3
        atlast := fun _ => hl3 }
    exact ⟨st5, pos, _, h5, hrest⟩

theorem PAL_last_spec (compar : α → α → Int) (d : α) (pivot : α) :
    ∀ (last : Nat) (st : St α) (q : Nat),
      q < last → last ≤ st.mem.length →
      ¬ compar pivot (cell d st.mem q) < 0 →
      ∃ st2 l, PAL_last compar last st pivot = some (st2, l) ∧
        st2.mem = st.mem ∧ q ≤ l ∧ l < last ∧
        ¬ compar pivot (cell d st.mem l) < 0 ∧
        ∀ i, l < i → i < last → compar pivot (cell d st.mem i) < 0 := by
  intro last
  induction last with
  | zero => intro st q h1; omega
  | succ last ih =>
    intro st q hq hlen hstop
    have h1 : last < st.mem.length := by omega
    rw [PAL_last]
    simp only [Option.bind_eq_bind]
    rw [rd_eq d h1, Option.some_bind]
    by_cases hlt : compar pivot (cell d st.mem last) < 0
    · rw [if_pos hlt]
      have hq2 : q < last := by
        by_contra hcon
        have : last = q := by omega
        rw [this] at hlt
        exact hstop hlt
      obtain ⟨st2, l, h2, hmem, hl1, hl2, hl3, hl4⟩ := ih (tick st) q hq2
        (by simp; omega) (by simpa using hstop)
      simp only [tick_mem] at hmem hl3 hl4
      refine ⟨st2, l, h2, hmem, hl1, by omega, hl3, ?_⟩
      intro i hi1 hi2
      by_cases hi3 : i = last
      · rw [hi3]; exact hlt
      · exact hl4 i hi1 (by omega)
    · rw [if_neg hlt]
      refine ⟨tick st, last, rfl, rfl, by omega, by omega, hlt, ?_⟩
      intro i hi1 hi2
      omega

theorem PAL_first_spec (compar : α → α → Int) (d : α) (pivot : α) :
    ∀ (fuel : Nat) (st : St α) (first q : Nat),
      first < q → q < st.mem.length → q ≤ first + fuel →
      compar pivot (cell d st.mem q) < 0 →
      ∃ st2 f, PAL_first compar fuel st pivot first = some (st2, f) ∧
        st2.mem = st.mem ∧ first < f ∧ f ≤ q ∧
        compar pivot (cell d st.mem f) < 0 ∧
        ∀ i, first < i → i < f → ¬ compar pivot (cell d st.mem i) < 0 := by
  intro fuel
  induction fuel with
  | zero => intro st first q h1 _ h2; omega
  | succ fuel ih =>
    intro st first q hq hlen hfuel hstop
    have h1 : first + 1 < st.mem.length := by omega
    rw [PAL_first]
    simp only [Option.bind_eq_bind]
    rw [rd_eq d h1, Option.some_bind]
    by_cases hlt : compar pivot (cell d st.mem (first + 1)) < 0
    · rw [if_neg (by simpa using hlt)]
      refine ⟨tick st, first + 1, rfl, rfl, by omega, by omega, hlt, ?_⟩
      intro i hi1 hi2
      omega
    · rw [if_pos hlt]
      have hq2 : first + 1 < q := by
        by_contra hcon
        have : first + 1 = q := by omega
        rw [this] at hlt
        exact hlt hstop
      obtain ⟨st2, f, h2, hmem, hf1, hf2, hf3, hf4⟩ := ih (tick st) (first + 1) q hq2
        (by simpa using hlen) (by omega) (by simpa using hstop)
      simp only [tick_mem] at hmem hf3 hf4
      refine ⟨st2, f, h2, hmem, by omega, hf2, hf3, ?_⟩
      intro i hi1 hi2
      by_cases hi3 : i = first + 1
      · rw [hi3]; exact hlt
      · exact hf4 i (by omega) hi2

theorem PAL_first_guarded_spec (compar : α → α → Int) (d : α) (pivot : α) (last : Nat) :
    ∀ (fuel : Nat) (st : St α) (first : Nat),
      first ≤ last → last < st.mem.length → last - first < fuel →
      ∃ st2 f, PAL_first_guarded compar fuel st pivot first last = some (st2, f) ∧
        st2.mem = st.mem ∧ first ≤ f ∧ f ≤ last ∧
        (f < last → first < f ∧ compar pivot (cell d st.mem f) < 0) ∧
        ∀ i, first < i → i < f → ¬ compar pivot (cell d st.mem i) < 0 := by
  intro fuel
  induction fuel with
  | zero => intro st first _ _ h; omega
  | succ fuel ih =>
    intro st first hfl hlen hfuel
    rw [PAL_first_guarded]
    by_cases hlt1 : first < last
    · rw [if_pos hlt1]
      have h1 : first + 1 < st.mem.length := by omega
      simp only [Option.bind_eq_bind]
      rw [rd_eq d h1, Option.some_bind]
      by_cases hlt : compar pivot (cell d st.mem (first + 1)) < 0
      · rw [if_neg (by simpa using hlt)]
        refine ⟨tick st, first + 1, rfl, rfl, by omega, by omega, ?_, ?_⟩
        · intro _
          exact ⟨by omega, hlt⟩
        · intro i hi1 hi2
          omega
      · rw [if_pos hlt]
        obtain ⟨st2, f, h2, hmem, hf1, hf2, hf3, hf4⟩ := ih (tick st) (first + 1) (by omega)
          (by simpa using hlen) (by omega)
        simp only [tick_mem] at hmem hf3 hf4
        refine ⟨st2, f, h2, hmem, by omega, hf2, ?_, ?_⟩
        · intro h
          exact ⟨by omega, (hf3 h).2⟩
        · intro i hi1 hi2
          by_cases hi3 : i = first + 1
          · rw [hi3]; exact hlt
          · exact hf4 i (by omega) hi2
    · rw [if_neg hlt1]
      refine ⟨st, first, rfl, rfl, le_refl _, hfl, ?_, ?_⟩
      · intro h; omega
      · intro i hi1 hi2; omega

theorem PAL_loop_spec (compar : α → α → Int) (d : α) (pivot : α) (p e : Nat) :
    ∀ (fuel : Nat) (st : St α) (first last : Nat),
      PalInv compar d pivot p e st.mem first last → last - first ≤ fuel →
      ∃ st2 l, PAL_loop compar fuel st pivot first last = some (st2, l) ∧
        PermOn (p + 1) e st.mem st2.mem ∧ p ≤ l ∧ l < e ∧
        (∀ i, p < i → i < l → ¬ compar pivot (cell d st2.mem i) < 0) ∧
        ¬ compar pivot (cell d st2.mem l) < 0 ∧
        (∀ i, l < i → i < e → compar pivot (cell d st2.mem i) < 0) := by
  intro fuel
  induction fuel with
  | zero =>
    intro st first last inv hfuel
    rw [PAL_loop, if_neg (by omega)]
    refine ⟨st, last, rfl, PermOn.refl _, inv.hp, inv.hle, ?_, inv.atlast, inv.right⟩
    intro i hi1 hi2
    exact inv.left i hi1 (by omega)
  | succ fuel ih =>
    intro st first last inv hfuel
    rw [PAL_loop]
    by_cases hfl : first < last
    · rw [if_pos hfl]
      have e1 := inv.hle
      have e2 := inv.hlen
      have e3 := (inv.atfirst hfl).1
      have hf : first < st.mem.length := by omega
      have hl : last < st.mem.length := by omega
      simp only [Option.bind_eq_bind]
      rw [SW_eq d hf hl, Option.some_bind]
      have hc_first : cell d (swapL d st.mem first last) first = cell d st.mem last := by
        rw [cell_swapL d hf hl, if_neg (by omega), if_pos rfl]
      have hc_last : cell d (swapL d st.mem first last) last = cell d st.mem first := by
        rw [cell_swapL d hf hl, if_pos rfl]
      have hc_other : ∀ i, i ≠ first → i ≠ last →
          cell d (swapL d st.mem first last) i = cell d st.mem i := by
        intro i h1 h2
        rw [cell_swapL d hf hl, if_neg h2, if_neg h1]
      obtain ⟨st2, l, h2, hmem2, hl1, hl2, hl3, hl4⟩ := PAL_last_spec compar d pivot last
        ⟨swapL d st.mem first last, st.calls⟩ first hfl
        (by simp [length_swapL]; omega)
        (by
          show ¬ compar pivot (cell d (swapL d st.mem first last) first) < 0
          rw [hc_first]; exact inv.atlast)
      rw [h2, Option.some_bind]
      simp only [] at hmem2 hl3 hl4
      obtain ⟨st3, f, h3, hmem3, hf1, hf2, hf3, hf4⟩ := PAL_first_spec compar d pivot
        (st2.mem.length - first) st2 first last hfl
        (by rw [hmem2, length_swapL]; exact hl) (by rw [hmem2, length_swapL]; omega)
        (by rw [hmem2, hc_last]; exact (inv.atfirst hfl).2)
      rw [h3, Option.some_bind]
      rw [hmem2] at hmem3 hf3 hf4
      obtain ⟨st4, l4, h4, hperm4, hp4, hle4, hleft4, hat4, hright4⟩ := ih st3 f l
        { hp := by omega
          hle := by omega
          hlen := by rw [hmem3, length_swapL]; exact inv.hlen
          atp := by rw [hmem3, hc_other p (by omega) (by omega)]; exact inv.atp
          right := by
            intro i hi1 hi2
            rw [hmem3]
            by_cases hi3 : last < i
            · rw [hc_other i (by omega) (by omega)]; exact inv.right i hi3 hi2
            · by_cases hi4 : i = last
              · rw [hi4, hc_last]; exact (inv.atfirst hfl).2
              · exact hl4 i hi1 (by omega)
          left := by
            intro i hi1 hi2
            rw [hmem3]
            by_cases hi3 : i < first
            · rw [hc_other i (by omega) (by omega)]; exact inv.left i hi1 hi3
            · by_cases hi4 : i = first
              · rw [hi4, hc_first]; exact inv.atlast
              · exact hf4 i (by omega) hi2
          atlast := by rw [hmem3]; exact hl3
          atfirst := by
            intro _
            rw [hmem3]
            exact ⟨by omega, hf3⟩ }
        (by omega)
      refine ⟨st4, l4, h4, ?_, hp4, hle4, hleft4, hat4, hright4⟩
      rw [hmem3] at hperm4
      exact (PermOn.swap d (by omega) (by omega) (by omega) (by omega) hf hl).trans hperm4
    · rw [if_neg hfl]
      refine ⟨st, last, rfl, PermOn.refl _, inv.hp, inv.hle, ?_, inv.atlast, inv.right⟩
      intro i hi1 hi2
      exact inv.left i hi1 (by omega)

theorem PAL_tail_spec (compar : α → α → Int) (d : α) (st2 : St α)
    (base nmemb f1 l : Nat)
    (inv : PalInv compar d (cell d st2.mem base) base (base + nmemb) st2.mem f1 l) :
    ∃ st5 pos, ((PAL_loop compar (l - f1) st2 (cell d st2.mem base) f1 l).bind fun a_1 =>
        (rd a_1.1 a_1.2).bind fun a_2 =>
          (wr a_1.1 base a_2).bind fun a_3 =>
            (wr a_3 a_1.2 (cell d st2.mem base)).bind fun a_4 =>
              some (a_4, a_1.2)) = some (st5, pos) ∧
      base ≤ pos ∧ pos < base + nmemb ∧
      PermOn base (base + nmemb) st2.mem st5.mem ∧
      cell d st5.mem pos = cell d st2.mem base ∧
      (∀ i, base ≤ i → i < pos → ¬ compar (cell d st2.mem base) (cell d st5.mem i) < 0) ∧
      (∀ i, pos < i → i < base + nmemb →
        compar (cell d st2.mem base) (cell d st5.mem i) < 0) := by
  have hlen := inv.hlen
  obtain ⟨st3, l3, h3, hperm3, hp3, hle3, hleft3, hat3, hright3⟩ := PAL_loop_spec compar d
    (cell d st2.mem base) base (base + nmemb) (l - f1) st2 f1 l inv (le_refl _)
  rw [h3, Option.some_bind]
  simp only []
  have hlen3 : st3.mem.length = st2.mem.length := hperm3.length_eq
  have hpos : l3 < st3.mem.length := by omega
  have hb3 : base < st3.mem.length := by omega
  have hatp : cell d st3.mem base = cell d st2.mem base :=
    hperm3.cell_outside d (Or.inl (by omega))
  rw [rd_eq d hpos, Option.some_bind, wr_eq _ hb3, Option.some_bind,
    wr_eq _ (by simpa using hpos), Option.some_bind]
  have hfin : (st3.mem.set base (cell d st3.mem l3)).set l3 (cell d st2.mem base) =
      swapL d st3.mem base l3 := by
    unfold swapL
    rw [hatp]
  refine ⟨_, l3, rfl, by omega, by omega, ?_, ?_, ?_, ?_⟩
  · show PermOn base (base + nmemb) st2.mem
      ((st3.mem.set base (cell d st3.mem l3)).set l3 (cell d st2.mem base))
    rw [hfin]
    exact (hperm3.mono (by omega) (le_refl _)).trans
      (PermOn.swap d (le_refl _) (by omega) (by omega) (by omega) hb3 hpos)
  · show cell d ((st3.mem.set base (cell d st3.mem l3)).set l3 (cell d st2.mem base)) l3 = _
    rw [hfin, cell_swapL d hb3 hpos, if_pos rfl, hatp]
  · intro i hi1 hi2
    show ¬ compar _ (cell d ((st3.mem.set base (cell d st3.mem l3)).set l3
      (cell d st2.mem base)) i) < 0
    rw [hfin, cell_swapL d hb3 hpos, if_neg (by omega)]
    by_cases hi3 : i = base
    · rw [if_pos hi3]
      exact hat3
    · rw [if_neg hi3]
      exact hleft3 i (by omega) (by omega)
  · intro i hi1 hi2
    show compar _ (cell d ((st3.mem.set base (cell d st3.mem l3)).set l3
      (cell d st2.mem base)) i) < 0
    rw [hfin, cell_swapL d hb3 hpos, if_neg (by omega), if_neg (by omega)]
    exact hright3 i (by omega) hi2

theorem CPDQS_PAL_spec {compar : α → α → Int} (hswo : StrictWeakOrder compar) (d : α)
    (st : St α) (base nmemb : Nat) (hn : 1 ≤ nmemb) (hlen : base + nmemb ≤ st.mem.length) :
    ∃ st2 pos, CPDQS_PAL compar st base nmemb = some (st2, pos) ∧
      base ≤ pos ∧ pos < base + nmemb ∧
      PermOn base (base + nmemb) st.mem st2.mem ∧
      cell d st2.mem pos = cell d st.mem base ∧
      (∀ i, base ≤ i → i < pos → ¬ compar (cell d st.mem base) (cell d st2.mem i) < 0) ∧
      (∀ i, pos < i → i < base + nmemb →
        compar (cell d st.mem base) (cell d st2.mem i) < 0) := by
  have hb : base < st.mem.length := by omega
  unfold CPDQS_PAL
  simp only [Option.bind_eq_bind]
  rw [rd_eq d hb, Option.some_bind]
  obtain ⟨st1, l1, h1, hmem1, hl1, hl2, hl3, hl4⟩ := PAL_last_spec compar d
    (cell d st.mem base) (base + nmemb) st base (by omega) hlen (hswo.irrefl _)
  rw [h1, Option.some_bind]
  simp only []
  by_cases hg : l1 + 1 = base + nmemb
  · rw [if_pos hg]
    obtain ⟨st2, f, h2, hmem2, hf1, hf2, hf3, hf4⟩ := PAL_first_guarded_spec compar d
      (cell d st.mem base) l1 (st1.mem.length + 1 - base) st1 base hl1
      (by rw [hmem1]; omega) (by rw [hmem1]; omega)
    rw [hmem1] at hmem2 hf3 hf4
    rw [h2, Option.some_bind]
    have inv : PalInv compar d (cell d st2.mem base) base (base + nmemb) st2.mem f l1 := by
      rw [hmem2]
      exact
        { hp := hl1
          hle := hl2
          hlen := hlen
          atp := rfl
          right := hl4
          left := hf4
          atlast := hl3
          atfirst := hf3 }
    obtain ⟨st5, pos, h5, hrest⟩ := PAL_tail_spec compar d st2 base nmemb f l1 inv
    rw [hmem2] at h5 hrest
    exact ⟨st5, pos, h5, hrest⟩
  · rw [if_neg hg]
    obtain ⟨st2, f, h2, hmem2, hf1, hf2, hf3, hf4⟩ := PAL_first_spec compar d
      (cell d st.mem base) (st1.mem.length - base) st1 base (l1 + 1) (by omega)
      (by rw [hmem1]; omega) (by rw [hmem1]; omega)
      (by rw [hmem1]; exact hl4 (l1 + 1) (by omega) (by omega))
    rw [hmem1] at hmem2 hf3 hf4
    rw [h2, Option.some_bind]
    have inv : PalInv compar d (cell d st2.mem base) base (base + nmemb) st2.mem f l1 := by
      rw [hmem2]
      exact
        { hp := hl1
          hle := hl2
          hlen := hlen
          atp := rfl
          right := hl4
          left := hf4
          atlast := hl3
          atfirst := fun _ => ⟨hf1, hf3⟩ }
    obtain ⟨st5, pos, h5, hrest⟩ := PAL_tail_spec compar d st2 base nmemb f l1 inv
    rw [hmem2] at h5 hrest
    exact ⟨st5, pos, h5, hrest⟩

end Cpdqsort


namespace Cpdqsort

variable {α : Type}

/-! ## The driver: pivot selection and shuffles -/

theorem SRT2_spec (compar : α → α → Int) (d : α) (st : St α) (lo hi a b : Nat)
    (ha1 : lo ≤ a) (ha2 : a < hi) (hb1 : lo ≤ b) (hb2 : b < hi) (hab : a ≠ b)
    (hlen : hi ≤ st.mem.length) :
    ∃ st2, CPDQS_SRT2 compar st a b = some st2 ∧
      PermOn lo hi st.mem st2.mem ∧
      cell d st2.mem a = (if compar (cell d st.mem b) (cell d st.mem a) < 0
        then cell d st.mem b else cell d st.mem a) ∧
      cell d st2.mem b = (if compar (cell d st.mem b) (cell d st.mem a) < 0
        then cell d st.mem a else cell d st.mem b) ∧
      ∀ k, k ≠ a → k ≠ b → cell d st2.mem k = cell d st.mem k := by
  have ha : a < st.mem.length := by omega
  have hb : b < st.mem.length := by omega
  unfold CPDQS_SRT2
  simp only [Option.bind_eq_bind]
  rw [rd_eq d hb, Option.some_bind, rd_eq d ha, Option.some_bind]
  by_cases hlt : compar (cell d st.mem b) (cell d st.mem a) < 0
  · rw [if_pos hlt, if_pos hlt, if_pos hlt]
    have ha2 : a < (tick st).mem.length := ha
    have hb2 : b < (tick st).mem.length := hb
    rw [SW_eq d ha2 hb2]
    refine ⟨_, rfl, ?_, ?_, ?_, ?_⟩
    · exact PermOn.swap d ha1 (by omega) hb1 (by omega) ha hb
    · show cell d (swapL d st.mem a b) a = _
      rw [cell_swapL d ha hb, if_neg hab, if_pos rfl]
    · show cell d (swapL d st.mem a b) b = _
      rw [cell_swapL d ha hb, if_pos rfl]
    · intro k hk1 hk2
      show cell d (swapL d st.mem a b) k = _
      rw [cell_swapL d ha hb, if_neg hk2, if_neg hk1]
  · rw [if_neg hlt, if_neg hlt, if_neg hlt]
    exact ⟨_, rfl, PermOn.refl _, rfl, rfl, fun _ _ _ => rfl⟩

theorem SRT3_spec {compar : α → α → Int} (hswo : StrictWeakOrder compar) (d : α)
    (st : St α) (lo hi a b c : Nat)
    (ha1 : lo ≤ a) (ha2 : a < hi) (hb1 : lo ≤ b) (hb2 : b < hi) (hc1 : lo ≤ c) (hc2 : c < hi)
    (hab : a ≠ b) (hbc : b ≠ c) (hac : a ≠ c) (hlen : hi ≤ st.mem.length) :
    ∃ st2, CPDQS_SRT3 compar st a b c = some st2 ∧
      PermOn lo hi st.mem st2.mem ∧
      ¬ compar (cell d st2.mem b) (cell d st2.mem a) < 0 ∧
      ¬ compar (cell d st2.mem c) (cell d st2.mem b) < 0 := by
  obtain ⟨st1, h1, hp1, ha_1, hb_1, ho1⟩ :=
    SRT2_spec compar d st lo hi a b ha1 ha2 hb1 hb2 hab hlen
  have hlen1 : hi ≤ st1.mem.length := by rw [hp1.length_eq]; exact hlen
  obtain ⟨st2, h2, hp2, hb_2, hc_2, ho2⟩ :=
    SRT2_spec compar d st1 lo hi b c hb1 hb2 hc1 hc2 hbc hlen1
  have hlen2 : hi ≤ st2.mem.length := by rw [hp2.length_eq]; exact hlen1
  obtain ⟨st3, h3, hp3, ha_3, hb_3, ho3⟩ :=
    SRT2_spec compar d st2 lo hi a b ha1 ha2 hb1 hb2 hab hlen2
  refine ⟨st3, ?_, (hp1.trans hp2).trans hp3, ?_, ?_⟩
  · unfold CPDQS_SRT3
    simp only [Option.bind_eq_bind, h1, Option.some_bind, h2, h3]
  · rw [ha_3, hb_3]
    split_ifs with h
    · exact hswo.asymm h
    · exact h
  · have hx1 : ¬ compar (cell d st1.mem b) (cell d st1.mem a) < 0 := by
      rw [ha_1, hb_1]
      split_ifs with h
      · exact hswo.asymm h
      · exact h
    rw [hb_3, ho3 c (Ne.symm hac) (Ne.symm hbc), hc_2, hb_2, ho2 a hab hac]
    rw [ho1 c (Ne.symm hac) (Ne.symm hbc)] at *
    split_ifs with h4 h5
    · exact hx1
    · exact hswo.asymm h4
    · exact h4

theorem SW_perm (d : α) (st : St α) (lo hi a b : Nat) (ha1 : lo ≤ a) (ha2 : a < hi)
    (hb1 : lo ≤ b) (hb2 : b < hi) (hlen : hi ≤ st.mem.length) :
    ∃ st2, CPDQS_SW st a b = some st2 ∧ PermOn lo hi st.mem st2.mem ∧
      st2.mem = swapL d st.mem a b := by
  have ha : a < st.mem.length := by omega
  have hb : b < st.mem.length := by omega
  exact ⟨_, SW_eq d ha hb, PermOn.swap d ha1 ha2 hb1 hb2 ha hb, rfl⟩

theorem PDQSRTL_pivot_spec {compar : α → α → Int} (hswo : StrictWeakOrder compar) (d : α)
    (st : St α) (begin end_ : Nat) (ht : CPDQS_ISRT_THRESHOLD ≤ end_ - begin)
    (hlen : end_ ≤ st.mem.length) :
    ∃ st2, PDQSRTL_pivot compar st begin end_ (end_ - begin) = some st2 ∧
      PermOn begin end_ st.mem st2.mem ∧
      ∃ q, begin < q ∧ q < end_ ∧ ¬ compar (cell d st2.mem q) (cell d st2.mem begin) < 0 := by
  unfold CPDQS_ISRT_THRESHOLD at ht
  unfold PDQSRTL_pivot
  simp only []
  by_cases h9 : end_ - begin > CPDQS_T9THER
  · rw [if_pos h9]
    unfold CPDQS_T9THER at h9
    obtain ⟨st1, h1, hp1, _, _⟩ := SRT3_spec hswo d st begin end_ begin
      (begin + (end_ - begin) / 2) (end_ - 1) (by omega) (by omega) (by omega) (by omega)
      (by omega) (by omega) (by omega) (by omega) (by omega) hlen
    have hlen1 : end_ ≤ st1.mem.length := by rw [hp1.length_eq]; exact hlen
    obtain ⟨st2, h2, hp2, _, _⟩ := SRT3_spec hswo d st1 begin end_ (begin + 1)
      (begin + ((end_ - begin) / 2 - 1)) (end_ - 2) (by omega) (by omega) (by omega)
      (by omega) (by omega) (by omega) (by omega) (by omega) (by omega) hlen1
    have hlen2 : end_ ≤ st2.mem.length := by rw [hp2.length_eq]; exact hlen1
    obtain ⟨st3, h3, hp3, _, _⟩ := SRT3_spec hswo d st2 begin end_ (begin + 2)
      (begin + ((end_ - begin) / 2 + 1)) (end_ - 3) (by omega) (by omega) (by omega)
      (by omega) (by omega) (by omega) (by omega) (by omega) (by omega) hlen2
    have hlen3 : end_ ≤ st3.mem.length := by rw [hp3.length_eq]; exact hlen2
    obtain ⟨st4, h4, hp4, _, hord⟩ := SRT3_spec hswo d st3 begin end_
      (begin + ((end_ - begin) / 2 - 1)) (begin + (end_ - begin) / 2)
      (begin + ((end_ - begin) / 2 + 1)) (by omega) (by omega) (by omega)
      (by omega) (by omega) (by omega) (by omega) (by omega) (by omega) hlen3
    have hlen4 : end_ ≤ st4.mem.length := by rw [hp4.length_eq]; exact hlen3
    obtain ⟨st5, h5, hp5, hmem5⟩ := SW_perm d st4 begin end_ begin
      (begin + (end_ - begin) / 2) (le_refl _) (by omega) (by omega) (by omega) hlen4
    refine ⟨st5, ?_, (((hp1.trans hp2).trans hp3).trans hp4).trans hp5, ?_⟩
    · simp only [Option.bind_eq_bind, h1, Option.some_bind, h2, h3, h4, h5]
    · refine ⟨begin + ((end_ - begin) / 2 + 1), by omega, by omega, ?_⟩
      rw [hmem5, cell_swapL d (by omega) (by omega), cell_swapL d (by omega) (by omega),
        if_neg (by omega), if_neg (by omega), if_neg (by omega), if_pos rfl]
      exact hord
  · rw [if_neg h9]
    obtain ⟨st1, h1, hp1, _, hord⟩ := SRT3_spec hswo d st begin end_
      (begin + (end_ - begin) / 2) begin (end_ - 1) (by omega) (by omega) (by omega)
      (by omega) (by omega) (by omega) (by omega) (by omega) (by omega) hlen
    exact ⟨st1, h1, hp1, end_ - 1, by omega, by omega, hord⟩

theorem PDQSRTL_shuffle_left_spec (d : α) (st : St α) (begin pivot_pos : Nat)
    (hbp : begin ≤ pivot_pos) (hlen : pivot_pos ≤ st.mem.length) :
    ∃ st2, PDQSRTL_shuffle_left st begin pivot_pos (pivot_pos - begin) = some st2 ∧
      PermOn begin pivot_pos st.mem st2.mem := by
  unfold PDQSRTL_shuffle_left
  by_cases h1 : pivot_pos - begin ≥ CPDQS_ISRT_THRESHOLD
  · rw [if_pos h1]
    unfold CPDQS_ISRT_THRESHOLD at h1
    obtain ⟨st1, e1, hp1, _⟩ := SW_perm d st begin pivot_pos begin
      (begin + (pivot_pos - begin) / 4) (by omega) (by omega) (by omega) (by omega) hlen
    have hlen1 : pivot_pos ≤ st1.mem.length := by rw [hp1.length_eq]; exact hlen
    obtain ⟨st2, e2, hp2, _⟩ := SW_perm d st1 begin pivot_pos (pivot_pos - 1)
      (pivot_pos - (pivot_pos - begin) / 4) (by omega) (by omega) (by omega) (by omega) hlen1
    have hlen2 : pivot_pos ≤ st2.mem.length := by rw [hp2.length_eq]; exact hlen1
    simp only [Option.bind_eq_bind, e1, Option.some_bind, e2]
    by_cases h2 : pivot_pos - begin > CPDQS_T9THER
    · rw [if_pos h2]
      unfold CPDQS_T9THER at h2
      obtain ⟨st3, e3, hp3, _⟩ := SW_perm d st2 begin pivot_pos (begin + 1)
        (begin + ((pivot_pos - begin) / 4 + 1)) (by omega) (by omega) (by omega) (by omega)
        hlen2
      have hlen3 : pivot_pos ≤ st3.mem.length := by rw [hp3.length_eq]; exact hlen2
      obtain ⟨st4, e4, hp4, _⟩ := SW_perm d st3 begin pivot_pos (begin + 2)
        (begin + ((pivot_pos - begin) / 4 + 2)) (by omega) (by omega) (by omega) (by omega)
        hlen3
      have hlen4 : pivot_pos ≤ st4.mem.length := by rw [hp4.length_eq]; exact hlen3
      obtain ⟨st5, e5, hp5, _⟩ := SW_perm d st4 begin pivot_pos (pivot_pos - 2)
        (pivot_pos - ((pivot_pos - begin) / 4 + 1)) (by omega) (by omega) (by omega)
        (by omega) hlen4
      have hlen5 : pivot_pos ≤ st5.mem.length := by rw [hp5.length_eq]; exact hlen4
      obtain ⟨st6, e6, hp6, _⟩ := SW_perm d st5 begin pivot_pos (pivot_pos - 3)
        (pivot_pos - ((pivot_pos - begin) / 4 + 2)) (by omega) (by omega) (by omega)
        (by omega) hlen5
      simp only [e3, Option.some_bind, e4, e5, e6]
      exact ⟨st6, rfl, ((((hp1.trans hp2).trans hp3).trans hp4).trans hp5).trans hp6⟩
    · rw [if_neg h2]
      exact ⟨st2, rfl, hp1.trans hp2⟩
  · rw [if_neg h1]
    exact ⟨st, rfl, PermOn.refl _⟩

theorem PDQSRTL_shuffle_right_spec (d : α) (st : St α) (pivot_pos end_ : Nat)
    (hpe : pivot_pos < end_) (hlen : end_ ≤ st.mem.length) :
    ∃ st2, PDQSRTL_shuffle_right st pivot_pos end_ (end_ - pivot_pos - 1) = some st2 ∧
      PermOn (pivot_pos + 1) end_ st.mem st2.mem := by
  unfold PDQSRTL_shuffle_right
  by_cases h1 : end_ - pivot_pos - 1 ≥ CPDQS_ISRT_THRESHOLD
  · rw [if_pos h1]
    unfold CPDQS_ISRT_THRESHOLD at h1
    obtain ⟨st1, e1, hp1, _⟩ := SW_perm d st (pivot_pos + 1) end_ (pivot_pos + 1)
      (pivot_pos + (1 + (end_ - pivot_pos - 1) / 4)) (by omega) (by omega) (by omega)
      (by omega) hlen
    have hlen1 : end_ ≤ st1.mem.length := by rw [hp1.length_eq]; exact hlen
    obtain ⟨st2, e2, hp2, _⟩ := SW_perm d st1 (pivot_pos + 1) end_ (end_ - 1)
      (end_ - (end_ - pivot_pos - 1) / 4) (by omega) (by omega) (by omega) (by omega) hlen1
    have hlen2 : end_ ≤ st2.mem.length := by rw [hp2.length_eq]; exact hlen1
    simp only [Option.bind_eq_bind, e1, Option.some_bind, e2]
    by_cases h2 : end_ - pivot_pos - 1 > CPDQS_T9THER
    · rw [if_pos h2]
      unfold CPDQS_T9THER at h2
      obtain ⟨st3, e3, hp3, _⟩ := SW_perm d st2 (pivot_pos + 1) end_ (pivot_pos + 2)
        (pivot_pos + (2 + (end_ - pivot_pos - 1) / 4)) (by omega) (by omega) (by omega)
        (by omega) hlen2
      have hlen3 : end_ ≤ st3.mem.length := by rw [hp3.length_eq]; exact hlen2
      obtain ⟨st4, e4, hp4, _⟩ := SW_perm d st3 (pivot_pos + 1) end_ (pivot_pos + 3)
        (pivot_pos + (3 + (end_ - pivot_pos - 1) / 4)) (by omega) (by omega) (by omega)
        (by omega) hlen3
      have hlen4 : end_ ≤ st4.mem.length := by rw [hp4.length_eq]; exact hlen3
      obtain ⟨st5, e5, hp5, _⟩ := SW_perm d st4 (pivot_pos + 1) end_ (end_ - 2)
        (end_ - (1 + (end_ - pivot_pos - 1) / 4)) (by omega) (by omega) (by omega)
        (by omega) hlen4
      have hlen5 : end_ ≤ st5.mem.length := by rw [hp5.length_eq]; exact hlen4
      obtain ⟨st6, e6, hp6, _⟩ := SW_perm d st5 (pivot_pos + 1) end_ (end_ - 3)
        (end_ - (2 + (end_ - pivot_pos - 1) / 4)) (by omega) (by omega) (by omega)
        (by omega) hlen5
      simp only [e3, Option.some_bind, e4, e5, e6]
      exact ⟨st6, rfl, ((((hp1.trans hp2).trans hp3).trans hp4).trans hp5).trans hp6⟩
    · rw [if_neg h2]
      exact ⟨st2, rfl, hp1.trans hp2⟩
  · rw [if_neg h1]
    exact ⟨st, rfl, PermOn.refl _⟩

end Cpdqsort


namespace Cpdqsort

variable {α : Type}

/-! ## The driver: one pass of the loop -/

theorem Partitioned.permOn_left {compar : α → α → Int} {d : α} {m m2 : List α}
    {b pos e : Nat} (h : Partitioned compar d m b pos e) (hp : PermOn b pos m m2) :
    Partitioned compar d m2 b pos e := by
  have hpos : cell d m2 pos = cell d m pos := hp.cell_outside d (Or.inr (le_refl _))
  refine ⟨?_, ?_⟩
  · rw [hpos]
    exact hp.forall_range d (fun y => compar y (cell d m pos) < 0) h.1
  · intro i hi1 hi2
    rw [hpos, hp.cell_outside d (Or.inr (by omega))]
    exact h.2 i hi1 hi2

theorem Partitioned.permOn_right {compar : α → α → Int} {d : α} {m m2 : List α}
    {b pos e : Nat} (h : Partitioned compar d m b pos e) (hp : PermOn (pos + 1) e m m2) :
    Partitioned compar d m2 b pos e := by
  have hpos : cell d m2 pos = cell d m pos := hp.cell_outside d (Or.inl (by omega))
  refine ⟨?_, ?_⟩
  · intro i hi1 hi2
    rw [hpos, hp.cell_outside d (Or.inl (by omega))]
    exact h.1 i hi1 hi2
  · rw [hpos]
    intro i hi1 hi2
    exact hp.forall_range d (fun y => ¬ compar y (cell d m pos) < 0)
      (fun k hk1 hk2 => h.2 k (by omega) hk2) i (by omega) hi2

theorem Partitioned.sortedOn {compar : α → α → Int} (hswo : StrictWeakOrder compar) {d : α}
    {m : List α} {b pos e : Nat} (h : Partitioned compar d m b pos e)
    (hl : SortedOn compar d m b pos) (hr : SortedOn compar d m (pos + 1) e) :
    SortedOn compar d m b e := by
  intro i j hi hij hj
  by_cases h1 : j < pos
  · exact hl i j hi hij h1
  · by_cases h2 : pos < i
    · exact hr i j (by omega) hij hj
    · by_cases h3 : i = pos
      · rw [h3]
        exact h.2 j (by omega) hj
      · have hlt := h.1 i hi (by omega)
        by_cases h4 : j = pos
        · rw [h4]
          exact hswo.asymm hlt
        · intro hcon
          exact h.2 j (by omega) hj (hswo.trans _ _ _ hcon hlt)

theorem PDQSRTL_shortcut_test_spec (compar : α → α → Int) (d : α) (st : St α) (begin : Nat)
    (is_leftmost : Bool) (hlen : begin < st.mem.length)
    (hb : is_leftmost = false → 1 ≤ begin) :
    ∃ shortcut st2, PDQSRTL_shortcut_test compar st begin is_leftmost = some (shortcut, st2) ∧
      st2.mem = st.mem ∧
      (shortcut = true → is_leftmost = false ∧
        ¬ compar (cell d st.mem (begin - 1)) (cell d st.mem begin) < 0) := by
  unfold PDQSRTL_shortcut_test
  cases is_leftmost with
  | true =>
    simp only [Bool.not_eq_true, Bool.true_eq_false, if_false]
    refine ⟨false, st, rfl, rfl, ?_⟩
    intro h
    simp at h
  | false =>
    have h1 := hb rfl
    simp only [Bool.not_eq_true, if_true]
    rw [if_neg (by omega)]
    simp only [Option.bind_eq_bind]
    rw [rd_eq d (show begin - 1 < st.mem.length by omega), Option.some_bind, rd_eq d hlen,
      Option.some_bind]
    refine ⟨_, _, rfl, rfl, ?_⟩
    intro h
    exact ⟨by trivial, by simpa using h⟩

theorem PDQSRTL_unbalanced_spec {compar : α → α → Int} (hswo : StrictWeakOrder compar)
    (d : α) (st : St α) (begin end_ pivot_pos bad_allowed : Nat) (is_leftmost : Bool)
    (hbp : begin ≤ pivot_pos) (hpe : pivot_pos < end_) (hlen : end_ ≤ st.mem.length)
    (hpart : Partitioned compar d st.mem begin pivot_pos end_) :
    ∃ st2 pushed, PDQSRTL_unbalanced compar st begin end_ pivot_pos bad_allowed is_leftmost =
        some (st2, pushed) ∧
      PermOn begin end_ st.mem st2.mem ∧
      ((pushed = [] ∧ SortedOn compar d st2.mem begin end_) ∨
        (∃ bad, pushed = PDQSRTL_push begin end_ pivot_pos bad is_leftmost ∧
          Partitioned compar d st2.mem begin pivot_pos end_)) := by
  unfold PDQSRTL_unbalanced
  simp only []
  by_cases h0 : dec_u32 bad_allowed = 0
  · rw [if_pos h0]
    obtain ⟨st1, h1, hp1, hs1⟩ := CPDQS_HSRTM_spec hswo d st begin (end_ - begin) (by omega)
    rw [show begin + (end_ - begin) = end_ by omega] at hp1 hs1
    simp only [Option.bind_eq_bind, h1, Option.some_bind]
    exact ⟨st1, [], rfl, hp1, Or.inl ⟨rfl, hs1⟩⟩
  · rw [if_neg h0]
    obtain ⟨st1, h1, hp1⟩ := PDQSRTL_shuffle_left_spec d st begin pivot_pos hbp (by omega)
    have hlen1 : end_ ≤ st1.mem.length := by rw [hp1.length_eq]; exact hlen
    obtain ⟨st2, h2, hp2⟩ := PDQSRTL_shuffle_right_spec d st1 pivot_pos end_ hpe hlen1
    simp only [Option.bind_eq_bind, h1, Option.some_bind, h2]
    refine ⟨st2, _, rfl, ?_, Or.inr ⟨_, rfl, ?_⟩⟩
    · exact (hp1.mono (le_refl _) (by omega)).trans (hp2.mono (by omega) (le_refl _))
    · exact (hpart.permOn_left hp1).permOn_right hp2

theorem PDQSRTL_balanced_spec {compar : α → α → Int} (hswo : StrictWeakOrder compar)
    (d : α) (st : St α) (begin end_ pivot_pos bad_allowed : Nat)
    (is_leftmost already_partitioned : Bool)
    (hl : 1 < pivot_pos - begin) (hr : 1 < end_ - pivot_pos - 1) (hlen : end_ ≤ st.mem.length)
    (hpart : Partitioned compar d st.mem begin pivot_pos end_) :
    ∃ st2 pushed, PDQSRTL_balanced compar st begin end_ pivot_pos bad_allowed is_leftmost
        already_partitioned = some (st2, pushed) ∧
      PermOn begin end_ st.mem st2.mem ∧
      ((pushed = [] ∧ SortedOn compar d st2.mem begin end_) ∨
        (∃ bad, pushed = PDQSRTL_push begin end_ pivot_pos bad is_leftmost ∧
          Partitioned compar d st2.mem begin pivot_pos end_)) := by
  unfold PDQSRTL_balanced
  cases already_partitioned with
  | false =>
    simp only [Bool.false_eq_true, if_false]
    exact ⟨st, _, rfl, PermOn.refl _, Or.inr ⟨_, rfl, hpart⟩⟩
  | true =>
    simp only [if_true]
    obtain ⟨st1, ok1, h1, hp1, hs1⟩ := CPDQS_PISRT_spec hswo d st begin (pivot_pos - begin) hl
      (by omega)
    rw [show begin + (pivot_pos - begin) = pivot_pos by omega] at hp1 hs1
    have hlen1 : end_ ≤ st1.mem.length := by rw [hp1.length_eq]; exact hlen
    have hpart1 := hpart.permOn_left hp1
    simp only [Option.bind_eq_bind, h1, Option.some_bind]
    cases ok1 with
    | false =>
      simp only [Bool.false_eq_true, if_false]
      exact ⟨st1, _, rfl, hp1.mono (le_refl _) (by omega), Or.inr ⟨_, rfl, hpart1⟩⟩
    | true =>
      simp only [if_true]
      obtain ⟨st2, ok2, h2, hp2, hs2⟩ := CPDQS_PISRT_spec hswo d st1 (pivot_pos + 1)
        (end_ - pivot_pos - 1) hr (by omega)
      rw [show pivot_pos + 1 + (end_ - pivot_pos - 1) = end_ by omega] at hp2 hs2
      have hpart2 := hpart1.permOn_right hp2
      have hperm : PermOn begin end_ st.mem st2.mem :=
        (hp1.mono (le_refl _) (by omega)).trans (hp2.mono (by omega) (le_refl _))
      simp only [h2, Option.some_bind]
      cases ok2 with
      | false =>
        simp only [Bool.false_eq_true, if_false]
        exact ⟨st2, _, rfl, hperm, Or.inr ⟨_, rfl, hpart2⟩⟩
      | true =>
        simp only [if_true]
        refine ⟨st2, _, rfl, hperm, Or.inl ⟨rfl, ?_⟩⟩
        apply hpart2.sortedOn hswo _ (hs2 rfl)
        intro i j hi hij hj
        rw [hp2.cell_outside d (Or.inl (by omega)), hp2.cell_outside d (Or.inl (by omega))]
        exact hs1 rfl i j hi hij hj

theorem PDQSRTL_step_spec {compar : α → α → Int} (hswo : StrictWeakOrder compar) (d : α)
    (st : St α) (f : Frame) (hf : FrameOK compar d st.mem f) :
    ∃ st2 pushed, PDQSRTL_step compar st f = some (st2, pushed) ∧
      PermOn f.begin f.end_ st.mem st2.mem ∧ StepPost compar d st.mem st2.mem f pushed := by
  obtain ⟨hbe, hlen, hsent⟩ := hf
  unfold PDQSRTL_step
  simp only []
  by_cases ht : f.end_ - f.begin < CPDQS_ISRT_THRESHOLD
  · rw [if_pos ht]
    cases hlm : f.is_leftmost with
    | true =>
      simp only [if_true]
      obtain ⟨st1, h1, hp1, hs1⟩ := CPDQS_ISRT_spec hswo d st f.begin (f.end_ - f.begin)
        (by omega)
      rw [show f.begin + (f.end_ - f.begin) = f.end_ by omega] at hp1 hs1
      simp only [Option.bind_eq_bind, h1, Option.some_bind]
      exact ⟨st1, [], rfl, hp1, Or.inl ⟨rfl, Or.inl hs1⟩⟩
    | false =>
      simp only [Bool.false_eq_true, if_false]
      obtain ⟨hb, hsent2⟩ := hsent hlm
      obtain ⟨st1, h1, hp1, hs1⟩ := CPDQS_UISRT_spec hswo d st f.begin (f.end_ - f.begin)
        (by omega) hb
        (by rw [show f.begin + (f.end_ - f.begin) = f.end_ by omega]; exact hsent2)
      rw [show f.begin + (f.end_ - f.begin) = f.end_ by omega] at hp1 hs1
      simp only [Option.bind_eq_bind, h1, Option.some_bind]
      exact ⟨st1, [], rfl, hp1, Or.inl ⟨rfl, Or.inl hs1⟩⟩
  · rw [if_neg ht]
    have ht2 : CPDQS_ISRT_THRESHOLD ≤ f.end_ - f.begin := by omega
    obtain ⟨st1, h1, hp1, q, hq1, hq2, hq3⟩ := PDQSRTL_pivot_spec hswo d st f.begin f.end_
      ht2 hlen
    unfold CPDQS_ISRT_THRESHOLD at ht2
    have hlen1 : f.end_ ≤ st1.mem.length := by rw [hp1.length_eq]; exact hlen
    obtain ⟨sc, st2, h2, hmem2, hsc⟩ := PDQSRTL_shortcut_test_spec compar d st1 f.begin
      f.is_leftmost (by omega) (fun h => (hsent h).1)
    simp only [Option.bind_eq_bind, h1, Option.some_bind, h2]
    have hlen2 : f.end_ ≤ st2.mem.length := by rw [hmem2]; exact hlen1
    cases sc with
    | true =>
      simp only [if_true]
      obtain ⟨hlm, hnlt⟩ := hsc rfl
      obtain ⟨st3, pos, h3, _, _, hp3, _⟩ := CPDQS_PAL_spec hswo d st2 f.begin
        (f.end_ - f.begin) (by omega) (by omega)
      rw [show f.begin + (f.end_ - f.begin) = f.end_ by omega, hmem2] at hp3
      simp only [h3, Option.some_bind]
      refine ⟨st3, [], rfl, hp1.trans hp3, Or.inl ⟨rfl, Or.inr ⟨hlm, ?_⟩⟩⟩
      by_contra hall
      push_neg at hall
      have hb := (hsent hlm).1
      have h4 := hp1.forall_range d (fun y => compar (cell d st.mem (f.begin - 1)) y < 0)
        (fun k hk1 hk2 => hall k hk1 hk2) f.begin (le_refl _) (by omega)
      rw [hp1.cell_outside d (Or.inl (by omega))] at hnlt
      exact hnlt h4
    | false =>
      simp only [Bool.false_eq_true, if_false]
      obtain ⟨st3, pos, ap, h3, hpos1, hpos2, hp3, hpiv, hleft, hright⟩ := CPDQS_PAR_spec
        compar d st2 f.begin (f.end_ - f.begin) q (by omega) hq1 (by omega)
        (by rw [hmem2]; exact hq3)
      rw [show f.begin + (f.end_ - f.begin) = f.end_ by omega] at hpos2 hp3 hright
      rw [hmem2] at hp3
      have hpart : Partitioned compar d st3.mem f.begin pos f.end_ := by
        refine ⟨?_, ?_⟩
        · rw [hpiv]; exact hleft
        · rw [hpiv]; exact hright
      have hlen3 : f.end_ ≤ st3.mem.length := by rw [hp3.length_eq]; exact hlen1
      simp only [h3, Option.some_bind]
      by_cases hu : pos - f.begin < (f.end_ - f.begin) / 8 ∨
          f.end_ - pos - 1 < (f.end_ - f.begin) / 8
      · simp only [hu, decide_True, if_true]
        obtain ⟨st4, pushed, h4, hp4, hpost⟩ := PDQSRTL_unbalanced_spec hswo d st3 f.begin
          f.end_ pos f.bad_allowed f.is_leftmost hpos1 hpos2 hlen3 hpart
        refine ⟨st4, pushed, h4, (hp1.trans hp3).trans hp4, ?_⟩
        rcases hpost with ⟨he, hs⟩ | ⟨bad, he, hpart4⟩
        · exact Or.inl ⟨he, Or.inl hs⟩
        · exact Or.inr ⟨pos, bad, hpos1, hpos2, he, hpart4⟩
      · simp only [hu, decide_False, Bool.false_eq_true, if_false]
        obtain ⟨st4, pushed, h4, hp4, hpost⟩ := PDQSRTL_balanced_spec hswo d st3 f.begin
          f.end_ pos f.bad_allowed f.is_leftmost ap (by omega) (by omega) hlen3 hpart
        refine ⟨st4, pushed, h4, (hp1.trans hp3).trans hp4, ?_⟩
        rcases hpost with ⟨he, hs⟩ | ⟨bad, he, hpart4⟩
        · exact Or.inl ⟨he, Or.inl hs⟩
        · exact Or.inr ⟨pos, bad, hpos1, hpos2, he, hpart4⟩

/-! ### What a pass pushes -/

/-- A pass that takes the equal-to-predecessor shortcut is partition-left followed by
`continue`: nothing is pushed. -/
theorem PDQSRTL_step_shortcut (compar : α → α → Int) (st st1 st2 : St α) (f : Frame)
    (ht : ¬ f.end_ - f.begin < CPDQS_ISRT_THRESHOLD)
    (h1 : PDQSRTL_pivot compar st f.begin f.end_ (f.end_ - f.begin) = some st1)
    (h2 : PDQSRTL_shortcut_test compar st1 f.begin f.is_leftmost = some (true, st2)) :
    PDQSRTL_step compar st f =
      (CPDQS_PAL compar st2 f.begin (f.end_ - f.begin)).map fun r => (r.1, []) := by
  unfold PDQSRTL_step
  simp only [if_neg ht, Option.bind_eq_bind, h1, Option.some_bind, h2, if_true]
  cases CPDQS_PAL compar st2 f.begin (f.end_ - f.begin) <;> rfl

/-- The highly unbalanced branch pushes nothing (heapsort fallback) or the two halves with
the decremented budget. -/
theorem PDQSRTL_unbalanced_bad (compar : α → α → Int) (st st2 : St α)
    (begin end_ pivot_pos bad_allowed : Nat) (is_leftmost : Bool) (pushed : List Frame)
    (h : PDQSRTL_unbalanced compar st begin end_ pivot_pos bad_allowed is_leftmost =
      some (st2, pushed)) :
    pushed = [] ∨ pushed = PDQSRTL_push begin end_ pivot_pos (dec_u32 bad_allowed) is_leftmost := by
  unfold PDQSRTL_unbalanced at h
  simp only [] at h
  split at h
  · simp only [Option.bind_eq_bind] at h
    cases h3 : CPDQS_HSRTM compar st begin (end_ - begin) with
    | none => rw [h3] at h; simp at h
    | some a =>
      rw [h3] at h
      simp only [Option.some_bind, Option.some.injEq, Prod.mk.injEq] at h
      exact Or.inl h.2.symm
  · simp only [Option.bind_eq_bind] at h
    cases h3 : PDQSRTL_shuffle_left st begin pivot_pos (pivot_pos - begin) with
    | none => rw [h3] at h; simp at h
    | some a =>
      rw [h3] at h
      simp only [Option.some_bind] at h
      cases h4 : PDQSRTL_shuffle_right a pivot_pos end_ (end_ - pivot_pos - 1) with
      | none => rw [h4] at h; simp at h
      | some a2 =>
        rw [h4] at h
        simp only [Option.some_bind, Option.some.injEq, Prod.mk.injEq] at h
        exact Or.inr h.2.symm

end Cpdqsort


namespace Cpdqsort

variable {α : Type}

/-! ## The driver: the loop over the stack -/

theorem stackOK_end_le {compar : α → α → Int} {d : α} {m : List α} :
    ∀ {stack : List Frame} {hi : Nat}, StackOK compar d m hi stack →
      ∀ g ∈ stack, g.end_ ≤ hi
  | [], _, _, g, hg => by simp at hg
  | f :: rest, hi, h, g, hg => by
    obtain ⟨hf, hfe, hrest⟩ := h
    rcases List.mem_cons.1 hg with hg | hg
    · rw [hg]; exact hfe
    · have := stackOK_end_le hrest g hg
      have := hf.1
      omega

theorem stackOK_mono {compar : α → α → Int} {d : α} {m : List α} {stack : List Frame}
    {hi hi2 : Nat} (h : StackOK compar d m hi stack) (hle : hi ≤ hi2) :
    StackOK compar d m hi2 stack := by
  cases stack with
  | nil => trivial
  | cons f rest => exact ⟨h.1, le_trans h.2.1 hle, h.2.2⟩

theorem stackOK_congr {compar : α → α → Int} {d : α} {m m2 : List α}
    (hlen : m2.length = m.length) :
    ∀ {stack : List Frame} {hi : Nat}, StackOK compar d m hi stack →
      (∀ i, i < hi → cell d m2 i = cell d m i) → StackOK compar d m2 hi stack
  | [], _, _, _ => trivial
  | f :: rest, hi, h, hagree => by
    obtain ⟨⟨hbe, hfl, hsent⟩, hfe, hrest⟩ := h
    refine ⟨⟨hbe, by rw [hlen]; exact hfl, ?_⟩, hfe, ?_⟩
    · intro hlm
      obtain ⟨hb, hs⟩ := hsent hlm
      refine ⟨hb, ?_⟩
      intro i hi1 hi2
      rw [hagree i (by omega), hagree (f.begin - 1) (by omega)]
      exact hs i hi1 hi2
    · exact stackOK_congr hlen hrest (fun i hi1 => hagree i (by omega))

theorem stackOK_step {compar : α → α → Int} {d : α} {m m2 : List α} {f : Frame}
    {rest pushed : List Frame} {hi : Nat} (h : StackOK compar d m hi (f :: rest))
    (hperm : PermOn f.begin f.end_ m m2) (hpost : StepPost compar d m m2 f pushed) :
    StackOK compar d m2 hi (pushed ++ rest) := by
  obtain ⟨⟨hbe, hfl, hsent⟩, hfe, hrest⟩ := h
  have hlen := hperm.length_eq
  have hrest2 : StackOK compar d m2 (f.begin - 1) rest :=
    stackOK_congr hlen hrest (fun i hi1 => hperm.cell_outside d (Or.inl (by omega)))
  rcases hpost with ⟨he, _⟩ | ⟨pos, bad, hpos1, hpos2, he, hpart⟩
  · rw [he]
    exact stackOK_mono hrest2 (by omega)
  · rw [he]
    refine ⟨⟨?_, ?_, ?_⟩, hfe, ⟨?_, ?_, ?_⟩, ?_, hrest2⟩
    · show pos + 1 ≤ f.end_
      omega
    · show f.end_ ≤ m2.length
      rw [hlen]; exact hfl
    · intro _
      refine ⟨by show 1 ≤ pos + 1; omega, ?_⟩
      intro i hi1 hi2
      exact hpart.2 i hi1 hi2
    · exact hpos1
    · show pos ≤ m2.length
      rw [hlen]; omega
    · intro hlm
      obtain ⟨hb, hs⟩ := hsent hlm
      refine ⟨hb, ?_⟩
      show ∀ i, f.begin ≤ i → i < pos → ¬ compar (cell d m2 i) (cell d m2 (f.begin - 1)) < 0
      intro i hi1 hi2
      rw [hperm.cell_outside d (k := f.begin - 1) (Or.inl (by omega))]
      exact hperm.forall_range d (fun y => ¬ compar y (cell d m (f.begin - 1)) < 0) hs i hi1
        (by omega)
    · show pos ≤ pos + 1 - 1
      omega

theorem stackMeasure_step {compar : α → α → Int} {d : α} {m m2 : List α} {f : Frame}
    {pushed : List Frame} (rest : List Frame) (hbe : f.begin ≤ f.end_)
    (hpost : StepPost compar d m m2 f pushed) :
    stackMeasure (pushed ++ rest) < stackMeasure (f :: rest) := by
  rcases hpost with ⟨he, _⟩ | ⟨pos, bad, hpos1, hpos2, he, _⟩
  · rw [he]
    simp [stackMeasure]
  · rw [he]
    simp only [PDQSRTL_push, List.cons_append, List.nil_append, stackMeasure]
    show 2 * (f.end_ - (pos + 1)) + 1 + (2 * (pos - f.begin) + 1 + stackMeasure rest) <
      2 * (f.end_ - f.begin) + 1 + stackMeasure rest
    omega

theorem PermOn.distinct {compar : α → α → Int} (d : α) {b e n : Nat} {m m2 : List α}
    (h : PermOn b e m m2) (hen : e ≤ n) (hd : Distinct compar d m n) :
    Distinct compar d m2 n := by
  induction h with
  | refl m => exact hd
  | step m m2 i j x y hi1 hi2 hj1 hj2 hx hy _ ih =>
    apply ih
    have hil := lt_length_of_getElem? hx
    have hjl := lt_length_of_getElem? hy
    have hm1 : (m.set i y).set j x = swapL d m i j := by
      unfold swapL
      rw [cell_of_getElem? d hx, cell_of_getElem? d hy]
    rw [hm1]
    have hc : ∀ k, k < n → ∃ k2, k2 < n ∧ cell d (swapL d m i j) k = cell d m k2 ∧
        (k2 = if k = j then i else if k = i then j else k) := by
      intro k hk
      rw [cell_swapL d hil hjl]
      by_cases h1 : k = j
      · exact ⟨i, by omega, by rw [if_pos h1], by rw [if_pos h1]⟩
      · by_cases h2 : k = i
        · exact ⟨j, by omega, by rw [if_neg h1, if_pos h2], by rw [if_neg h1, if_pos h2]⟩
        · exact ⟨k, hk, by rw [if_neg h1, if_neg h2], by rw [if_neg h1, if_neg h2]⟩
    intro k l hk hl hkl
    obtain ⟨k2, hk2, ek, ek2⟩ := hc k hk
    obtain ⟨l2, hl2, el, el2⟩ := hc l hl
    rw [ek, el]
    apply hd k2 l2 hk2 hl2
    rw [ek2, el2]
    split_ifs <;> omega

theorem settled_step {compar : α → α → Int} (d : α) {m m2 : List α} {n : Nat} {f : Frame}
    {rest pushed : List Frame} (hset : Settled compar d m n (f :: rest))
    (hperm : PermOn f.begin f.end_ m m2) (hen : f.end_ ≤ n)
    (hrest : ∀ g ∈ rest, g.end_ ≤ f.begin)
    (hlocal : ∀ i j, f.begin ≤ i → i < j → j < f.end_ →
      (∀ g ∈ pushed, ¬ (g.begin ≤ i ∧ j < g.end_)) →
      ¬ compar (cell d m2 j) (cell d m2 i) < 0) :
    Settled compar d m2 n (pushed ++ rest) := by
  intro i j hij hjn hno
  have hno1 : ∀ g ∈ pushed, ¬ (g.begin ≤ i ∧ j < g.end_) :=
    fun g hg => hno g (List.mem_append_left _ hg)
  have hno2 : ∀ g ∈ rest, ¬ (g.begin ≤ i ∧ j < g.end_) :=
    fun g hg => hno g (List.mem_append_right _ hg)
  by_cases hi : f.begin ≤ i ∧ i < f.end_
  · by_cases hj : j < f.end_
    · exact hlocal i j hi.1 hij hj hno1
    · rw [hperm.cell_outside d (k := j) (Or.inr (by omega))]
      refine hperm.forall_range d (fun y => ¬ compar (cell d m j) y < 0) ?_ i hi.1 hi.2
      intro k hk1 hk2
      apply hset k j (by omega) hjn
      intro g hg
      rcases List.mem_cons.1 hg with hg | hg
      · rw [hg]; omega
      · have := hrest g hg
        omega
  · by_cases hj : f.begin ≤ j ∧ j < f.end_
    · rw [hperm.cell_outside d (k := i) (Or.inl (by omega))]
      refine hperm.forall_range d (fun y => ¬ compar y (cell d m i) < 0) ?_ j hj.1 hj.2
      intro k hk1 hk2
      apply hset i k (by omega) (by omega)
      intro g hg
      rcases List.mem_cons.1 hg with hg | hg
      · rw [hg]; omega
      · have := hrest g hg
        omega
    · rw [hperm.cell_outside d (k := i) (by omega), hperm.cell_outside d (k := j) (by omega)]
      apply hset i j hij hjn
      intro g hg
      rcases List.mem_cons.1 hg with hg | hg
      · rw [hg]; omega
      · exact hno2 g hg

theorem stepPost_local {compar : α → α → Int} (hswo : StrictWeakOrder compar) (d : α)
    {m m2 : List α} {n : Nat} {f : Frame} {pushed : List Frame}
    (hf : FrameOK compar d m f) (hen : f.end_ ≤ n) (hd : Distinct compar d m n)
    (hpost : StepPost compar d m m2 f pushed) :
    ∀ i j, f.begin ≤ i → i < j → j < f.end_ →
      (∀ g ∈ pushed, ¬ (g.begin ≤ i ∧ j < g.end_)) →
      ¬ compar (cell d m2 j) (cell d m2 i) < 0 := by
  intro i j hi hij hj hno
  rcases hpost with ⟨_, hs | ⟨hlm, k, hk1, hk2, hk3⟩⟩ | ⟨pos, bad, hpos1, hpos2, he, hpart⟩
  · exact hs i j hi hij hj
  · exfalso
    obtain ⟨hb, hsent⟩ := hf.2.2 hlm
    rcases hd (f.begin - 1) k (by omega) (by omega) (by omega) with h | h
    · exact hk3 h
    · exact hsent k hk1 hk2 h
  · rw [he] at hno
    have h1 := hno ⟨pos + 1, f.end_, bad, false⟩ (by simp [PDQSRTL_push])
    have h2 := hno ⟨f.begin, pos, bad, f.is_leftmost⟩ (by simp [PDQSRTL_push])
    simp only [not_and, not_lt] at h1 h2
    have hi2 : i ≤ pos := by
      by_contra hcon
      have := h1 (by omega)
      omega
    have hj2 : pos ≤ j := h2 hi
    by_cases h3 : i = pos
    · rw [h3]
      exact hpart.2 j (by omega) hj
    · have hlt := hpart.1 i hi (by omega)
      by_cases h4 : j = pos
      · rw [h4]
        exact hswo.asymm hlt
      · intro hcon
        exact hpart.2 j (by omega) hj (hswo.trans _ _ _ hcon hlt)

theorem PDQSRTL_loop_spec {compar : α → α → Int} (hswo : StrictWeakOrder compar) (d : α)
    (n : Nat) :
    ∀ (fuel : Nat) (st : St α) (stack : List Frame),
      StackOK compar d st.mem n stack → stackMeasure stack ≤ fuel →
      ∃ st2, PDQSRTL_loop compar fuel st stack = some st2 ∧
        PermOn 0 n st.mem st2.mem ∧
        (Distinct compar d st.mem n → Settled compar d st.mem n stack →
          SortedOn compar d st2.mem 0 n) := by
  intro fuel
  induction fuel with
  | zero =>
    intro st stack hok hfuel
    cases stack with
    | nil =>
      refine ⟨st, rfl, PermOn.refl _, ?_⟩
      intro _ hset i j _ hij hj
      exact hset i j hij hj (by simp)
    | cons f rest =>
      simp [stackMeasure] at hfuel
  | succ fuel ih =>
    intro st stack hok hfuel
    cases stack with
    | nil =>
      refine ⟨st, rfl, PermOn.refl _, ?_⟩
      intro _ hset i j _ hij hj
      exact hset i j hij hj (by simp)
    | cons f rest =>
      obtain ⟨st1, pushed, h1, hp1, hpost⟩ := PDQSRTL_step_spec hswo d st f hok.1
      have hen : f.end_ ≤ n := hok.2.1
      have hok1 := stackOK_step hok hp1 hpost
      have hmeas := stackMeasure_step rest hok.1.1 hpost
      obtain ⟨st2, h2, hp2, hs2⟩ := ih st1 (pushed ++ rest) hok1 (by omega)
      have hperm1 : PermOn 0 n st.mem st1.mem := hp1.mono (Nat.zero_le _) hen
      refine ⟨st2, ?_, hperm1.trans hp2, ?_⟩
      · rw [PDQSRTL_loop]
        simp only [Option.bind_eq_bind, h1, Option.some_bind, h2]
      · intro hd hset
        apply hs2 (hperm1.distinct d (le_refl _) hd)
        apply settled_step d hset hp1 hen
        · intro g hg
          have := stackOK_end_le hok.2.2 g hg
          omega
        · exact stepPost_local hswo d hok.1 hen hd hpost

theorem pdqsort_spec {compar : α → α → Int} (hswo : StrictWeakOrder compar) (d : α)
    (base : List α) (size : Nat) :
    ∃ st, pdqsort compar base base.length size = some st ∧
      PermOn 0 base.length base st.mem ∧
      (Distinct compar d base base.length → SortedOn compar d st.mem 0 base.length) := by
  unfold pdqsort CPDQS_PDQSRTM
  by_cases h : base.length > 1
  · rw [if_pos h]
    unfold CPDQS_PDQSRTL
    obtain ⟨st2, h2, hp2, hs2⟩ := PDQSRTL_loop_spec hswo d base.length (2 * base.length + 1)
      ⟨base, 0⟩ [PDQSRTL_init base.length size]
      ⟨⟨Nat.zero_le _, le_refl _, fun hlm => by simp [PDQSRTL_init] at hlm⟩, le_refl _, trivial⟩
      (by simp [stackMeasure, PDQSRTL_init])
    refine ⟨st2, h2, hp2, ?_⟩
    intro hd
    apply hs2 hd
    intro i j hij hj hno
    exfalso
    exact hno (PDQSRTL_init base.length size) (by simp) ⟨Nat.zero_le _, hj⟩
  · rw [if_neg h]
    exact ⟨_, rfl, PermOn.refl _, fun _ => sortedOn_short compar d _ _ _ (by omega)⟩

end Cpdqsort


namespace Cpdqsort

variable {α : Type}

/-! ## Strictly decreasing input -/

theorem pairwise_of_cells (d : α) (R : α → α → Prop) (m : List α)
    (h : ∀ i j, i < j → j < m.length → R (cell d m i) (cell d m j)) : m.Pairwise R := by
  rw [List.pairwise_iff_getElem]
  intro i j hi hj hij
  have := h i j hij hj
  rw [cell_of_getElem? d (List.getElem?_eq_getElem hi),
    cell_of_getElem? d (List.getElem?_eq_getElem hj)] at this
  exact this

theorem StrictlyDecreasing.cells {compar : α → α → Int} (hswo : StrictWeakOrder compar)
    (d : α) {m : List α} (h : StrictlyDecreasing compar m) :
    ∀ k i, i + k + 1 < m.length → compar (cell d m (i + k + 1)) (cell d m i) < 0 := by
  intro k
  induction k with
  | zero =>
    intro i hi
    exact h i _ _ (getElem?_eq_cell d (by omega)) (getElem?_eq_cell d hi)
  | succ k ih =>
    intro i hi
    have h1 := ih i (by omega)
    have h2 := h (i + k + 1) _ _ (getElem?_eq_cell d (by omega))
      (getElem?_eq_cell d (show i + k + 1 + 1 < m.length by omega))
    exact hswo.trans _ _ _ h2 h1

theorem StrictlyDecreasing.pairwise {compar : α → α → Int} (hswo : StrictWeakOrder compar)
    (d : α) {m : List α} (h : StrictlyDecreasing compar m) :
    ∀ i j, i < j → j < m.length → compar (cell d m j) (cell d m i) < 0 := by
  intro i j hij hj
  have := h.cells hswo d (j - i - 1) i (by omega)
  rw [show i + (j - i - 1) + 1 = j by omega] at this
  exact this

theorem sorted_distinct_eq_reverse {compar : α → α → Int} (hswo : StrictWeakOrder compar)
    (d : α) {base r : List α} (hdec : StrictlyDecreasing compar base)
    (hperm : PermOn 0 base.length base r)
    (hsorted : SortedOn compar d r 0 base.length) : r = base.reverse := by
  have hlen := hperm.length_eq
  have hpw := hdec.pairwise hswo d
  have hd : Distinct compar d base base.length := by
    intro i j hi hj hij
    rcases Nat.lt_or_gt_of_ne hij with h | h
    · exact Or.inr (hpw i j h hj)
    · exact Or.inl (hpw j i h hi)
  have hd2 := hperm.distinct d (le_refl _) hd
  have hr : r.Pairwise (fun a b => compar a b < 0) := by
    apply pairwise_of_cells d
    intro i j hij hj
    rw [hlen] at hj
    rcases hd2 i j (by omega) hj (by omega) with h | h
    · exact h
    · exact absurd h (hsorted i j (Nat.zero_le _) hij hj)
  have hb : base.reverse.Pairwise (fun a b => compar a b < 0) := by
    rw [List.pairwise_reverse]
    exact pairwise_of_cells d _ base hpw
  have hanti : IsAntisymm α (fun a b => compar a b < 0) :=
    ⟨fun a b h1 h2 => absurd h2 (hswo.asymm h1)⟩
  exact List.eq_of_perm_of_sorted (hperm.perm.trans (List.reverse_perm base).symm) hr hb

theorem strictlyDecreasing_range (n : Nat) :
    StrictlyDecreasing int_compar ((List.range n).reverse.map Int.ofNat) := by
  intro i x y hx hy
  have hi : i + 1 < n := by
    have := lt_length_of_getElem? hy
    simpa using this
  rw [List.getElem?_map, List.getElem?_reverse (by simpa using (show i < n by omega))] at hx
  rw [List.getElem?_map, List.getElem?_reverse (by simpa using hi)] at hy
  simp only [List.length_range] at hx hy
  rw [List.getElem?_range (by omega)] at hx hy
  simp only [Option.map_some', Option.some.injEq] at hx hy
  rw [int_compar_lt, ← hx, ← hy]
  simp only [Int.ofNat_eq_coe]
  omega

/-! ## Testing sortedness of a concrete list -/

theorem sorted_cons_cons (compar : α → α → Int) (a b : α) (t : List α) :
    Sorted compar (a :: b :: t) ↔ ¬ compar b a < 0 ∧ Sorted compar (b :: t) := by
  constructor
  · intro h
    refine ⟨h 0 a b (by simp) (by simp), ?_⟩
    intro i x y hx hy
    exact h (i + 1) x y (by simpa using hx) (by simpa using hy)
  · rintro ⟨h1, h2⟩ i x y hx hy
    cases i with
    | zero =>
      simp only [List.getElem?_cons_zero, Nat.zero_add, List.getElem?_cons_succ,
        Option.some.injEq] at hx hy
      rw [← hx, ← hy]
      exact h1
    | succ i => exact h2 i x y (by simpa using hx) (by simpa using hy)

theorem sortedB_iff (compar : α → α → Int) : ∀ (m : List α),
    sortedB compar m = true ↔ Sorted compar m
  | [] => by
    simp only [sortedB, true_iff]
    exact sorted_nil compar
  | [a] => by
    simp only [sortedB, true_iff]
    intro i x y _ hy
    simp at hy
  | a :: b :: t => by
    rw [sorted_cons_cons, ← sortedB_iff compar (b :: t)]
    simp [sortedB]

end Cpdqsort


namespace Cpdqsort

variable {α : Type}

/-! ## Partition-right: the scan pointers and the flag -/

theorem PAR_loop_eq_ptrs (compar : α → α → Int) (pivot : α) :
    ∀ (fuel : Nat) (st : St α) (first last : Nat),
      PAR_loop compar fuel st pivot first last =
        (PAR_loop_ptrs compar fuel st pivot first last).map fun r => (r.1, r.2.1) := by
  intro fuel
  induction fuel with
  | zero =>
    intro st first last
    rw [PAR_loop, PAR_loop_ptrs]
    by_cases h : first < last
    · rw [if_pos h, if_pos h]; rfl
    · rw [if_neg h, if_neg h]; rfl
  | succ fuel ih =>
    intro st first last
    rw [PAR_loop, PAR_loop_ptrs]
    by_cases h : first < last
    · rw [if_pos h, if_pos h]
      simp only [Option.bind_eq_bind, Option.map_bind, Function.comp_def, ih]
    · rw [if_neg h, if_neg h]; rfl

theorem PAR_loop_ptrs_exit (compar : α → α → Int) (pivot : α) (fuel : Nat) (st : St α)
    (first last : Nat) (h : ¬ first < last) :
    PAR_loop_ptrs compar fuel st pivot first last = some (st, first, last) := by
  cases fuel with
  | zero => rw [PAR_loop_ptrs, if_neg h]
  | succ fuel => rw [PAR_loop_ptrs, if_neg h]

theorem ParInv.crossed {compar : α → α → Int} {d : α} {pivot : α} {p e : Nat} {m : List α}
    {first last : Nat} (inv : ParInv compar d pivot p e m first last) (hpl : p ≤ last) :
    first ≤ last + 1 := by
  by_contra hc
  have h1 := inv.left (last + 1) (by omega) (by omega)
  have h2 := inv.right (last + 1) (by omega) (by have := inv.hfe; omega)
  exact h2 h1

theorem PAR_loop_ptrs_spec (compar : α → α → Int) (d : α) (pivot : α) (p e : Nat) :
    ∀ (fuel : Nat) (st : St α) (first last : Nat),
      ParInv compar d pivot p e st.mem first last → p ≤ last → last - first ≤ fuel →
      ∃ st2 f l, PAR_loop_ptrs compar fuel st pivot first last = some (st2, f, l) ∧
        l ≤ f ∧ f ≤ l + 1 := by
  intro fuel
  induction fuel with
  | zero =>
    intro st first last inv hpl hfuel
    rw [PAR_loop_ptrs_exit compar pivot 0 st first last (by omega)]
    exact ⟨st, first, last, rfl, by omega, inv.crossed hpl⟩
  | succ fuel ih =>
    intro st first last inv hpl hfuel
    by_cases hfl : first < last
    · rw [PAR_loop_ptrs, if_pos hfl]
      have hf : first < st.mem.length := by have := inv.hlen; have := inv.hle; omega
      have hl : last < st.mem.length := by have := inv.hlen; have := inv.hle; omega
      simp only [Option.bind_eq_bind]
      rw [SW_eq d hf hl, Option.some_bind]
      have hc_first : cell d (swapL d st.mem first last) first = cell d st.mem last := by
        rw [cell_swapL d hf hl, if_neg (by omega), if_pos rfl]
      have hc_last : cell d (swapL d st.mem first last) last = cell d st.mem first := by
        rw [cell_swapL d hf hl, if_pos rfl]
      have hc_other : ∀ i, i ≠ first → i ≠ last →
          cell d (swapL d st.mem first last) i = cell d st.mem i := by
        intro i h1 h2
        rw [cell_swapL d hf hl, if_neg h2, if_neg h1]
      obtain ⟨st2, f, h2, hmem2, hf1, hf2, hf3, hf4⟩ := PAR_first_spec compar d pivot
        ((St.mk (swapL d st.mem first last) st.calls).mem.length - first)
        ⟨swapL d st.mem first last, st.calls⟩ first last hfl
        (by simpa [length_swapL] using hl) (by simp [length_swapL]; omega)
        (by
          show ¬ compar (cell d (swapL d st.mem first last) last) pivot < 0
          rw [hc_last]; exact inv.atfirst)
      rw [h2, Option.some_bind]
      simp only [] at hmem2 hf3 hf4
      obtain ⟨st3, l, h3, hmem3, hl1, hl2, hl3, hl4⟩ := PAR_last_spec compar d pivot last st2
        first hfl (by rw [hmem2, length_swapL]; omega)
        (by rw [hmem2, hc_first]; exact inv.atlast hfl)
      rw [h3, Option.some_bind]
      rw [hmem2] at hmem3 hl3 hl4
      have e1 := inv.hle
      have e2 := inv.hp
      exact ih st3 f l
        { hp := by omega
          hfe := by omega
          hle := by omega
          hlen := by rw [hmem3, length_swapL]; exact inv.hlen
          atp := by rw [hmem3, hc_other p (by omega) (by omega)]; exact inv.atp
          left := by
            intro i hi1 hi2
            rw [hmem3]
            by_cases hi3 : i < first
            · rw [hc_other i (by omega) (by omega)]; exact inv.left i hi1 hi3
            · by_cases hi4 : i = first
              · rw [hi4, hc_first]; exact inv.atlast hfl
              · exact hf4 i (by omega) hi2
          right := by
            intro i hi1 hi2
            rw [hmem3]
            by_cases hi3 : last < i
            · rw [hc_other i (by omega) (by omega)]; exact inv.right i hi3 hi2
            · by_cases hi4 : i = last
              · rw [hi4, hc_last]; exact inv.atfirst
              · exact hl4 i hi1 (by omega)
          atfirst := by rw [hmem3]; exact hf3
          atlast := by intro _; rw [hmem3]; exact hl3 }
        (by omega) (by omega)
    · rw [PAR_loop_ptrs_exit compar pivot _ st first last hfl]
      exact ⟨st, first, last, rfl, by omega, inv.crossed hpl⟩

theorem ParInv.flag {compar : α → α → Int} {d : α} {pivot : α} {p e : Nat} {m : List α}
    {first last : Nat} (inv : ParInv compar d pivot p e m first last) :
    first ≥ last ↔ AlreadyPartitioned compar m pivot p e := by
  have hlen := inv.hlen
  constructor
  · intro hfl i j x y hi1 hi2 hj1 hj2 hx hy hxp hyp
    have cx := cell_of_getElem? d hx
    have cy := cell_of_getElem? d hy
    have hj : first ≤ j := by
      by_contra hc
      have := inv.left j hj1 (by omega)
      rw [cy] at this
      exact hyp this
    have hi : i ≤ last := by
      by_contra hc
      have := inv.right i (by omega) hi2
      rw [cx] at this
      exact this hxp
    have hne : i ≠ first := by
      intro hc
      have := inv.atfirst
      rw [← hc, cx] at this
      exact this hxp
    omega
  · intro hap
    by_contra hc
    have hfl : first < last := by omega
    have h1 := inv.atlast hfl
    have h2 := inv.atfirst
    have := hap last first _ _ (by have := inv.hp; omega) inv.hle inv.hp inv.hfe
      (getElem?_eq_cell d (by have := inv.hle; omega))
      (getElem?_eq_cell d (by have := inv.hfe; omega)) h1 h2
    omega

theorem PAR_tail_trace (compar : α → α → Int) (d : α) (m : List α) (st2 : St α)
    (base nmemb f1 l : Nat) (ap : Bool) (hmem2 : st2.mem = m)
    (inv : ParInv compar d (cell d m base) base (base + nmemb) m f1 l) (hbl : base ≤ l) :
    ∃ st3 f3 l3 st5,
      PAR_loop_ptrs compar (l - f1) st2 (cell d m base) f1 l = some (st3, f3, l3) ∧
      ((PAR_loop compar (l - f1) st2 (cell d m base) f1 l).bind fun a_1 =>
        (rd a_1.1 (a_1.2 - 1)).bind fun a_2 =>
          (wr a_1.1 base a_2).bind fun a_3 =>
            (wr a_3 (a_1.2 - 1) (cell d m base)).bind fun a_4 =>
              some (a_4, a_1.2 - 1, ap)) = some (st5, f3 - 1, ap) ∧
      st5.mem = (st3.mem.set base (cell d st3.mem (f3 - 1))).set (f3 - 1) (cell d m base) ∧
      st3.mem.length = m.length ∧ base < f3 ∧ f3 < base + nmemb ∧
      l3 ≤ f3 ∧ f3 ≤ l3 + 1 ∧ (l ≤ f1 → st3 = st2 ∧ f3 = f1 ∧ l3 = l) := by
  subst hmem2
  have hlen := inv.hlen
  obtain ⟨st3, f3, l3, h3, hb1, hb2⟩ := PAR_loop_ptrs_spec compar d
    (cell d st2.mem base) base (base + nmemb) (l - f1) st2 f1 l inv hbl (le_refl _)
  obtain ⟨st3b, f3b, h3b, hperm3, hp3, hfe3, _, _⟩ := PAR_loop_spec compar d
    (cell d st2.mem base) base (base + nmemb) (l - f1) st2 f1 l inv (le_refl _)
  have heq := PAR_loop_eq_ptrs compar (cell d st2.mem base) (l - f1) st2 f1 l
  rw [h3, h3b] at heq
  simp only [Option.map_some', Option.some.injEq, Prod.mk.injEq] at heq
  obtain ⟨hst, hf⟩ := heq
  subst hst
  subst hf
  rw [h3b, Option.some_bind]
  have hlen3 : st3b.mem.length = st2.mem.length := hperm3.length_eq
  have hpos : f3b - 1 < st3b.mem.length := by omega
  have hb3 : base < st3b.mem.length := by omega
  rw [rd_eq d hpos, Option.some_bind, wr_eq _ hb3, Option.some_bind,
    wr_eq _ (by simpa using hpos), Option.some_bind]
  refine ⟨st3b, f3b, l3, _, h3, rfl, rfl, hlen3, hp3, hfe3, hb1, hb2, ?_⟩
  intro hle
  have hx := PAR_loop_ptrs_exit compar (cell d st2.mem base) (l - f1) st2 f1 l (by omega)
  rw [h3] at hx
  simp only [Option.some.injEq, Prod.mk.injEq] at hx
  exact hx

theorem CPDQS_PAR_trace (compar : α → α → Int) (d : α) (st : St α) (base nmemb q : Nat)
    (hlen : base + nmemb ≤ st.mem.length) (hq1 : base < q) (hq2 : q < base + nmemb)
    (hstop : ¬ compar (cell d st.mem q) (cell d st.mem base) < 0) :
    ∃ f1 l st3 f3 l3 st5,
      ParInv compar d (cell d st.mem base) base (base + nmemb) st.mem f1 l ∧
      CPDQS_PAR_ptrs compar st base nmemb = some (st3, f3, l3) ∧
      CPDQS_PAR compar st base nmemb = some (st5, f3 - 1, decide (f1 ≥ l)) ∧
      st5.mem =
        (st3.mem.set base (cell d st3.mem (f3 - 1))).set (f3 - 1) (cell d st.mem base) ∧
      st3.mem.length = st.mem.length ∧ base < f3 ∧ f3 < base + nmemb ∧
      l3 ≤ f3 ∧ f3 ≤ l3 + 1 ∧ (l ≤ f1 → st3.mem = st.mem ∧ f3 = f1 ∧ l3 = l) := by
  have hb : base < st.mem.length := by omega
  obtain ⟨st1, f1, h1, hmem1, hf1, hf2, hf3, hf4⟩ := PAR_first_spec compar d
    (cell d st.mem base) (st.mem.length - base) st base q hq1 (by omega) (by omega) hstop
  have hscan : ∃ st2 l,
      (if f1 - 1 = base then PAR_last_guarded compar (base + nmemb) st1 (cell d st.mem base) f1
        else PAR_last compar (base + nmemb) st1 (cell d st.mem base)) = some (st2, l) ∧
      st2.mem = st.mem ∧ base ≤ l ∧
      ParInv compar d (cell d st.mem base) base (base + nmemb) st.mem f1 l := by
    by_cases hg : f1 - 1 = base
    · rw [if_pos hg]
      obtain ⟨st2, l, h2, hmem2, hl1, hl2, hl2b, hl3, hl4⟩ := PAR_last_guarded_spec compar d
        (cell d st.mem base) f1 (base + nmemb) st1 (by omega) (by rw [hmem1]; exact hlen)
      rw [hmem1] at hmem2 hl3 hl4
      exact ⟨st2, l, h2, hmem2, by omega,
        { hp := hf1
          hfe := by omega
          hle := by omega
          hlen := hlen
          atp := rfl
          left := hf4
          right := hl4
          atfirst := hf3
          atlast := hl3 }⟩
    · rw [if_neg hg]
      obtain ⟨st2, l, h2, hmem2, hl1, hl2, hl3, hl4⟩ := PAR_last_spec compar d
        (cell d st.mem base) (base + nmemb) st1 (f1 - 1) (by omega)
        (by rw [hmem1]; exact hlen)
        (by rw [hmem1]; exact hf4 (f1 - 1) (by omega) (by omega))
      rw [hmem1] at hmem2 hl3 hl4
      exact ⟨st2, l, h2, hmem2, by omega,
        { hp := hf1
          hfe := by omega
          hle := by omega
          hlen := hlen
          atp := rfl
          left := hf4
          right := hl4
          atfirst := hf3
          atlast := fun _ => hl3 }⟩
  obtain ⟨st2, l, h2, hmem2, hbl, inv⟩ := hscan
  obtain ⟨st3, f3, l3, st5, h3, h5, hm5, hl5, hp5, hfe5, hb1, hb2, hex⟩ :=
    PAR_tail_trace compar d st.mem st2 base nmemb f1 l (decide (f1 ≥ l)) hmem2 inv hbl
  refine ⟨f1, l, st3, f3, l3, st5, inv, ?_, ?_, hm5, hl5, hp5, hfe5, hb1, hb2, ?_⟩
  · unfold CPDQS_PAR_ptrs
    simp only [Option.bind_eq_bind]
    rw [rd_eq d hb, Option.some_bind, h1, Option.some_bind]
    simp only []
    by_cases hg : f1 - 1 = base
    · rw [if_pos hg] at h2 ⊢
      rw [h2, Option.some_bind]
      exact h3
    · rw [if_neg hg] at h2 ⊢
      rw [h2, Option.some_bind]
      exact h3
  · unfold CPDQS_PAR
    simp only [Option.bind_eq_bind]
    rw [rd_eq d hb, Option.some_bind, h1, Option.some_bind]
    simp only []
    by_cases hg : f1 - 1 = base
    · rw [if_pos hg] at h2 ⊢
      rw [h2, Option.some_bind]
      exact h5
    · rw [if_neg hg] at h2 ⊢
      rw [h2, Option.some_bind]
      exact h5
  · intro hle
    obtain ⟨e1, e2, e3⟩ := hex hle
    exact ⟨by rw [e1, hmem2], e2, e3⟩

end Cpdqsort


namespace Cpdqsort

variable {α : Type}

/-! ## The driver loop pass by pass -/

theorem PDQSRTL_passes_spec {compar : α → α → Int} (hswo : StrictWeakOrder compar) (d : α)
    (n : Nat) :
    ∀ (k : Nat) (st : St α) (stack : List Frame),
      StackOK compar d st.mem n stack →
      ∃ st2 stack2, PDQSRTL_passes compar k st stack = some (st2, stack2) ∧
        StackOK compar d st2.mem n stack2 ∧ PermOn 0 n st.mem st2.mem := by
  intro k
  induction k with
  | zero =>
    intro st stack hok
    exact ⟨st, stack, rfl, hok, PermOn.refl _⟩
  | succ k ih =>
    intro st stack hok
    cases stack with
    | nil => exact ⟨st, [], rfl, hok, PermOn.refl _⟩
    | cons f rest =>
      obtain ⟨st1, pushed, h1, hp1, hpost⟩ := PDQSRTL_step_spec hswo d st f hok.1
      have hen : f.end_ ≤ n := hok.2.1
      have hok1 := stackOK_step hok hp1 hpost
      obtain ⟨st2, stack2, h2, hok2, hp2⟩ := ih st1 (pushed ++ rest) hok1
      refine ⟨st2, stack2, ?_, hok2, (hp1.mono (Nat.zero_le _) hen).trans hp2⟩
      rw [PDQSRTL_passes]
      simp only [Option.bind_eq_bind, h1, Option.some_bind, h2]

theorem PDQSRTL_loop_passes (compar : α → α → Int) :
    ∀ (k fuel : Nat) (st : St α) (stack : List Frame),
      PDQSRTL_loop compar (k + fuel) st stack =
        (PDQSRTL_passes compar k st stack).bind fun r => PDQSRTL_loop compar fuel r.1 r.2 := by
  intro k
  induction k with
  | zero =>
    intro fuel st stack
    simp [PDQSRTL_passes]
  | succ k ih =>
    intro fuel st stack
    cases stack with
    | nil =>
      rw [PDQSRTL_passes]
      simp only [Option.some_bind]
      rw [PDQSRTL_loop, PDQSRTL_loop]
    | cons f rest =>
      rw [PDQSRTL_passes, show k + 1 + fuel = (k + fuel) + 1 by omega, PDQSRTL_loop]
      simp only [Option.bind_eq_bind, Option.bind_assoc]
      congr 1
      funext r
      exact ih fuel r.1 (r.2 ++ rest)

theorem stackOK_init (compar : α → α → Int) (d : α) (base : List α) (size : Nat) :
    StackOK compar d base base.length [PDQSRTL_init base.length size] :=
  ⟨⟨Nat.zero_le _, le_refl _, fun hlm => by simp [PDQSRTL_init] at hlm⟩, le_refl _, trivial⟩

end Cpdqsort


namespace Cpdqsort

variable {α : Type}

/-! ## Insertion sort inside a larger array -/

theorem rd_append (pre post : List α) {st : St α} (c : Nat) {i : Nat} {v : α}
    (h : rd st i = some v) : rd ⟨pre ++ st.mem ++ post, c⟩ (pre.length + i) = some v := by
  unfold rd at h ⊢
  have hi := lt_length_of_getElem? h
  show (pre ++ st.mem ++ post)[pre.length + i]? = some v
  rw [List.append_assoc, List.getElem?_append_right (by omega), Nat.add_sub_cancel_left,
    List.getElem?_append_left hi, h]

theorem wr_some {st st1 : St α} {i : Nat} {v : α} (h : wr st i v = some st1) :
    i < st.mem.length ∧ st1 = ⟨st.mem.set i v, st.calls⟩ := by
  unfold wr at h
  by_cases hi : i < st.mem.length
  · rw [if_pos hi] at h
    exact ⟨hi, (Option.some.inj h).symm⟩
  · rw [if_neg hi] at h
    cases h

theorem wr_append (pre post : List α) {st st1 : St α} {i : Nat} {v : α}
    (h : wr st i v = some st1) :
    wr ⟨pre ++ st.mem ++ post, st.calls⟩ (pre.length + i) v =
      some ⟨pre ++ st1.mem ++ post, st1.calls⟩ := by
  obtain ⟨hi, rfl⟩ := wr_some h
  rw [wr_eq _ (by simp; omega)]
  simp [List.set_append, hi]

theorem ISRT_shift_append (compar : α → α → Int) (pre post : List α) (begin : Nat) (tmp : α) :
    ∀ (fuel : Nat) (st : St α) (sift sift_1 : Nat) (r : St α × Nat),
      ISRT_shift compar fuel st begin tmp sift sift_1 = some r →
      ISRT_shift compar fuel ⟨pre ++ st.mem ++ post, st.calls⟩ (pre.length + begin) tmp
        sift sift_1 = some (⟨pre ++ r.1.mem ++ post, r.1.calls⟩, r.2) := by
  intro fuel
  induction fuel with
  | zero =>
    intro st sift sift_1 r h
    rw [ISRT_shift] at h
    cases h
  | succ fuel ih =>
    intro st sift sift_1 r h
    rw [ISRT_shift] at h ⊢
    simp only [Option.bind_eq_bind, Option.bind_eq_some] at h
    obtain ⟨v, hv, st1, hst1, hrest⟩ := h
    simp only [Option.bind_eq_bind]
    rw [Nat.add_assoc, rd_append pre post st.calls hv, Option.some_bind, Nat.add_assoc,
      wr_append pre post hst1, Option.some_bind]
    by_cases hs : sift - 1 ≠ 0
    · rw [if_pos hs] at hrest ⊢
      simp only [Option.bind_eq_some] at hrest
      obtain ⟨x, hx, hrest⟩ := hrest
      rw [Nat.add_assoc, rd_append pre post st1.calls hx, Option.some_bind]
      by_cases hlt : compar tmp x < 0
      · rw [if_pos hlt] at hrest ⊢
        exact ih (tick st1) _ _ r hrest
      · rw [if_neg hlt] at hrest ⊢
        cases hrest
        rfl
    · rw [if_neg hs] at hrest ⊢
      cases hrest
      rfl

theorem ISRT_body_append (compar : α → α → Int) (pre post : List α) (begin cur : Nat)
    (st st2 : St α) (h : ISRT_body compar st begin cur = some st2) :
    ISRT_body compar ⟨pre ++ st.mem ++ post, st.calls⟩ (pre.length + begin) cur =
      some ⟨pre ++ st2.mem ++ post, st2.calls⟩ := by
  unfold ISRT_body at h ⊢
  simp only [Option.bind_eq_bind, Option.bind_eq_some] at h
  obtain ⟨a, ha, b, hb, hrest⟩ := h
  simp only [Option.bind_eq_bind]
  rw [Nat.add_assoc, rd_append pre post st.calls ha, Option.some_bind, Nat.add_assoc,
    rd_append pre post st.calls hb, Option.some_bind]
  by_cases hlt : compar a b < 0
  · rw [if_pos hlt] at hrest ⊢
    simp only [Option.bind_eq_some] at hrest
    obtain ⟨r, hr, hw⟩ := hrest
    have := ISRT_shift_append compar pre post begin a (cur + 1) (tick st) cur (cur - 1) r hr
    rw [show tick (St.mk (pre ++ st.mem ++ post) st.calls) =
      ⟨pre ++ (tick st).mem ++ post, (tick st).calls⟩ from rfl, this, Option.some_bind]
    simp only []
    rw [Nat.add_assoc]
    exact wr_append pre post hw
  · rw [if_neg hlt] at hrest ⊢
    cases hrest
    rfl

theorem ISRT_for_append (compar : α → α → Int) (pre post : List α) (begin : Nat) :
    ∀ (k : Nat) (st st2 : St α) (cur : Nat),
      ISRT_for compar k st begin cur = some st2 →
      ISRT_for compar k ⟨pre ++ st.mem ++ post, st.calls⟩ (pre.length + begin) cur =
        some ⟨pre ++ st2.mem ++ post, st2.calls⟩ := by
  intro k
  induction k with
  | zero =>
    intro st st2 cur h
    rw [ISRT_for] at h ⊢
    cases h
    rfl
  | succ k ih =>
    intro st st2 cur h
    rw [ISRT_for] at h ⊢
    simp only [Option.bind_eq_bind, Option.bind_eq_some] at h
    obtain ⟨st1, h1, h2⟩ := h
    simp only [Option.bind_eq_bind]
    rw [ISRT_body_append compar pre post begin cur st st1 h1, Option.some_bind]
    exact ih st1 st2 (cur + 1) h2

theorem CPDQS_ISRT_append (compar : α → α → Int) (pre post : List α) (begin nmemb : Nat)
    (st st2 : St α) (h : CPDQS_ISRT compar st begin nmemb = some st2) :
    CPDQS_ISRT compar ⟨pre ++ st.mem ++ post, st.calls⟩ (pre.length + begin) nmemb =
      some ⟨pre ++ st2.mem ++ post, st2.calls⟩ := by
  unfold CPDQS_ISRT at h ⊢
  by_cases hn : nmemb > 1
  · rw [if_pos hn] at h ⊢
    exact ISRT_for_append compar pre post begin (nmemb - 1) st st2 1 h
  · rw [if_neg hn] at h ⊢
    cases h
    rfl

/-! ## The unguarded insertion sort follows the guarded one -/

theorem rd_congr {sta stb : St α} (h : stb.mem = sta.mem) (i : Nat) : rd stb i = rd sta i := by
  unfold rd
  rw [h]

theorem UISRT_shift_sim (compar : α → α → Int) (d : α) (begin : Nat) (tmp : α)
    (hb : 1 ≤ begin) :
    ∀ (fuel e : Nat) (sta stb : St α) (s : Nat) (ra : St α) (k : Nat),
      stb.mem = sta.mem → ¬ compar tmp (cell d sta.mem (begin - 1)) < 0 →
      ISRT_shift compar fuel sta begin tmp (s + 1) s = some (ra, k) →
      ∃ rb, UISRT_shift compar (fuel + e) stb tmp (begin + (s + 1)) (begin + s) =
          some (rb, begin + k) ∧ rb.mem = ra.mem := by
  intro fuel
  induction fuel with
  | zero =>
    intro e sta stb s ra k _ _ h
    rw [ISRT_shift] at h
    cases h
  | succ fuel ih =>
    intro e sta stb s ra k hmem hsent h
    rw [ISRT_shift] at h
    simp only [Option.bind_eq_bind, Option.bind_eq_some] at h
    obtain ⟨v, hv, st1, hst1, hrest⟩ := h
    obtain ⟨hi, rfl⟩ := wr_some hst1
    have hib : begin + (s + 1) < stb.mem.length := by rw [hmem]; exact hi
    have hcs : cell d (sta.mem.set (begin + (s + 1)) v) (begin - 1) =
        cell d sta.mem (begin - 1) := cell_set_ne d _ v (by omega)
    rw [show fuel + 1 + e = (fuel + e) + 1 by omega, UISRT_shift]
    simp only [Option.bind_eq_bind]
    rw [rd_congr hmem, hv, Option.some_bind, wr_eq _ hib, Option.some_bind,
      if_neg (show ¬ begin + s = 0 by omega)]
    simp only [Nat.add_sub_cancel] at hrest
    by_cases hs : s = 0
    · subst hs
      rw [if_neg (by simp)] at hrest
      simp only [Option.some.injEq, Prod.mk.injEq] at hrest
      obtain ⟨hra, hk⟩ := hrest
      subst hra
      subst hk
      have hrd : rd (St.mk (stb.mem.set (begin + (0 + 1)) v) stb.calls) (begin + 0 - 1) =
          some (cell d sta.mem (begin - 1)) := by
        rw [rd_eq d (by simp; omega)]
        show some (cell d (stb.mem.set (begin + (0 + 1)) v) (begin + 0 - 1)) = _
        rw [hmem]
        simp only [Nat.zero_add, Nat.add_zero] at hcs ⊢
        rw [hcs]
      rw [hrd, Option.some_bind, if_neg hsent]
      refine ⟨tick ⟨stb.mem.set (begin + (0 + 1)) v, stb.calls⟩, ?_, ?_⟩
      · simp
      · simp [tick, hmem]
    · obtain ⟨s2, rfl⟩ : ∃ s2, s = s2 + 1 := ⟨s - 1, by omega⟩
      rw [if_pos (by simp)] at hrest
      simp only [Nat.add_sub_cancel, Option.bind_eq_some] at hrest
      obtain ⟨x, hx, hrest⟩ := hrest
      have hrd : rd (St.mk (stb.mem.set (begin + (s2 + 1 + 1)) v) stb.calls)
          (begin + (s2 + 1) - 1) = some x := by
        rw [show begin + (s2 + 1) - 1 = begin + s2 by omega, ← hx]
        apply rd_congr
        show stb.mem.set _ v = sta.mem.set _ v
        rw [hmem]
      rw [hrd, Option.some_bind]
      by_cases hlt : compar tmp x < 0
      · rw [if_pos hlt] at hrest ⊢
        have := ih e (tick ⟨sta.mem.set (begin + (s2 + 1 + 1)) v, sta.calls⟩)
          (tick ⟨stb.mem.set (begin + (s2 + 1 + 1)) v, stb.calls⟩) s2 ra k
          (by simp [tick, hmem]) (by rw [tick_mem]; rw [hcs]; exact hsent) hrest
        rw [show begin + (s2 + 1 + 1) - 1 = begin + (s2 + 1) by omega,
          show begin + (s2 + 1) - 1 = begin + s2 by omega]
        exact this
      · rw [if_neg hlt] at hrest ⊢
        simp only [Option.some.injEq, Prod.mk.injEq] at hrest
        obtain ⟨hra, hk⟩ := hrest
        subst hra
        subst hk
        refine ⟨tick ⟨stb.mem.set (begin + (s2 + 1 + 1)) v, stb.calls⟩, ?_, ?_⟩
        · simp
        · simp [tick, hmem]

theorem UISRT_body_sim (compar : α → α → Int) (d : α) (begin cur : Nat) (hb : 1 ≤ begin)
    (hcur : 1 ≤ cur) (sta stb ra : St α) (hmem : stb.mem = sta.mem)
    (hsent : ¬ compar (cell d sta.mem (begin + cur)) (cell d sta.mem (begin - 1)) < 0)
    (h : ISRT_body compar sta begin cur = some ra) :
    ∃ rb, UISRT_body compar stb begin cur = some rb ∧ rb.mem = ra.mem := by
  obtain ⟨s, rfl⟩ : ∃ s, cur = s + 1 := ⟨cur - 1, by omega⟩
  unfold ISRT_body at h
  simp only [Option.bind_eq_bind, Option.bind_eq_some, Nat.add_sub_cancel] at h
  obtain ⟨a, ha, b, hb2, hrest⟩ := h
  have hca : cell d sta.mem (begin + (s + 1)) = a := cell_of_getElem? d ha
  rw [hca] at hsent
  unfold UISRT_body
  simp only [Option.bind_eq_bind, Nat.add_sub_cancel]
  rw [rd_congr hmem, ha, Option.some_bind, rd_congr hmem, hb2, Option.some_bind]
  by_cases hlt : compar a b < 0
  · rw [if_pos hlt] at hrest ⊢
    simp only [Option.bind_eq_some] at hrest
    obtain ⟨r, hr, hw⟩ := hrest
    obtain ⟨rb, hrb, hrbm⟩ := UISRT_shift_sim compar d begin a hb (s + 1 + 1) begin (tick sta)
      (tick stb) s r.1 r.2 (by simp [tick, hmem]) (by rw [tick_mem]; exact hsent) hr
    rw [show begin + (s + 1) + 1 = s + 1 + 1 + begin by omega, hrb, Option.some_bind]
    obtain ⟨hi, rfl⟩ := wr_some hw
    refine ⟨⟨rb.mem.set (begin + r.2) a, rb.calls⟩, ?_, ?_⟩
    · exact wr_eq _ (by rw [hrbm]; exact hi)
    · show rb.mem.set _ a = r.1.mem.set _ a
      rw [hrbm]
  · rw [if_neg hlt] at hrest ⊢
    cases hrest
    exact ⟨tick stb, rfl, by simp [tick, hmem]⟩

theorem UISRT_for_sim {compar : α → α → Int} (hswo : StrictWeakOrder compar) (d : α)
    (begin : Nat) (hb : 1 ≤ begin) :
    ∀ (k : Nat) (sta stb ra : St α) (cur : Nat), 1 ≤ cur → stb.mem = sta.mem →
      begin + cur + k ≤ sta.mem.length →
      (∀ i, begin ≤ i → i < begin + cur + k →
        ¬ compar (cell d sta.mem i) (cell d sta.mem (begin - 1)) < 0) →
      SortedOn compar d sta.mem begin (begin + cur) →
      ISRT_for compar k sta begin cur = some ra →
      ∃ rb, UISRT_for compar k stb begin cur = some rb ∧ rb.mem = ra.mem := by
  intro k
  induction k with
  | zero =>
    intro sta stb ra cur _ hmem _ _ _ h
    rw [ISRT_for] at h
    cases h
    exact ⟨stb, rfl, hmem⟩
  | succ k ih =>
    intro sta stb ra cur hcur hmem hlen hsent hs h
    rw [ISRT_for] at h
    simp only [Option.bind_eq_bind, Option.bind_eq_some] at h
    obtain ⟨st1, h1, h2⟩ := h
    obtain ⟨st1x, h1x, hperm1, hs1⟩ := ISRT_body_spec hswo d sta begin cur hcur (by omega) hs
    rw [h1] at h1x
    cases h1x
    obtain ⟨st1b, h1b, hm1b⟩ := UISRT_body_sim compar d begin cur hb hcur sta stb st1 hmem
      (hsent (begin + cur) (by omega) (by omega)) h1
    have hout : cell d st1.mem (begin - 1) = cell d sta.mem (begin - 1) :=
      hperm1.cell_outside d (Or.inl (by omega))
    obtain ⟨rb, hrb, hrbm⟩ := ih st1 st1b ra (cur + 1) (by omega) hm1b
      (by rw [hperm1.length_eq]; omega)
      (by
        intro i hi1 hi2
        rw [hout]
        exact (hperm1.mono (le_refl _) (show begin + cur + 1 ≤ begin + cur + (k + 1) by omega)
          ).forall_range d (fun y => ¬ compar y (cell d sta.mem (begin - 1)) < 0) hsent i hi1
          (by omega))
      hs1 h2
    refine ⟨rb, ?_, hrbm⟩
    rw [UISRT_for]
    simp only [Option.bind_eq_bind, h1b, Option.some_bind, hrb]

theorem CPDQS_UISRT_sim {compar : α → α → Int} (hswo : StrictWeakOrder compar) (d : α)
    (st : St α) (begin nmemb : Nat) (hlen : begin + nmemb ≤ st.mem.length) (hb : 1 ≤ begin)
    (hsent : ∀ i, begin ≤ i → i < begin + nmemb →
      ¬ compar (cell d st.mem i) (cell d st.mem (begin - 1)) < 0) :
    ∃ sa sb, CPDQS_ISRT compar st begin nmemb = some sa ∧
      CPDQS_UISRT compar st begin nmemb = some sb ∧ sb.mem = sa.mem ∧
      PermOn begin (begin + nmemb) st.mem sa.mem := by
  obtain ⟨sa, ha, hperm, _⟩ := CPDQS_ISRT_spec hswo d st begin nmemb hlen
  refine ⟨sa, ?_⟩
  unfold CPDQS_ISRT at ha
  unfold CPDQS_ISRT CPDQS_UISRT
  by_cases h : nmemb > 1
  · rw [if_pos h] at ha ⊢
    rw [if_pos h]
    obtain ⟨sb, hsb, hm⟩ := UISRT_for_sim hswo d begin hb (nmemb - 1) st st sa 1 (le_refl _) rfl
      (by omega)
      (by intro i hi1 hi2; exact hsent i hi1 (by omega))
      (sortedOn_short compar d _ _ _ (le_refl _)) ha
    exact ⟨sb, ha, hsb, hm, hperm⟩
  · rw [if_neg h] at ha ⊢
    rw [if_neg h]
    exact ⟨st, ha, rfl, by cases ha; rfl, hperm⟩

end Cpdqsort


namespace Cpdqsort

variable {α : Type}

/-! ## Partial insertion sort counts inversions -/

theorem inversions_append_singleton (compar : α → α → Int) (x : α) :
    ∀ (l : List α), inversions compar (l ++ [x]) =
      inversions compar l + l.countP (fun y => decide (compar x y < 0))
  | [] => by simp [inversions]
  | a :: t => by
    rw [List.cons_append, inversions, inversions, inversions_append_singleton compar x t,
      List.countP_append, List.countP_cons]
    by_cases h : compar x a < 0
    · simp [h, List.countP_cons, List.countP_nil]
      omega
    · simp [h, List.countP_cons, List.countP_nil]
      omega

theorem inversions_append_le (compar : α → α → Int) (l2 : List α) :
    ∀ (l1 : List α), inversions compar l1 ≤ inversions compar (l1 ++ l2)
  | [] => by simp [inversions]
  | a :: t => by
    rw [List.cons_append, inversions, inversions, List.countP_append]
    have := inversions_append_le compar l2 t
    omega

theorem inversions_take_le (compar : α → α → Int) (l : List α) (a b : Nat) (hab : a ≤ b) :
    inversions compar (l.take a) ≤ inversions compar (l.take b) := by
  have h : l.take b = l.take a ++ (l.take b).drop a := by
    have := List.take_append_drop a (l.take b)
    rw [List.take_take, Nat.min_eq_left hab] at this
    exact this.symm
  rw [h]
  exact inversions_append_le compar _ _

theorem countP_split (p : α → Bool) : ∀ (f : Nat) (l : List α), f ≤ l.length →
    (∀ i x, i < f → l[i]? = some x → p x = false) →
    (∀ i x, f ≤ i → l[i]? = some x → p x = true) → l.countP p = l.length - f
  | 0, l, _, _, h2 => by
    rw [Nat.sub_zero, List.countP_eq_length]
    intro a ha
    obtain ⟨i, hi⟩ := List.mem_iff_getElem?.1 ha
    exact h2 i a (Nat.zero_le _) hi
  | f + 1, [], hf, _, _ => by simp at hf
  | f + 1, a :: t, hf, h1, h2 => by
    have ha : p a = false := h1 0 a (by omega) (by simp)
    rw [List.countP_cons_of_neg _ _ (by simp [ha])]
    rw [countP_split p f t (by simpa using hf)
      (fun i x hi hx => h1 (i + 1) x (by omega) (by simpa using hx))
      (fun i x hi hx => h2 (i + 1) x (by omega) (by simpa using hx))]
    simp

theorem getElem?_slice (d : α) (m : List α) (b n i : Nat) (x : α)
    (h : ((m.drop b).take n)[i]? = some x) : i < n ∧ cell d m (b + i) = x := by
  rw [List.getElem?_take] at h
  by_cases hi : i < n
  · rw [if_pos hi, List.getElem?_drop] at h
    exact ⟨hi, cell_of_getElem? d h⟩
  · rw [if_neg hi] at h
    cases h

theorem length_slice (m : List α) (b n : Nat) (h : b + n ≤ m.length) :
    ((m.drop b).take n).length = n := by
  simp
  omega

theorem PermOn.slice {b e : Nat} {m m2 : List α} (h : PermOn b e m m2) :
    List.Perm ((m2.drop b).take (e - b)) ((m.drop b).take (e - b)) := by
  induction h with
  | refl m => exact List.Perm.refl _
  | step m m2 i j x y hi1 hi2 hj1 hj2 hx hy _ ih =>
    refine ih.trans ?_
    have e1 : (((m.set i y).set j x).drop b).take (e - b) =
        (((m.drop b).take (e - b)).set (i - b) y).set (j - b) x := by
      rw [List.drop_set, if_neg (by omega), List.drop_set, if_neg (by omega), List.set_take,
        List.set_take]
    rw [e1]
    apply set_set_perm_of_getElem?
    · rw [List.getElem?_take, if_pos (by omega), List.getElem?_drop,
        show b + (i - b) = i by omega]
      exact hx
    · rw [List.getElem?_take, if_pos (by omega), List.getElem?_drop,
        show b + (j - b) = j by omega]
      exact hy

theorem take_succ_slice (d : α) (m : List α) (b n : Nat) (h : b + n < m.length) :
    (m.drop b).take (n + 1) = (m.drop b).take n ++ [cell d m (b + n)] := by
  rw [List.take_succ, List.getElem?_drop, getElem?_eq_cell d h]
  rfl

theorem PISRT_body_count {compar : α → α → Int} (hswo : StrictWeakOrder compar) (d : α)
    (st : St α) (begin cur limit : Nat) (hcur : 1 ≤ cur) (hlen : begin + cur < st.mem.length)
    (hs : SortedOn compar d st.mem begin (begin + cur)) :
    ∃ st2, PISRT_body compar st begin cur limit = some (st2, limit +
      ((st.mem.drop begin).take cur).countP
        (fun y => decide (compar (cell d st.mem (begin + cur)) y < 0))) := by
  obtain ⟨s, rfl⟩ : ∃ s, cur = s + 1 := ⟨cur - 1, by omega⟩
  have h1 : begin + (s + 1) < st.mem.length := hlen
  have h2 : begin + s < st.mem.length := by omega
  have hsl : ((st.mem.drop begin).take (s + 1)).length = s + 1 :=
    length_slice st.mem begin (s + 1) (by omega)
  -- below position `f` of the sorted prefix nothing is greater than the lifted element
  have hbelow : ∀ f, f ≤ s + 1 →
      (f = 0 ∨ ¬ compar (cell d st.mem (begin + (s + 1))) (cell d st.mem (begin + f - 1)) < 0) →
      ∀ i x, i < f → ((st.mem.drop begin).take (s + 1))[i]? = some x →
        decide (compar (cell d st.mem (begin + (s + 1))) x < 0) = false := by
    intro f hf hle i x hi hx
    obtain ⟨_, hc⟩ := getElem?_slice d st.mem begin (s + 1) i x hx
    rw [← hc, decide_eq_false_iff_not]
    rcases hle with hle | hle
    · omega
    · by_cases hif : i = f - 1
      · rw [hif, show begin + (f - 1) = begin + f - 1 by omega]
        exact hle
      · intro hcon
        have hso := hs (begin + i) (begin + f - 1) (by omega) (by omega) (by omega)
        exact hle (hswo.lt_of_lt_of_not_lt hcon hso)
  unfold PISRT_body
  simp only [Option.bind_eq_bind, Nat.add_sub_cancel]
  rw [rd_eq d h1, Option.some_bind, rd_eq d h2, Option.some_bind]
  by_cases hlt : compar (cell d st.mem (begin + (s + 1))) (cell d st.mem (begin + s)) < 0
  · rw [if_pos hlt]
    obtain ⟨st2, f, hst2, hf, hlen2, _, hgt, hle, _⟩ := ISRT_shift_spec compar d begin
      (cell d st.mem (begin + (s + 1))) (s + 1 + 1) (tick st) s (by simpa using hlen) (by omega)
    simp only [tick_mem] at hlen2 hgt hle
    rw [hst2, Option.some_bind]
    have h3 : begin + f < st2.mem.length := by omega
    rw [wr_eq _ h3, Option.some_bind]
    have hcount : ((st.mem.drop begin).take (s + 1)).countP
        (fun y => decide (compar (cell d st.mem (begin + (s + 1))) y < 0)) = s + 1 - f := by
      rw [countP_split _ f _ (by omega) (hbelow f (by omega) hle), hsl]
      intro i x hi hx
      obtain ⟨hi2, hc⟩ := getElem?_slice d st.mem begin (s + 1) i x hx
      rw [← hc, decide_eq_true_iff]
      by_cases hi3 : i = s
      · rw [hi3]; exact hlt
      · exact hgt i hi (by omega)
    rw [hcount]
    exact ⟨_, rfl⟩
  · rw [if_neg hlt]
    have hcount : ((st.mem.drop begin).take (s + 1)).countP
        (fun y => decide (compar (cell d st.mem (begin + (s + 1))) y < 0)) = 0 := by
      rw [countP_split _ (s + 1) _ (by omega)
        (hbelow (s + 1) (le_refl _) (Or.inr (by simpa using hlt))), hsl]
      · omega
      · intro i x hi hx
        obtain ⟨hi2, _⟩ := getElem?_slice d st.mem begin (s + 1) i x hx
        omega
    rw [hcount]
    exact ⟨_, rfl⟩

theorem inversions_take_one (compar : α → α → Int) (l : List α) :
    inversions compar (l.take 1) = 0 := by
  cases l with
  | nil => rfl
  | cons a t => simp [inversions]

theorem PISRT_for_inversions {compar : α → α → Int} (hswo : StrictWeakOrder compar) (d : α)
    (begin : Nat) (m0 : List α) :
    ∀ (k : Nat) (st : St α) (cur : Nat), 1 ≤ cur → begin + cur + k ≤ st.mem.length →
      PermOn begin (begin + cur) m0 st.mem →
      SortedOn compar d st.mem begin (begin + cur) →
      ∃ st2 limit2 j,
        PISRT_for compar k st begin cur (inversions compar ((m0.drop begin).take cur)) =
          some (st2, limit2) ∧
        cur ≤ j ∧ j ≤ cur + k ∧ limit2 = inversions compar ((m0.drop begin).take j) ∧
        (limit2 ≤ CPDQS_PISRT_LIMIT → j = cur + k) := by
  intro k
  induction k with
  | zero =>
    intro st cur _ _ _ _
    exact ⟨st, _, cur, rfl, le_refl _, le_refl _, rfl, fun _ => rfl⟩
  | succ k ih =>
    intro st cur hcur hlen hperm hs
    have hl0 : st.mem.length = m0.length := hperm.length_eq
    obtain ⟨st1, h1⟩ := PISRT_body_count hswo d st begin cur
      (inversions compar ((m0.drop begin).take cur)) hcur (by omega) hs
    obtain ⟨st1x, l1x, h1x, hperm1, hs1⟩ := PISRT_body_spec hswo d st begin cur
      (inversions compar ((m0.drop begin).take cur)) hcur (by omega) hs
    rw [h1] at h1x
    simp only [Option.some.injEq, Prod.mk.injEq] at h1x
    obtain ⟨hst, _⟩ := h1x
    subst hst
    have hsl := hperm.slice
    rw [Nat.add_sub_cancel_left] at hsl
    have htmp : cell d st.mem (begin + cur) = cell d m0 (begin + cur) :=
      hperm.cell_outside d (Or.inr (le_refl _))
    have hlim : inversions compar ((m0.drop begin).take cur) +
        ((st.mem.drop begin).take cur).countP
          (fun y => decide (compar (cell d st.mem (begin + cur)) y < 0)) =
        inversions compar ((m0.drop begin).take (cur + 1)) := by
      rw [take_succ_slice d m0 begin cur (by omega), inversions_append_singleton, htmp,
        hsl.countP_eq]
    rw [hlim] at h1
    rw [PISRT_for]
    simp only [Option.bind_eq_bind, h1, Option.some_bind]
    by_cases hl : inversions compar ((m0.drop begin).take (cur + 1)) > CPDQS_PISRT_LIMIT
    · rw [if_pos hl]
      refine ⟨st1, _, cur + 1, rfl, by omega, by omega, rfl, ?_⟩
      intro h
      omega
    · rw [if_neg hl]
      obtain ⟨st2, l2, j, h2, hj1, hj2, hl2, hfin⟩ := ih st1 (cur + 1) (by omega)
        (by rw [hperm1.length_eq]; omega)
        ((hperm.mono (le_refl _) (by omega)).trans hperm1) hs1
      refine ⟨st2, l2, j, h2, by omega, by omega, hl2, ?_⟩
      intro h
      have := hfin h
      omega

theorem CPDQS_PISRT_inversions {compar : α → α → Int} (hswo : StrictWeakOrder compar) (d : α)
    (st : St α) (begin nmemb : Nat) (hn : 1 < nmemb) (hlen : begin + nmemb ≤ st.mem.length) :
    ∃ st2 limit j,
      PISRT_for compar (nmemb - 1) st begin 1 0 = some (st2, limit) ∧
      j ≤ nmemb ∧ limit = inversions compar ((st.mem.drop begin).take j) ∧
      (limit ≤ CPDQS_PISRT_LIMIT → j = nmemb) ∧
      CPDQS_PISRT compar st begin nmemb = some (st2,
        decide (inversions compar ((st.mem.drop begin).take nmemb) ≤ CPDQS_PISRT_LIMIT)) := by
  obtain ⟨st2, limit, j, h, hj1, hj2, hl, hfin⟩ := PISRT_for_inversions hswo d begin st.mem
    (nmemb - 1) st 1 (le_refl _) (by omega) (PermOn.refl _)
    (sortedOn_short compar d _ _ _ (le_refl _))
  rw [inversions_take_one] at h
  refine ⟨st2, limit, j, h, by omega, hl, fun hle => by have := hfin hle; omega, ?_⟩
  unfold CPDQS_PISRT
  rw [if_pos hn]
  simp only [Option.bind_eq_bind, h, Option.some_bind]
  congr 2
  rw [decide_eq_decide]
  constructor
  · intro hle
    have := hfin hle
    rw [hl, show j = nmemb by omega] at hle
    exact hle
  · intro hle
    rw [hl]
    exact le_trans (inversions_take_le compar _ j nmemb (by omega)) hle

/-! ## From cells to lists -/

theorem cell_append_mid (d : α) (pre m post : List α) (j : Nat) (hj : j < m.length) :
    cell d (pre ++ m ++ post) (pre.length + j) = cell d m j := by
  unfold cell
  rw [List.append_assoc, List.getElem?_append_right (by omega), Nat.add_sub_cancel_left,
    List.getElem?_append_left hj]

theorem sorted_slice {compar : α → α → Int} (d : α) {m : List α} {b n : Nat}
    (h : SortedOn compar d m b (b + n)) : Sorted compar ((m.drop b).take n) := by
  intro i x y hx hy
  obtain ⟨_, cx⟩ := getElem?_slice d m b n i x hx
  obtain ⟨hi, cy⟩ := getElem?_slice d m b n (i + 1) y hy
  rw [← cx, ← cy]
  exact h (b + i) (b + (i + 1)) (by omega) (by omega) (by omega)

theorem stackOK_frames {compar : α → α → Int} {d : α} {m : List α} :
    ∀ {stack : List Frame} {hi : Nat}, StackOK compar d m hi stack →
      ∀ f ∈ stack, FrameOK compar d m f
  | [], _, _, f, hf => by simp at hf
  | g :: rest, _, h, f, hf => by
    rcases List.mem_cons.1 hf with hf | hf
    · rw [hf]; exact h.1
    · exact stackOK_frames h.2.2 f hf

theorem PDQSRTL_passes_nil (compar : α → α → Int) (k : Nat) (st : St α) :
    PDQSRTL_passes compar k st [] = some (st, []) := by
  cases k <;> rfl

/-! ## What a pass pushes, and in which order -/

theorem PDQSRTL_balanced_pushed (compar : α → α → Int) (st st2 : St α)
    (begin end_ pivot_pos bad_allowed : Nat) (is_leftmost ap : Bool) (pushed : List Frame)
    (h : PDQSRTL_balanced compar st begin end_ pivot_pos bad_allowed is_leftmost ap =
      some (st2, pushed)) :
    pushed = [] ∨ pushed = PDQSRTL_push begin end_ pivot_pos bad_allowed is_leftmost := by
  unfold PDQSRTL_balanced at h
  cases ap with
  | false =>
    simp only [Bool.false_eq_true, if_false, Option.some.injEq, Prod.mk.injEq] at h
    exact Or.inr h.2.symm
  | true =>
    simp only [if_true, Option.bind_eq_bind, Option.bind_eq_some] at h
    obtain ⟨⟨st1, ok1⟩, _, h⟩ := h
    cases ok1 with
    | false =>
      simp only [Bool.false_eq_true, if_false, Option.some.injEq, Prod.mk.injEq] at h
      exact Or.inr h.2.symm
    | true =>
      simp only [if_true, Option.bind_eq_some] at h
      obtain ⟨⟨st3, ok2⟩, _, h⟩ := h
      cases ok2 with
      | false =>
        simp only [Bool.false_eq_true, if_false, Option.some.injEq, Prod.mk.injEq] at h
        exact Or.inr h.2.symm
      | true =>
        simp only [if_true, Option.some.injEq, Prod.mk.injEq] at h
        exact Or.inl h.2.symm

theorem PDQSRTL_step_pushed (compar : α → α → Int) (st st2 : St α) (f : Frame)
    (pushed : List Frame) (h : PDQSRTL_step compar st f = some (st2, pushed)) :
    pushed = [] ∨ ∃ st1 stx st3 pos ap bad,
      PDQSRTL_pivot compar st f.begin f.end_ (f.end_ - f.begin) = some st1 ∧
      PDQSRTL_shortcut_test compar st1 f.begin f.is_leftmost = some (false, stx) ∧
      CPDQS_PAR compar stx f.begin (f.end_ - f.begin) = some (st3, pos, ap) ∧
      pushed = [⟨pos + 1, f.end_, bad, false⟩, ⟨f.begin, pos, bad, f.is_leftmost⟩] := by
  unfold PDQSRTL_step at h
  simp only [] at h
  by_cases ht : f.end_ - f.begin < CPDQS_ISRT_THRESHOLD
  · rw [if_pos ht] at h
    cases hl : f.is_leftmost <;> rw [hl] at h <;>
      simp only [Bool.false_eq_true, if_false, if_true, Option.bind_eq_bind,
        Option.bind_eq_some, Option.some.injEq, Prod.mk.injEq] at h <;>
      (obtain ⟨_, _, _, h⟩ := h; exact Or.inl h.symm)
  · rw [if_neg ht] at h
    simp only [Option.bind_eq_bind, Option.bind_eq_some] at h
    obtain ⟨st1, h1, ⟨sc, stx⟩, h2, h⟩ := h
    cases sc with
    | true =>
      simp only [if_true, Option.bind_eq_some, Option.some.injEq, Prod.mk.injEq] at h
      obtain ⟨_, _, _, h⟩ := h
      exact Or.inl h.symm
    | false =>
      simp only [Bool.false_eq_true, if_false, Option.bind_eq_some] at h
      obtain ⟨⟨st3, pos, ap⟩, h3, h⟩ := h
      simp only [] at h
      split at h
      · rcases PDQSRTL_unbalanced_bad compar _ _ _ _ _ _ _ _ h with hp | hp
        · exact Or.inl hp
        · exact Or.inr ⟨st1, stx, st3, pos, ap, _, h1, h2, h3, hp⟩
      · rcases PDQSRTL_balanced_pushed compar _ _ _ _ _ _ _ _ _ h with hp | hp
        · exact Or.inl hp
        · exact Or.inr ⟨st1, stx, st3, pos, ap, _, h1, h2, h3, hp⟩

/-! ## Partition-left returns its `last` -/

theorem CPDQS_PAL_returns_last (compar : α → α → Int) (st st2 : St α) (base nmemb pos : Nat)
    (h : CPDQS_PAL compar st base nmemb = some (st2, pos)) :
    ∃ st3, CPDQS_PAL_ptrs compar st base nmemb = some (st3, pos) := by
  unfold CPDQS_PAL at h
  simp only [Option.bind_eq_bind, Option.bind_eq_some] at h
  obtain ⟨pivot, hp, ⟨st1, l1⟩, h1, h⟩ := h
  unfold CPDQS_PAL_ptrs
  simp only [Option.bind_eq_bind]
  rw [hp, Option.some_bind, h1, Option.some_bind]
  simp only [] at h ⊢
  split at h
  · rename_i hg
    rw [if_pos hg]
    simp only [Option.bind_eq_some] at h
    obtain ⟨⟨stf, f1⟩, h2, ⟨st3, l3⟩, h3, x, _, st4, _, st5, _, h5⟩ := h
    simp only [Option.some.injEq, Prod.mk.injEq] at h5
    rw [h2, Option.some_bind]
    refine ⟨st3, ?_⟩
    rw [← h5.2]
    exact h3
  · rename_i hg
    rw [if_neg hg]
    simp only [Option.bind_eq_some] at h
    obtain ⟨⟨stf, f1⟩, h2, ⟨st3, l3⟩, h3, x, _, st4, _, st5, _, h5⟩ := h
    simp only [Option.some.injEq, Prod.mk.injEq] at h5
    rw [h2, Option.some_bind]
    refine ⟨st3, ?_⟩
    rw [← h5.2]
    exact h3

end Cpdqsort


namespace Cpdqsort

variable {α : Type}

/-! ## Theorems -/

set_option maxRecDepth 1000000 in
/-- C1 (sortedness), evaluated where it fails: on the 26 four-byte integers
`1, ..., 1, 3, 2` the call returns with the array unchanged, which is not sorted: the
last two elements are still in descending order. -/
theorem pdqsort_dup_input_unsorted :
    ∃ st, pdqsort int_compar dup_input dup_input.length 4 = some st ∧
      st.mem = List.replicate 24 1 ++ [3, 2] ∧ ¬ Sorted int_compar st.mem := by
  refine ⟨⟨dup_input, 59⟩, by decide, by decide, ?_⟩
  rw [← sortedB_iff]
  decide

/-- C2: for every array, every element size and every comparator inducing a strict weak
ordering, `pdqsort` returns and the multiset of the elements after the call equals the
multiset before it. -/
theorem pdqsort_perm (compar : α → α → Int) (hswo : StrictWeakOrder compar)
    (base : List α) (size : Nat) :
    ∃ st, pdqsort compar base base.length size = some st ∧
      Multiset.ofList st.mem = Multiset.ofList base := by
  cases base with
  | nil => exact ⟨⟨[], 0⟩, rfl, rfl⟩
  | cons d t =>
    obtain ⟨st, hst, hperm, _⟩ := pdqsort_spec hswo d (d :: t) size
    exact ⟨st, hst, Multiset.coe_eq_coe.2 hperm.perm⟩

/-- Witness for `pdqsort_perm`: the array of scenario E2 with four-byte elements. -/
theorem pdqsort_perm_witness :
    StrictWeakOrder int_compar ∧
      ∃ st, pdqsort int_compar [3, 1, 4, 1, 5, 9, 2, 6, 5, 3]
          [3, 1, 4, 1, 5, 9, 2, 6, 5, 3].length 4 = some st ∧
        Multiset.ofList st.mem = Multiset.ofList [3, 1, 4, 1, 5, 9, 2, 6, 5, 3] :=
  ⟨int_compar_swo, pdqsort_perm int_compar int_compar_swo [3, 1, 4, 1, 5, 9, 2, 6, 5, 3] 4⟩

set_option maxRecDepth 1000000 in
/-- C3 (idempotence), evaluated where it fails: the array of fourteen ones followed by
`2, ..., 12` is sorted, and the call returns it with 12 and 7 exchanged, no longer
sorted. -/
theorem pdqsort_sorted_dup_input_changed :
    Sorted int_compar sorted_dup_input ∧
      sorted_dup_input = List.replicate 14 1 ++ [2, 3, 4, 5, 6, 7, 8, 9, 10, 11, 12] ∧
      ∃ st, pdqsort int_compar sorted_dup_input sorted_dup_input.length 4 = some st ∧
        st.mem = List.replicate 14 1 ++ [2, 3, 4, 5, 6, 12, 8, 9, 10, 11, 7] ∧
        st.mem ≠ sorted_dup_input ∧ ¬ Sorted int_compar st.mem := by
  refine ⟨?_, by decide,
    ⟨List.replicate 14 1 ++ [2, 3, 4, 5, 6, 12, 8, 9, 10, 11, 7], 57⟩, by decide, rfl,
    by decide, ?_⟩
  · rw [← sortedB_iff]
    decide
  · rw [← sortedB_iff]
    decide

/-- C4: for every strictly decreasing array (each element less than the one before it
under the comparator), of any length and element size, `pdqsort` returns the array in
increasing order, that is, reversed. -/
theorem pdqsort_reverse (compar : α → α → Int) (hswo : StrictWeakOrder compar)
    (base : List α) (size : Nat) (hdec : StrictlyDecreasing compar base) :
    ∃ st, pdqsort compar base base.length size = some st ∧ st.mem = base.reverse := by
  cases base with
  | nil => exact ⟨⟨[], 0⟩, rfl, rfl⟩
  | cons d t =>
    obtain ⟨st, hst, hperm, hsorted⟩ := pdqsort_spec hswo d (d :: t) size
    have hd : Distinct compar d (d :: t) (d :: t).length := by
      intro i j hi hj hij
      rcases Nat.lt_or_gt_of_ne hij with h | h
      · exact Or.inr (hdec.pairwise hswo d i j h hj)
      · exact Or.inl (hdec.pairwise hswo d j i h hi)
    exact ⟨st, hst, sorted_distinct_eq_reverse hswo d hdec hperm (hsorted hd)⟩

/-- Witness for `pdqsort_reverse`: scenario E4, the array `[99, 98, ..., 0]`. -/
theorem pdqsort_reverse_witness :
    StrictWeakOrder int_compar ∧
      StrictlyDecreasing int_compar ((List.range 100).reverse.map Int.ofNat) ∧
      ∃ st, pdqsort int_compar ((List.range 100).reverse.map Int.ofNat)
          ((List.range 100).reverse.map Int.ofNat).length 4 = some st ∧
        st.mem = ((List.range 100).reverse.map Int.ofNat).reverse :=
  ⟨int_compar_swo, strictlyDecreasing_range 100,
    pdqsort_reverse int_compar int_compar_swo _ 4 (strictlyDecreasing_range 100)⟩

/-- C5: for every array and every comparator inducing a strict weak ordering, `heapsort`
(heapify for `cur` from `n / 2 - 1` down to 0, then extract for `cur` from `n - 1` down to
1) returns, and leaves the array in non-decreasing order and a permutation of its
input. -/
theorem heapsort_sorts (compar : α → α → Int) (hswo : StrictWeakOrder compar)
    (base : List α) (size : Nat) :
    ∃ st, heapsort compar base base.length size = some st ∧
      Sorted compar st.mem ∧ List.Perm st.mem base := by
  cases base with
  | nil => exact ⟨⟨[], 0⟩, rfl, sorted_nil compar, List.Perm.refl _⟩
  | cons d t =>
    obtain ⟨st, hst, hperm, hsorted⟩ :=
      CPDQS_HSRTM_spec hswo d ⟨d :: t, 0⟩ 0 (d :: t).length (by simp)
    refine ⟨st, hst, ?_, hperm.perm⟩
    apply sorted_of_sortedOn d
    have hl := hperm.length_eq
    simp only [Nat.zero_add] at hsorted
    rw [hl]
    exact hsorted

/-- Witness for `heapsort_sorts`: the ascending integer comparator on `[3, 1, 2]`. -/
theorem heapsort_sorts_witness :
    StrictWeakOrder int_compar ∧
      ∃ st, heapsort int_compar [3, 1, 2] [3, 1, 2].length 4 = some st ∧
        Sorted int_compar st.mem ∧ List.Perm st.mem [3, 1, 2] :=
  ⟨int_compar_swo, heapsort_sorts int_compar int_compar_swo [3, 1, 2] 4⟩

set_option maxRecDepth 10000000 in
/-- C6 as stated fails: on `[0, 1, ..., 99]` the comparator is called more than
`2 * 99` times. -/
theorem E3_calls_exceed_bound :
    ¬ ∃ st, pdqsort int_compar E3_input 100 4 = some st ∧ st.calls ≤ 2 * 99 := by
  have h : pdqsort int_compar E3_input 100 4 = some ⟨E3_input, 201⟩ := by decide
  rintro ⟨st, hst, hle⟩
  rw [h] at hst
  cases hst
  simp at hle

set_option maxRecDepth 10000000 in
/-- C6, amended: on `[0, 1, ..., 99]` with four-byte elements the array is returned
unchanged after exactly 201 comparator calls. -/
theorem E3_calls : pdqsort int_compar E3_input 100 4 = some ⟨E3_input, 201⟩ := by
  decide

/-- C7: with `nmemb < 2` the call returns the array as it was, without any comparator
call. -/
theorem pdqsort_degenerate (compar : α → α → Int) (base : List α) (nmemb size : Nat)
    (h : nmemb < 2) : pdqsort compar base nmemb size = some ⟨base, 0⟩ := by
  have h1 : ¬ nmemb > 1 := by omega
  simp [pdqsort, CPDQS_PDQSRTM, h1]

/-- Witness for `pdqsort_degenerate`: a one-element array. -/
theorem pdqsort_degenerate_witness :
    (1 : Nat) < 2 ∧ pdqsort int_compar [5] 1 4 = some ⟨[5], 0⟩ :=
  ⟨by decide, pdqsort_degenerate int_compar [5] 1 4 (by decide)⟩

set_option maxRecDepth 1000000 in
/-- C8, evaluated where it fails, on the run of `pdqsort` on `1, ..., 1, 3, 2`: the first
pass pushes `[0, 0)` and, on top, the non-leftmost entry `[1, 26)`; the pass on that entry
takes the equal-to-predecessor shortcut, partition-left returns position 23, and nothing
is pushed; the loop then pops `[0, 0)` and ends with `[24, 26) = [3, 2]` never visited. -/
theorem shortcut_drops_remainder :
    PDQSRTL_step int_compar ⟨dup_input, 0⟩ (PDQSRTL_init 26 4) =
        some (⟨dup_after_first_pass, 29⟩, [⟨1, 26, 1, false⟩, ⟨0, 0, 1, true⟩]) ∧
      PDQSRTL_shortcut_test int_compar ⟨dup_after_first_pass, 32⟩ 1 false =
        some (true, ⟨dup_after_first_pass, 33⟩) ∧
      CPDQS_PAL int_compar ⟨dup_after_first_pass, 33⟩ 1 25 = some (⟨dup_input, 59⟩, 23) ∧
      PDQSRTL_step int_compar ⟨dup_after_first_pass, 29⟩ ⟨1, 26, 1, false⟩ =
        some (⟨dup_input, 59⟩, []) ∧
      PDQSRTL_loop int_compar 51 ⟨dup_after_first_pass, 29⟩
          [⟨1, 26, 1, false⟩, ⟨0, 0, 1, true⟩] = some ⟨dup_input, 59⟩ ∧
      dup_input.drop 24 = [3, 2] := by
  decide

/-- C9, evaluated where it fails: the entry pushed before the loop carries
`floor (log2 size)`, the logarithm of the element size; for 100 elements of 4 bytes that
is `bad_allowed = 2`, not `6 = floor (log2 100)`, and the value does not depend on the
element count. -/
theorem PDQSRTL_init_budget_from_size :
    (∀ (compar : Int → Int → Int) (st : St Int) (nmemb size : Nat),
        CPDQS_PDQSRTL compar size st nmemb =
          PDQSRTL_loop compar (2 * nmemb + 1) st [⟨0, nmemb, Nat.log2 size, true⟩]) ∧
      PDQSRTL_init 100 4 = ⟨0, 100, 2, true⟩ ∧ Nat.log2 100 = 6 ∧
      (PDQSRTL_init 1000000 4).bad_allowed = 2 := by
  refine ⟨?_, by decide, by simp [Nat.log2], by decide⟩
  intro compar st nmemb size
  unfold CPDQS_PDQSRTL PDQSRTL_init
  rw [CPDQS_LOG2_eq]

set_option maxRecDepth 1000000 in
/-- C10, evaluated where it fails: with one-byte elements the initial entry has
`bad_allowed = 0`; the first highly unbalanced partition decrements it to `2^32 - 1`, and
both entries pushed carry that larger value. -/
theorem bad_allowed_wraps :
    (PDQSRTL_init 26 1).bad_allowed = 0 ∧
      PDQSRTL_step int_compar ⟨dup_input, 0⟩ (PDQSRTL_init 26 1) =
        some (⟨dup_after_first_pass, 29⟩,
          [⟨1, 26, 4294967295, false⟩, ⟨0, 0, 4294967295, true⟩]) := by
  decide

end Cpdqsort


namespace Cpdqsort

variable {α : Type}

/-- C11: for a range `[base, base + nmemb)` inside the array whose front element is the
pivot and that holds, after the front, an element not less than the pivot, `CPDQS_PAR`
returns a position `pos` in the range such that every element of the range before `pos`
is less than the pivot, the element at `pos` is the pivot, and no element of the range
after `pos` is less than the pivot. -/
theorem CPDQS_PAR_postconditions (compar : α → α → Int) (st : St α) (base nmemb q : Nat)
    (pivot y : α) (hlen : base + nmemb ≤ st.mem.length) (hp : st.mem[base]? = some pivot)
    (hq1 : base < q) (hq2 : q < base + nmemb) (hy : st.mem[q]? = some y)
    (hstop : ¬ compar y pivot < 0) :
    ∃ st2 pos ap, CPDQS_PAR compar st base nmemb = some (st2, pos, ap) ∧
      base ≤ pos ∧ pos < base + nmemb ∧
      (∀ i x, base ≤ i → i < pos → st2.mem[i]? = some x → compar x pivot < 0) ∧
      st2.mem[pos]? = some pivot ∧
      (∀ i x, pos < i → i < base + nmemb → st2.mem[i]? = some x → ¬ compar x pivot < 0) := by
  have cp := cell_of_getElem? pivot hp
  have cy := cell_of_getElem? pivot hy
  obtain ⟨st2, pos, ap, h, h1, h2, hperm, hpos, hleft, hright⟩ :=
    CPDQS_PAR_spec compar pivot st base nmemb q hlen hq1 hq2 (by rw [cy, cp]; exact hstop)
  rw [cp] at hpos hleft hright
  have hl2 : st2.mem.length = st.mem.length := hperm.length_eq
  refine ⟨st2, pos, ap, h, h1, h2, ?_, ?_, ?_⟩
  · intro i x hi1 hi2 hx
    have := hleft i hi1 hi2
    rwa [cell_of_getElem? pivot hx] at this
  · rw [getElem?_eq_cell pivot (by omega), hpos]
  · intro i x hi1 hi2 hx
    have := hright i hi1 hi2
    rwa [cell_of_getElem? pivot hx] at this

set_option maxRecDepth 1000000 in
/-- Witness for `CPDQS_PAR_postconditions`: the 24 elements of `PAR_input`, pivot 12, with
the element 13 at position 13 stopping the first scan. -/
theorem CPDQS_PAR_postconditions_witness :
    ∃ st2 pos ap, CPDQS_PAR int_compar ⟨PAR_input, 0⟩ 0 24 = some (st2, pos, ap) ∧
      0 ≤ pos ∧ pos < 0 + 24 ∧
      (∀ i x, 0 ≤ i → i < pos → st2.mem[i]? = some x → int_compar x 12 < 0) ∧
      st2.mem[pos]? = some 12 ∧
      (∀ i x, pos < i → i < 0 + 24 → st2.mem[i]? = some x → ¬ int_compar x 12 < 0) :=
  CPDQS_PAR_postconditions int_compar ⟨PAR_input, 0⟩ 0 24 13 12 13 (by decide) (by decide)
    (by decide) (by decide) (by decide) (by decide)

/-- C12: under the precondition of C11, the flag `already_partitioned` that `CPDQS_PAR`
reports is true exactly when, in the input, every element of `(base, base + nmemb)` that is
less than the pivot stands before every element that is not; and when the flag is true
the array is changed by the final placement of the pivot only (no swap was made). -/
theorem CPDQS_PAR_already_partitioned (compar : α → α → Int) (st : St α)
    (base nmemb q : Nat) (pivot y : α) (hlen : base + nmemb ≤ st.mem.length)
    (hp : st.mem[base]? = some pivot) (hq1 : base < q) (hq2 : q < base + nmemb)
    (hy : st.mem[q]? = some y) (hstop : ¬ compar y pivot < 0) :
    ∃ st2 pos ap, CPDQS_PAR compar st base nmemb = some (st2, pos, ap) ∧
      (ap = true ↔ AlreadyPartitioned compar st.mem pivot base (base + nmemb)) ∧
      (ap = true → ∃ x, st.mem[pos]? = some x ∧
        st2.mem = (st.mem.set base x).set pos pivot) := by
  have cp := cell_of_getElem? pivot hp
  have cy := cell_of_getElem? pivot hy
  obtain ⟨f1, l, st3, f3, l3, st5, inv, _, h5, hm5, hl5, hp5, hfe5, _, _, hex⟩ :=
    CPDQS_PAR_trace compar pivot st base nmemb q hlen hq1 hq2 (by rw [cy, cp]; exact hstop)
  rw [cp] at inv hm5
  refine ⟨st5, f3 - 1, _, h5, ?_, ?_⟩
  · rw [decide_eq_true_iff]
    exact inv.flag
  · intro hap
    rw [decide_eq_true_iff] at hap
    obtain ⟨e1, e2, e3⟩ := hex hap
    refine ⟨cell pivot st.mem (f3 - 1), getElem?_eq_cell pivot (by omega), ?_⟩
    rw [hm5, e1]

set_option maxRecDepth 1000000 in
/-- Witness for `CPDQS_PAR_already_partitioned`: `PAR_input` is partitioned against its
front element. -/
theorem CPDQS_PAR_already_partitioned_witness :
    ∃ st2 pos ap, CPDQS_PAR int_compar ⟨PAR_input, 0⟩ 0 24 = some (st2, pos, ap) ∧
      (ap = true ↔ AlreadyPartitioned int_compar PAR_input 12 0 (0 + 24)) ∧
      (ap = true → ∃ x, PAR_input[pos]? = some x ∧
        st2.mem = (PAR_input.set 0 x).set pos 12) :=
  CPDQS_PAR_already_partitioned int_compar ⟨PAR_input, 0⟩ 0 24 13 12 13 (by decide)
    (by decide) (by decide) (by decide) (by decide) (by decide)

set_option maxRecDepth 1000000 in
/-- C13 as stated fails: on `PAR_input` the swap loop of `CPDQS_PAR` exits with
`first = 13` and `last = 12`, and the position returned is `12 = first - 1`, not
`last - 1 = 11`. -/
theorem CPDQS_PAR_pos_not_last_pred :
    ¬ ∃ st3 first last st2 ap,
      CPDQS_PAR_ptrs int_compar ⟨PAR_input, 0⟩ 0 24 = some (st3, first, last) ∧
      CPDQS_PAR int_compar ⟨PAR_input, 0⟩ 0 24 = some (st2, last - 1, ap) := by
  have h1 : CPDQS_PAR_ptrs int_compar ⟨PAR_input, 0⟩ 0 24 = some (⟨PAR_input, 25⟩, 13, 12) := by
    decide
  have h2 : CPDQS_PAR int_compar ⟨PAR_input, 0⟩ 0 24 = some (⟨PAR_output, 25⟩, 12, true) := by
    decide
  rintro ⟨st3, first, last, st2, ap, h3, h4⟩
  rw [h1] at h3
  rw [h2] at h4
  simp only [Option.some.injEq, Prod.mk.injEq] at h3 h4
  omega

/-- C13, amended: under the precondition of C11, `CPDQS_PAR` returns `first - 1`, where
`first` is the value of the advancing scan pointer when the swap loop exits, and puts the
pivot there (the element that was there goes to the front); the retreating pointer `last`
is then `first - 1` or `first`. -/
theorem CPDQS_PAR_pivot_pos (compar : α → α → Int) (st : St α) (base nmemb q : Nat)
    (pivot y : α) (hlen : base + nmemb ≤ st.mem.length) (hp : st.mem[base]? = some pivot)
    (hq1 : base < q) (hq2 : q < base + nmemb) (hy : st.mem[q]? = some y)
    (hstop : ¬ compar y pivot < 0) :
    ∃ st3 first last st2 ap x,
      CPDQS_PAR_ptrs compar st base nmemb = some (st3, first, last) ∧
      CPDQS_PAR compar st base nmemb = some (st2, first - 1, ap) ∧
      base < first ∧ first < base + nmemb ∧ (last + 1 = first ∨ last = first) ∧
      st3.mem[first - 1]? = some x ∧
      st2.mem = (st3.mem.set base x).set (first - 1) pivot ∧
      st2.mem[first - 1]? = some pivot := by
  have cp := cell_of_getElem? pivot hp
  have cy := cell_of_getElem? pivot hy
  obtain ⟨f1, l, st3, f3, l3, st5, inv, h3, h5, hm5, hl5, hp5, hfe5, hb1, hb2, _⟩ :=
    CPDQS_PAR_trace compar pivot st base nmemb q hlen hq1 hq2 (by rw [cy, cp]; exact hstop)
  rw [cp] at hm5
  refine ⟨st3, f3, l3, st5, _, cell pivot st3.mem (f3 - 1), h3, h5, hp5, hfe5, by omega,
    getElem?_eq_cell pivot (by omega), hm5, ?_⟩
  rw [hm5, List.getElem?_set_self (by simp; omega)]

set_option maxRecDepth 1000000 in
/-- Witness for `CPDQS_PAR_pivot_pos`: `PAR_input`. -/
theorem CPDQS_PAR_pivot_pos_witness :
    ∃ st3 first last st2 ap x,
      CPDQS_PAR_ptrs int_compar ⟨PAR_input, 0⟩ 0 24 = some (st3, first, last) ∧
      CPDQS_PAR int_compar ⟨PAR_input, 0⟩ 0 24 = some (st2, first - 1, ap) ∧
      0 < first ∧ first < 0 + 24 ∧ (last + 1 = first ∨ last = first) ∧
      st3.mem[first - 1]? = some x ∧
      st2.mem = (st3.mem.set 0 x).set (first - 1) 12 ∧
      st2.mem[first - 1]? = some 12 :=
  CPDQS_PAR_pivot_pos int_compar ⟨PAR_input, 0⟩ 0 24 13 12 13 (by decide) (by decide)
    (by decide) (by decide) (by decide) (by decide)

/-- C14: for a non-empty range `[base, base + nmemb)` inside the array whose front element
is the pivot, `CPDQS_PAL` returns a position `pos` in the range, the value of `last` when
the swap loop exits, such that no element of the range before `pos` is greater than the
pivot, the element at `pos` is the pivot, and every element of the range after `pos` is
greater than the pivot. -/
theorem CPDQS_PAL_postconditions (compar : α → α → Int) (hswo : StrictWeakOrder compar)
    (st : St α) (base nmemb : Nat) (pivot : α) (hn : 1 ≤ nmemb)
    (hlen : base + nmemb ≤ st.mem.length) (hp : st.mem[base]? = some pivot) :
    ∃ st2 pos st3, CPDQS_PAL compar st base nmemb = some (st2, pos) ∧
      CPDQS_PAL_ptrs compar st base nmemb = some (st3, pos) ∧
      base ≤ pos ∧ pos < base + nmemb ∧
      (∀ i x, base ≤ i → i < pos → st2.mem[i]? = some x → ¬ compar pivot x < 0) ∧
      st2.mem[pos]? = some pivot ∧
      (∀ i x, pos < i → i < base + nmemb → st2.mem[i]? = some x → compar pivot x < 0) := by
  have cp := cell_of_getElem? pivot hp
  obtain ⟨st2, pos, h, h1, h2, hperm, hpos, hleft, hright⟩ :=
    CPDQS_PAL_spec hswo pivot st base nmemb hn hlen
  rw [cp] at hpos hleft hright
  have hl2 : st2.mem.length = st.mem.length := hperm.length_eq
  obtain ⟨st3, h3⟩ := CPDQS_PAL_returns_last compar st st2 base nmemb pos h
  refine ⟨st2, pos, st3, h, h3, h1, h2, ?_, ?_, ?_⟩
  · intro i x hi1 hi2 hx
    have := hleft i hi1 hi2
    rwa [cell_of_getElem? pivot hx] at this
  · rw [getElem?_eq_cell pivot (by omega), hpos]
  · intro i x hi1 hi2 hx
    have := hright i hi1 hi2
    rwa [cell_of_getElem? pivot hx] at this

set_option maxRecDepth 1000000 in
/-- Witness for `CPDQS_PAL_postconditions`: the range `[1, 26)` of `dup_after_first_pass`,
whose front element is 1. -/
theorem CPDQS_PAL_postconditions_witness :
    StrictWeakOrder int_compar ∧
    ∃ st2 pos st3, CPDQS_PAL int_compar ⟨dup_after_first_pass, 0⟩ 1 25 = some (st2, pos) ∧
      CPDQS_PAL_ptrs int_compar ⟨dup_after_first_pass, 0⟩ 1 25 = some (st3, pos) ∧
      1 ≤ pos ∧ pos < 1 + 25 ∧
      (∀ i x, 1 ≤ i → i < pos → st2.mem[i]? = some x → ¬ int_compar 1 x < 0) ∧
      st2.mem[pos]? = some 1 ∧
      (∀ i x, pos < i → i < 1 + 25 → st2.mem[i]? = some x → int_compar 1 x < 0) :=
  ⟨int_compar_swo, CPDQS_PAL_postconditions int_compar int_compar_swo
    ⟨dup_after_first_pass, 0⟩ 1 25 1 (by decide) (by decide) (by decide)⟩

/-- C15: at the loop test after any number `k` of passes of the driver loop (the stack is
then the one the remaining passes of `PDQSRTL_loop` start from), every entry on the stack
with `is_leftmost = false`, so in particular the entry popped next, begins after the
first cell of the array, lies inside the array, and no element of its range is less than
the element just before the range. -/
theorem PDQSRTL_sentinel_invariant (compar : α → α → Int) (hswo : StrictWeakOrder compar)
    (base : List α) (size k : Nat) :
    ∃ st stack,
      PDQSRTL_passes compar k ⟨base, 0⟩ [PDQSRTL_init base.length size] = some (st, stack) ∧
      (∀ fuel, PDQSRTL_loop compar (k + fuel) ⟨base, 0⟩ [PDQSRTL_init base.length size] =
        PDQSRTL_loop compar fuel st stack) ∧
      ∀ f ∈ stack, f.is_leftmost = false →
        1 ≤ f.begin ∧ f.begin ≤ f.end_ ∧ f.end_ ≤ st.mem.length ∧
        ∀ i x s, f.begin ≤ i → i < f.end_ → st.mem[i]? = some x →
          st.mem[f.begin - 1]? = some s → ¬ compar x s < 0 := by
  have hloop : ∀ st stack,
      PDQSRTL_passes compar k ⟨base, 0⟩ [PDQSRTL_init base.length size] = some (st, stack) →
      ∀ fuel, PDQSRTL_loop compar (k + fuel) ⟨base, 0⟩ [PDQSRTL_init base.length size] =
        PDQSRTL_loop compar fuel st stack := by
    intro st stack h fuel
    rw [PDQSRTL_loop_passes, h]
    rfl
  cases base with
  | nil =>
    cases k with
    | zero =>
      refine ⟨⟨[], 0⟩, [PDQSRTL_init 0 size], rfl, hloop _ _ rfl, ?_⟩
      intro f hf hl
      rw [List.mem_singleton] at hf
      rw [hf] at hl
      simp [PDQSRTL_init] at hl
    | succ k =>
      have h : PDQSRTL_passes compar (k + 1) ⟨([] : List α), 0⟩
          [PDQSRTL_init ([] : List α).length size] = some (⟨[], 0⟩, []) := by
        rw [PDQSRTL_passes]
        have hstep : PDQSRTL_step compar ⟨([] : List α), 0⟩
            (PDQSRTL_init ([] : List α).length size) = some (⟨[], 0⟩, []) := by
          simp [PDQSRTL_step, PDQSRTL_init, CPDQS_ISRT_THRESHOLD, CPDQS_ISRT]
        simp only [Option.bind_eq_bind, hstep, Option.some_bind, List.nil_append]
        exact PDQSRTL_passes_nil compar k _
      refine ⟨⟨[], 0⟩, [], h, hloop _ _ h, ?_⟩
      intro f hf
      simp at hf
  | cons d t =>
    obtain ⟨st, stack, h, hok, _⟩ := PDQSRTL_passes_spec hswo d (d :: t).length k
      ⟨d :: t, 0⟩ [PDQSRTL_init (d :: t).length size] (stackOK_init compar d (d :: t) size)
    refine ⟨st, stack, h, hloop _ _ h, ?_⟩
    intro f hf hl
    obtain ⟨hbe, hfl, hsent⟩ := stackOK_frames hok f hf
    obtain ⟨hb, hs⟩ := hsent hl
    refine ⟨hb, hbe, hfl, ?_⟩
    intro i x s hi1 hi2 hx hsx
    have := hs i hi1 hi2
    rwa [cell_of_getElem? d hx, cell_of_getElem? d hsx] at this

/-- Witness for `PDQSRTL_sentinel_invariant`: the ascending integer comparator, on
`dup_input` after one pass. -/
theorem PDQSRTL_sentinel_invariant_witness :
    StrictWeakOrder int_compar ∧
    ∃ st stack,
      PDQSRTL_passes int_compar 1 ⟨dup_input, 0⟩ [PDQSRTL_init dup_input.length 4] =
        some (st, stack) ∧
      (∀ fuel, PDQSRTL_loop int_compar (1 + fuel) ⟨dup_input, 0⟩
          [PDQSRTL_init dup_input.length 4] = PDQSRTL_loop int_compar fuel st stack) ∧
      ∀ f ∈ stack, f.is_leftmost = false →
        1 ≤ f.begin ∧ f.begin ≤ f.end_ ∧ f.end_ ≤ st.mem.length ∧
        ∀ i x s, f.begin ≤ i → i < f.end_ → st.mem[i]? = some x →
          st.mem[f.begin - 1]? = some s → ¬ int_compar x s < 0 :=
  ⟨int_compar_swo, PDQSRTL_sentinel_invariant int_compar int_compar_swo dup_input 4 1⟩

/-- C16: let the range `xs` be preceded by an element `s` that no element of `xs` is less
than, inside any array `pre ++ s :: xs ++ post`.  Then `CPDQS_UISRT` on the range returns
with exactly the array `CPDQS_ISRT` returns with; in it `pre`, `s` and `post` are as they
were; and `CPDQS_UISRT` returns with the same range also on the array `s :: xs`, where a
read before `s` or after the range would be an access outside the array. -/
theorem CPDQS_UISRT_refines_ISRT (compar : α → α → Int) (hswo : StrictWeakOrder compar)
    (pre : List α) (s : α) (xs post : List α) (c : Nat)
    (hsent : ∀ x ∈ xs, ¬ compar x s < 0) :
    ∃ ys c1 c2 c3,
      CPDQS_ISRT compar ⟨pre ++ s :: xs ++ post, c⟩ (pre.length + 1) xs.length =
        some ⟨pre ++ s :: ys ++ post, c1⟩ ∧
      CPDQS_UISRT compar ⟨pre ++ s :: xs ++ post, c⟩ (pre.length + 1) xs.length =
        some ⟨pre ++ s :: ys ++ post, c2⟩ ∧
      CPDQS_UISRT compar ⟨s :: xs, c⟩ 1 xs.length = some ⟨s :: ys, c3⟩ ∧
      ys.length = xs.length := by
  have hsentM : ∀ j, 1 ≤ j → j < 1 + xs.length →
      ¬ compar (cell s (s :: xs) j) (cell s (s :: xs) 0) < 0 := by
    intro j hj1 hj2
    obtain ⟨i, rfl⟩ : ∃ i, j = i + 1 := ⟨j - 1, by omega⟩
    have hi : i < xs.length := by omega
    have e1 : cell s (s :: xs) (i + 1) = xs[i] := by
      simp [cell, List.getElem?_eq_getElem hi]
    have e0 : cell s (s :: xs) 0 = s := by simp [cell]
    rw [e1, e0]
    exact hsent _ (List.getElem_mem hi)
  obtain ⟨sa, sb, ha, hb, hm, hperm⟩ := CPDQS_UISRT_sim hswo s ⟨s :: xs, c⟩ 1 xs.length
    (by simp; omega) (le_refl _) (fun i hi1 hi2 => hsentM i hi1 hi2)
  have hla : sa.mem.length = (s :: xs).length := hperm.length_eq
  have hc0 : cell s sa.mem 0 = cell s (s :: xs) 0 := hperm.cell_outside s (Or.inl (by omega))
  obtain ⟨ys, hys⟩ : ∃ ys, sa.mem = s :: ys := by
    cases hmem : sa.mem with
    | nil => rw [hmem] at hla; simp at hla
    | cons a ys =>
      rw [hmem] at hc0
      simp [cell] at hc0
      exact ⟨ys, by rw [hc0]⟩
  have hbig := CPDQS_ISRT_append compar pre post 1 xs.length ⟨s :: xs, c⟩ sa ha
  obtain ⟨sa2, sb2, ha2, hb2, hm2, _⟩ := CPDQS_UISRT_sim hswo s
    ⟨pre ++ s :: xs ++ post, c⟩ (pre.length + 1) xs.length (by simp; omega) (by omega)
    (by
      intro i hi1 hi2
      have e1 := cell_append_mid s pre (s :: xs) post (i - pre.length) (by simp; omega)
      have e0 := cell_append_mid s pre (s :: xs) post 0 (by simp)
      rw [show pre.length + (i - pre.length) = i by omega] at e1
      show ¬ compar (cell s (pre ++ s :: xs ++ post) i)
        (cell s (pre ++ s :: xs ++ post) (pre.length + 1 - 1)) < 0
      rw [show pre.length + 1 - 1 = pre.length + 0 by omega, e1, e0]
      exact hsentM (i - pre.length) (by omega) (by omega))
  rw [hbig] at ha2
  cases ha2
  refine ⟨ys, sa.calls, sb2.calls, sb.calls, ?_, ?_, ?_, ?_⟩
  · rw [hbig, hys]
  · rw [hb2]
    cases sb2 with
    | mk m2 c2 =>
      simp only [] at hm2
      rw [hm2, hys]
  · rw [hb]
    cases sb with
    | mk m3 c3 =>
      simp only [] at hm
      rw [hm, hys]
  · rw [hys] at hla
    simpa using hla

/-- Witness for `CPDQS_UISRT_refines_ISRT`: the range `[3, 1, 2, 1]` behind the sentinel
`1`, in the array `[9, 1, 3, 1, 2, 1, 0]`. -/
theorem CPDQS_UISRT_refines_ISRT_witness :
    StrictWeakOrder int_compar ∧ (∀ x ∈ [(3 : Int), 1, 2, 1], ¬ int_compar x 1 < 0) ∧
    ∃ ys c1 c2 c3,
      CPDQS_ISRT int_compar ⟨[9] ++ 1 :: [3, 1, 2, 1] ++ [0], 0⟩ ([(9 : Int)].length + 1)
        [(3 : Int), 1, 2, 1].length = some ⟨[9] ++ 1 :: ys ++ [0], c1⟩ ∧
      CPDQS_UISRT int_compar ⟨[9] ++ 1 :: [3, 1, 2, 1] ++ [0], 0⟩ ([(9 : Int)].length + 1)
        [(3 : Int), 1, 2, 1].length = some ⟨[9] ++ 1 :: ys ++ [0], c2⟩ ∧
      CPDQS_UISRT int_compar ⟨1 :: [3, 1, 2, 1], 0⟩ 1 [(3 : Int), 1, 2, 1].length =
        some ⟨1 :: ys, c3⟩ ∧
      ys.length = [(3 : Int), 1, 2, 1].length :=
  ⟨int_compar_swo, by decide,
    CPDQS_UISRT_refines_ISRT int_compar int_compar_swo [9] 1 [3, 1, 2, 1] [0] 0 (by decide)⟩

/-- C17: for every range `xs`, of any length, and every strict-weak-order comparator,
`CPDQS_ISRT` on the array that consists of the range alone returns (so it makes no access
outside the range) with the range sorted and a permutation of `xs`; and with the range
inside a larger array `pre ++ xs ++ post` it returns with the same range and with `pre` and
`post` as they were. -/
theorem CPDQS_ISRT_correct (compar : α → α → Int) (hswo : StrictWeakOrder compar)
    (pre xs post : List α) (c : Nat) :
    ∃ ys c1, CPDQS_ISRT compar ⟨xs, c⟩ 0 xs.length = some ⟨ys, c1⟩ ∧
      Sorted compar ys ∧ List.Perm ys xs ∧
      CPDQS_ISRT compar ⟨pre ++ xs ++ post, c⟩ pre.length xs.length =
        some ⟨pre ++ ys ++ post, c1⟩ := by
  have hsmall : ∃ sa, CPDQS_ISRT compar ⟨xs, c⟩ 0 xs.length = some sa ∧
      Sorted compar sa.mem ∧ List.Perm sa.mem xs := by
    cases xs with
    | nil => exact ⟨⟨[], c⟩, rfl, sorted_nil compar, List.Perm.refl _⟩
    | cons d t =>
      obtain ⟨sa, ha, hperm, hs⟩ := CPDQS_ISRT_spec hswo d ⟨d :: t, c⟩ 0 (d :: t).length
        (by simp)
      refine ⟨sa, ha, ?_, hperm.perm⟩
      apply sorted_of_sortedOn d
      rw [hperm.length_eq]
      simpa using hs
  obtain ⟨sa, ha, hs, hp⟩ := hsmall
  have hbig := CPDQS_ISRT_append compar pre post 0 xs.length ⟨xs, c⟩ sa ha
  cases sa with
  | mk ys c1 => exact ⟨ys, c1, ha, hs, hp, hbig⟩

/-- Witness for `CPDQS_ISRT_correct`: the range `[3, 1, 2]` alone and inside
`[9, 3, 1, 2, 0]`. -/
theorem CPDQS_ISRT_correct_witness :
    StrictWeakOrder int_compar ∧
    ∃ ys c1, CPDQS_ISRT int_compar ⟨[3, 1, 2], 0⟩ 0 [(3 : Int), 1, 2].length = some ⟨ys, c1⟩ ∧
      Sorted int_compar ys ∧ List.Perm ys [3, 1, 2] ∧
      CPDQS_ISRT int_compar ⟨[9] ++ [3, 1, 2] ++ [0], 0⟩ [(9 : Int)].length
        [(3 : Int), 1, 2].length = some ⟨[9] ++ ys ++ [0], c1⟩ :=
  ⟨int_compar_swo, CPDQS_ISRT_correct int_compar int_compar_swo [9] [3, 1, 2] [0] 0⟩

/-- C18: for every range `[begin, begin + nmemb)` of at least two elements inside the
array and every strict-weak-order comparator, `CPDQS_PISRT` returns; whatever it reports,
the range is a permutation of what it was and the array a permutation of the array before;
and when it reports success the range is sorted. -/
theorem CPDQS_PISRT_success_sorted (compar : α → α → Int) (hswo : StrictWeakOrder compar)
    (st : St α) (begin nmemb : Nat) (hn : 2 ≤ nmemb) (hlen : begin + nmemb ≤ st.mem.length) :
    ∃ st2 ok, CPDQS_PISRT compar st begin nmemb = some (st2, ok) ∧
      List.Perm ((st2.mem.drop begin).take nmemb) ((st.mem.drop begin).take nmemb) ∧
      List.Perm st2.mem st.mem ∧
      (ok = true → Sorted compar ((st2.mem.drop begin).take nmemb)) := by
  cases hmem : st.mem with
  | nil => rw [hmem] at hlen; simp at hlen; omega
  | cons d t =>
    obtain ⟨st2, ok, h, hperm, hs⟩ := CPDQS_PISRT_spec hswo d st begin nmemb (by omega) hlen
    have hsl := hperm.slice
    rw [Nat.add_sub_cancel_left] at hsl
    rw [← hmem]
    exact ⟨st2, ok, h, hsl, hperm.perm, fun hok => sorted_slice d (hs hok)⟩

set_option maxRecDepth 1000000 in
/-- Witness for `CPDQS_PISRT_success_sorted`: the range `[1, 5)` of `[0, 3, 1, 2, 1, 0]`. -/
theorem CPDQS_PISRT_success_sorted_witness :
    StrictWeakOrder int_compar ∧ 2 ≤ 4 ∧ 1 + 4 ≤ [(0 : Int), 3, 1, 2, 1, 0].length ∧
    ∃ st2 ok, CPDQS_PISRT int_compar ⟨[0, 3, 1, 2, 1, 0], 0⟩ 1 4 = some (st2, ok) ∧
      List.Perm ((st2.mem.drop 1).take 4) (([(0 : Int), 3, 1, 2, 1, 0].drop 1).take 4) ∧
      List.Perm st2.mem [0, 3, 1, 2, 1, 0] ∧
      (ok = true → Sorted int_compar ((st2.mem.drop 1).take 4)) :=
  ⟨int_compar_swo, by decide, by decide,
    CPDQS_PISRT_success_sorted int_compar int_compar_swo ⟨[0, 3, 1, 2, 1, 0], 0⟩ 1 4
      (by decide) (by decide)⟩

set_option maxRecDepth 1000000 in
/-- C19 as stated fails: after the first pass on `PAR_input`, in which partition-right
returns position 12, the entry on top of the stack, popped next, is the right sub-range
`[13, 24)`, not the left sub-range `[0, 12)`. -/
theorem PDQSRTL_left_not_popped_next :
    ¬ ∃ st f top,
      PDQSRTL_passes int_compar 1 ⟨PAR_input, 0⟩ [PDQSRTL_init 24 4] = some (st, f :: top) ∧
      f.begin = 0 ∧ f.end_ = 12 := by
  have h : PDQSRTL_passes int_compar 1 ⟨PAR_input, 0⟩ [PDQSRTL_init 24 4] =
      some (⟨[0, 1, 2, 3, 4, 5, 6, 7, 8, 11, 9, 10, 12, 13, 14, 15, 16, 17, 18, 19, 20, 21,
        22, 23], 45⟩, [⟨13, 24, 2, false⟩, ⟨0, 12, 2, true⟩]) := by
    decide
  rintro ⟨st, f, top, h1, h2, h3⟩
  rw [h] at h1
  simp only [Option.some.injEq, Prod.mk.injEq, List.cons.injEq] at h1
  obtain ⟨_, hf, _⟩ := h1
  rw [← hf] at h2
  simp at h2

/-- C19, amended: a pass of the driver loop on a well-formed entry either pushes nothing
or, after partition-right has returned `pos`, pushes the left sub-range
`[begin, pos)` first and the right sub-range `[pos + 1, end)` second, so that the right
sub-range is on top of the stack and is the entry the next pass pops. -/
theorem PDQSRTL_push_order (compar : α → α → Int) (hswo : StrictWeakOrder compar) (d : α)
    (st : St α) (f : Frame) (hf : FrameOK compar d st.mem f) :
    ∃ st2 pushed, PDQSRTL_step compar st f = some (st2, pushed) ∧
      (pushed = [] ∨ ∃ st1 stx st3 pos ap bad,
        PDQSRTL_pivot compar st f.begin f.end_ (f.end_ - f.begin) = some st1 ∧
        PDQSRTL_shortcut_test compar st1 f.begin f.is_leftmost = some (false, stx) ∧
        CPDQS_PAR compar stx f.begin (f.end_ - f.begin) = some (st3, pos, ap) ∧
        pushed = [⟨pos + 1, f.end_, bad, false⟩, ⟨f.begin, pos, bad, f.is_leftmost⟩]) ∧
      ∀ k top, PDQSRTL_passes compar (k + 1) st (f :: top) =
        PDQSRTL_passes compar k st2 (pushed ++ top) := by
  obtain ⟨st2, pushed, h, _, _⟩ := PDQSRTL_step_spec hswo d st f hf
  refine ⟨st2, pushed, h, PDQSRTL_step_pushed compar st st2 f pushed h, ?_⟩
  intro k top
  rw [PDQSRTL_passes]
  simp only [Option.bind_eq_bind, h, Option.some_bind]

set_option maxRecDepth 1000000 in
/-- Witness for `PDQSRTL_push_order`: the first pass on `PAR_input`. -/
theorem PDQSRTL_push_order_witness :
    StrictWeakOrder int_compar ∧ FrameOK int_compar 0 PAR_input (PDQSRTL_init 24 4) ∧
    ∃ st2 pushed,
      PDQSRTL_step int_compar ⟨PAR_input, 0⟩ (PDQSRTL_init 24 4) = some (st2, pushed) ∧
      (pushed = [] ∨ ∃ st1 stx st3 pos ap bad,
        PDQSRTL_pivot int_compar ⟨PAR_input, 0⟩ (PDQSRTL_init 24 4).begin
          (PDQSRTL_init 24 4).end_ ((PDQSRTL_init 24 4).end_ - (PDQSRTL_init 24 4).begin) =
          some st1 ∧
        PDQSRTL_shortcut_test int_compar st1 (PDQSRTL_init 24 4).begin
          (PDQSRTL_init 24 4).is_leftmost = some (false, stx) ∧
        CPDQS_PAR int_compar stx (PDQSRTL_init 24 4).begin
          ((PDQSRTL_init 24 4).end_ - (PDQSRTL_init 24 4).begin) = some (st3, pos, ap) ∧
        pushed = [⟨pos + 1, (PDQSRTL_init 24 4).end_, bad, false⟩,
          ⟨(PDQSRTL_init 24 4).begin, pos, bad, (PDQSRTL_init 24 4).is_leftmost⟩]) ∧
      ∀ k top, PDQSRTL_passes int_compar (k + 1) ⟨PAR_input, 0⟩ (PDQSRTL_init 24 4 :: top) =
        PDQSRTL_passes int_compar k st2 (pushed ++ top) :=
  ⟨int_compar_swo, ⟨by decide, by decide, fun h => by simp [PDQSRTL_init] at h⟩,
    PDQSRTL_push_order int_compar int_compar_swo 0 ⟨PAR_input, 0⟩ (PDQSRTL_init 24 4)
      ⟨by decide, by decide, fun h => by simp [PDQSRTL_init] at h⟩⟩

/-- C20: for every range `[begin, begin + nmemb)` of at least two elements inside the
array and every strict-weak-order comparator, the loop of `CPDQS_PISRT` ends with `limit`
equal to the number of inversions of the first `j` elements of the input range, where
`j` is the whole length whenever `limit` does not exceed `CPDQS_PISRT_LIMIT`; and
`CPDQS_PISRT` reports success exactly when the input range has at most
`CPDQS_PISRT_LIMIT = 8` inversions. -/
theorem CPDQS_PISRT_success_iff (compar : α → α → Int) (hswo : StrictWeakOrder compar)
    (st : St α) (begin nmemb : Nat) (hn : 2 ≤ nmemb) (hlen : begin + nmemb ≤ st.mem.length) :
    ∃ st2 limit j,
      PISRT_for compar (nmemb - 1) st begin 1 0 = some (st2, limit) ∧
      j ≤ nmemb ∧ limit = inversions compar ((st.mem.drop begin).take j) ∧
      (limit ≤ CPDQS_PISRT_LIMIT → j = nmemb) ∧
      CPDQS_PISRT compar st begin nmemb = some (st2,
        decide (inversions compar ((st.mem.drop begin).take nmemb) ≤ 8)) := by
  cases hmem : st.mem with
  | nil => rw [hmem] at hlen; simp at hlen; omega
  | cons d t =>
    rw [← hmem]
    exact CPDQS_PISRT_inversions hswo d st begin nmemb (by omega) hlen

set_option maxRecDepth 1000000 in
/-- Witness for `CPDQS_PISRT_success_iff`: the range `[1, 5)` of `[0, 3, 1, 2, 1, 0]`,
which has four inversions. -/
theorem CPDQS_PISRT_success_iff_witness :
    StrictWeakOrder int_compar ∧ 2 ≤ 4 ∧ 1 + 4 ≤ [(0 : Int), 3, 1, 2, 1, 0].length ∧
    inversions int_compar (([(0 : Int), 3, 1, 2, 1, 0].drop 1).take 4) = 4 ∧
    ∃ st2 limit j,
      PISRT_for int_compar (4 - 1) ⟨[0, 3, 1, 2, 1, 0], 0⟩ 1 1 0 = some (st2, limit) ∧
      j ≤ 4 ∧ limit = inversions int_compar (([(0 : Int), 3, 1, 2, 1, 0].drop 1).take j) ∧
      (limit ≤ CPDQS_PISRT_LIMIT → j = 4) ∧
      CPDQS_PISRT int_compar ⟨[0, 3, 1, 2, 1, 0], 0⟩ 1 4 = some (st2,
        decide (inversions int_compar (([(0 : Int), 3, 1, 2, 1, 0].drop 1).take 4) ≤ 8)) :=
  ⟨int_compar_swo, by decide, by decide, by decide,
    CPDQS_PISRT_success_iff int_compar int_compar_swo ⟨[0, 3, 1, 2, 1, 0], 0⟩ 1 4
      (by decide) (by decide)⟩

end Cpdqsort


namespace Cpdqsort

variable {α : Type}

/-! ## Pivot selection and partition-right inside a larger array -/

theorem SW_append (pre post : List α) {st st1 : St α} {a b : Nat}
    (h : CPDQS_SW st a b = some st1) :
    CPDQS_SW ⟨pre ++ st.mem ++ post, st.calls⟩ (pre.length + a) (pre.length + b) =
      some ⟨pre ++ st1.mem ++ post, st1.calls⟩ := by
  unfold CPDQS_SW at h ⊢
  simp only [Option.bind_eq_bind, Option.bind_eq_some] at h
  obtain ⟨x, hx, y, hy, st2, h2, h3⟩ := h
  simp only [Option.bind_eq_bind]
  rw [rd_append pre post st.calls hx, Option.some_bind, rd_append pre post st.calls hy,
    Option.some_bind, wr_append pre post h2, Option.some_bind]
  exact wr_append pre post h3

theorem SRT2_append (compar : α → α → Int) (pre post : List α) {st st1 : St α} {a b : Nat}
    (h : CPDQS_SRT2 compar st a b = some st1) :
    CPDQS_SRT2 compar ⟨pre ++ st.mem ++ post, st.calls⟩ (pre.length + a) (pre.length + b) =
      some ⟨pre ++ st1.mem ++ post, st1.calls⟩ := by
  unfold CPDQS_SRT2 at h ⊢
  simp only [Option.bind_eq_bind, Option.bind_eq_some] at h
  obtain ⟨y, hy, x, hx, h⟩ := h
  simp only [Option.bind_eq_bind]
  rw [rd_append pre post st.calls hy, Option.some_bind, rd_append pre post st.calls hx,
    Option.some_bind]
  by_cases hlt : compar y x < 0
  · rw [if_pos hlt] at h ⊢
    exact SW_append pre post h
  · rw [if_neg hlt] at h ⊢
    cases h
    rfl

theorem SRT3_append (compar : α → α → Int) (pre post : List α) {st st1 : St α} {a b c : Nat}
    (h : CPDQS_SRT3 compar st a b c = some st1) :
    CPDQS_SRT3 compar ⟨pre ++ st.mem ++ post, st.calls⟩ (pre.length + a) (pre.length + b)
        (pre.length + c) = some ⟨pre ++ st1.mem ++ post, st1.calls⟩ := by
  unfold CPDQS_SRT3 at h ⊢
  simp only [Option.bind_eq_bind, Option.bind_eq_some] at h
  obtain ⟨s1, h1, s2, h2, h3⟩ := h
  simp only [Option.bind_eq_bind]
  rw [SRT2_append compar pre post h1, Option.some_bind, SRT2_append compar pre post h2,
    Option.some_bind]
  exact SRT2_append compar pre post h3

theorem PDQSRTL_pivot_append (compar : α → α → Int) (pre post : List α) {st st1 : St α}
    {begin end_ tlen : Nat} (he : 3 ≤ end_)
    (h : PDQSRTL_pivot compar st begin end_ tlen = some st1) :
    PDQSRTL_pivot compar ⟨pre ++ st.mem ++ post, st.calls⟩ (pre.length + begin)
        (pre.length + end_) tlen = some ⟨pre ++ st1.mem ++ post, st1.calls⟩ := by
  unfold PDQSRTL_pivot at h ⊢
  simp only [] at h ⊢
  have e1 : pre.length + end_ - 1 = pre.length + (end_ - 1) := by omega
  have e2 : pre.length + end_ - 2 = pre.length + (end_ - 2) := by omega
  have e3 : pre.length + end_ - 3 = pre.length + (end_ - 3) := by omega
  by_cases ht : tlen > CPDQS_T9THER
  · rw [if_pos ht] at h ⊢
    simp only [Option.bind_eq_bind, Option.bind_eq_some] at h
    obtain ⟨s1, h1, s2, h2, s3, h3, s4, h4, h5⟩ := h
    simp only [Option.bind_eq_bind]
    rw [e1, e2, e3]
    simp only [Nat.add_assoc]
    rw [SRT3_append compar pre post h1, Option.some_bind, SRT3_append compar pre post h2,
      Option.some_bind, SRT3_append compar pre post h3, Option.some_bind,
      SRT3_append compar pre post h4, Option.some_bind]
    exact SW_append pre post h5
  · rw [if_neg ht] at h ⊢
    rw [e1]
    simp only [Nat.add_assoc]
    exact SRT3_append compar pre post h

theorem PAR_first_gt (compar : α → α → Int) (pivot : α) :
    ∀ (fuel : Nat) (st : St α) (first : Nat) (r : St α × Nat),
      PAR_first compar fuel st pivot first = some r → first < r.2 := by
  intro fuel
  induction fuel with
  | zero =>
    intro st first r h
    rw [PAR_first] at h
    cases h
  | succ fuel ih =>
    intro st first r h
    rw [PAR_first] at h
    simp only [Option.bind_eq_bind, Option.bind_eq_some] at h
    obtain ⟨x, _, h⟩ := h
    by_cases hlt : compar x pivot < 0
    · rw [if_pos hlt] at h
      have := ih _ _ _ h
      omega
    · rw [if_neg hlt] at h
      cases h
      exact Nat.lt_succ_self _

theorem PAR_first_append (compar : α → α → Int) (pre post : List α) (pivot : α) :
    ∀ (fuel fuel2 : Nat) (st : St α) (first : Nat) (r : St α × Nat), fuel ≤ fuel2 →
      PAR_first compar fuel st pivot first = some r →
      PAR_first compar fuel2 ⟨pre ++ st.mem ++ post, st.calls⟩ pivot (pre.length + first) =
        some (⟨pre ++ r.1.mem ++ post, r.1.calls⟩, pre.length + r.2) := by
  intro fuel
  induction fuel with
  | zero =>
    intro fuel2 st first r _ h
    rw [PAR_first] at h
    cases h
  | succ fuel ih =>
    intro fuel2 st first r hf h
    obtain ⟨f2, rfl⟩ : ∃ f2, fuel2 = f2 + 1 := ⟨fuel2 - 1, by omega⟩
    rw [PAR_first] at h ⊢
    simp only [Option.bind_eq_bind, Option.bind_eq_some] at h
    obtain ⟨x, hx, h⟩ := h
    simp only [Option.bind_eq_bind]
    rw [Nat.add_assoc, rd_append pre post st.calls hx, Option.some_bind]
    by_cases hlt : compar x pivot < 0
    · rw [if_pos hlt] at h ⊢
      exact ih f2 (tick st) (first + 1) r (by omega) h
    · rw [if_neg hlt] at h ⊢
      cases h
      rfl

theorem PAR_last_append (compar : α → α → Int) (pre post : List α) (pivot : α) :
    ∀ (last : Nat) (st : St α) (r : St α × Nat),
      PAR_last compar last st pivot = some r →
      PAR_last compar (pre.length + last) ⟨pre ++ st.mem ++ post, st.calls⟩ pivot =
        some (⟨pre ++ r.1.mem ++ post, r.1.calls⟩, pre.length + r.2) := by
  intro last
  induction last with
  | zero =>
    intro st r h
    rw [PAR_last] at h
    cases h
  | succ last ih =>
    intro st r h
    rw [show pre.length + (last + 1) = (pre.length + last) + 1 from rfl]
    rw [PAR_last] at h ⊢
    simp only [Option.bind_eq_bind, Option.bind_eq_some] at h
    obtain ⟨x, hx, h⟩ := h
    simp only [Option.bind_eq_bind]
    rw [rd_append pre post st.calls hx, Option.some_bind]
    by_cases hlt : ¬ compar x pivot < 0
    · rw [if_pos hlt] at h ⊢
      exact ih (tick st) r h
    · rw [if_neg hlt] at h ⊢
      cases h
      rfl

theorem PAR_last_guarded_exit (compar : α → α → Int) (pivot : α) (last : Nat) (st : St α)
    (first : Nat) (h : ¬ first < last) :
    PAR_last_guarded compar last st pivot first = some (st, last) := by
  cases last with
  | zero => rfl
  | succ last => rw [PAR_last_guarded, if_neg h]

theorem PAR_last_guarded_append (compar : α → α → Int) (pre post : List α) (pivot : α)
    (first : Nat) :
    ∀ (last : Nat) (st : St α) (r : St α × Nat),
      PAR_last_guarded compar last st pivot first = some r →
      PAR_last_guarded compar (pre.length + last) ⟨pre ++ st.mem ++ post, st.calls⟩ pivot
          (pre.length + first) =
        some (⟨pre ++ r.1.mem ++ post, r.1.calls⟩, pre.length + r.2) := by
  intro last
  induction last with
  | zero =>
    intro st r h
    rw [PAR_last_guarded] at h
    cases h
    exact PAR_last_guarded_exit compar pivot _ _ _ (by omega)
  | succ last ih =>
    intro st r h
    by_cases hfl : first < last + 1
    · rw [show pre.length + (last + 1) = (pre.length + last) + 1 from rfl]
      rw [PAR_last_guarded, if_pos hfl] at h
      rw [PAR_last_guarded, if_pos (by omega)]
      simp only [Option.bind_eq_bind, Option.bind_eq_some] at h
      obtain ⟨x, hx, h⟩ := h
      simp only [Option.bind_eq_bind]
      rw [rd_append pre post st.calls hx, Option.some_bind]
      by_cases hlt : ¬ compar x pivot < 0
      · rw [if_pos hlt] at h ⊢
        exact ih (tick st) r h
      · rw [if_neg hlt] at h ⊢
        cases h
        rfl
    · rw [PAR_last_guarded_exit compar pivot _ _ _ hfl] at h
      cases h
      exact PAR_last_guarded_exit compar pivot _ _ _ (by omega)

theorem PAR_loop_exit (compar : α → α → Int) (pivot : α) (fuel : Nat) (st : St α)
    (first last : Nat) (h : ¬ first < last) :
    PAR_loop compar fuel st pivot first last = some (st, first) := by
  cases fuel with
  | zero => rw [PAR_loop, if_neg h]
  | succ fuel => rw [PAR_loop, if_neg h]

theorem PAR_loop_append (compar : α → α → Int) (pre post : List α) (pivot : α) :
    ∀ (fuel : Nat) (st : St α) (first last : Nat) (r : St α × Nat),
      PAR_loop compar fuel st pivot first last = some r →
      PAR_loop compar fuel ⟨pre ++ st.mem ++ post, st.calls⟩ pivot (pre.length + first)
          (pre.length + last) =
        some (⟨pre ++ r.1.mem ++ post, r.1.calls⟩, pre.length + r.2) := by
  intro fuel
  induction fuel with
  | zero =>
    intro st first last r h
    by_cases hfl : first < last
    · rw [PAR_loop, if_pos hfl] at h
      cases h
    · rw [PAR_loop_exit compar pivot _ _ _ _ hfl] at h
      cases h
      exact PAR_loop_exit compar pivot _ _ _ _ (by omega)
  | succ fuel ih =>
    intro st first last r h
    by_cases hfl : first < last
    · rw [PAR_loop, if_pos hfl] at h
      rw [PAR_loop, if_pos (by omega)]
      simp only [Option.bind_eq_bind, Option.bind_eq_some] at h
      obtain ⟨st1, h1, ⟨st2, f2⟩, h2, ⟨st3, l3⟩, h3, h4⟩ := h
      simp only [Option.bind_eq_bind]
      rw [SW_append pre post h1, Option.some_bind]
      have hf := PAR_first_append compar pre post pivot (st1.mem.length - first)
        ((St.mk (pre ++ st1.mem ++ post) st1.calls).mem.length - (pre.length + first))
        st1 first (st2, f2) (by simp; omega) h2
      rw [hf, Option.some_bind]
      have hl := PAR_last_append compar pre post pivot last st2 (st3, l3) h3
      simp only [] at hl ⊢
      rw [hl, Option.some_bind]
      exact ih st3 f2 l3 r h4
    · rw [PAR_loop_exit compar pivot _ _ _ _ hfl] at h
      cases h
      exact PAR_loop_exit compar pivot _ _ _ _ (by omega)

theorem PAR_loop_ge (compar : α → α → Int) (pivot : α) :
    ∀ (fuel : Nat) (st : St α) (first last : Nat) (r : St α × Nat), 1 ≤ first →
      PAR_loop compar fuel st pivot first last = some r → 1 ≤ r.2 := by
  intro fuel
  induction fuel with
  | zero =>
    intro st first last r hf h
    by_cases hfl : first < last
    · rw [PAR_loop, if_pos hfl] at h
      cases h
    · rw [PAR_loop_exit compar pivot _ _ _ _ hfl] at h
      cases h
      exact hf
  | succ fuel ih =>
    intro st first last r hf h
    by_cases hfl : first < last
    · rw [PAR_loop, if_pos hfl] at h
      simp only [Option.bind_eq_bind, Option.bind_eq_some] at h
      obtain ⟨st1, _, ⟨st2, f2⟩, h2, ⟨st3, l3⟩, _, h4⟩ := h
      have := PAR_first_gt compar pivot _ _ _ _ h2
      exact ih st3 f2 l3 r (by simp only [] at this; omega) h4
    · rw [PAR_loop_exit compar pivot _ _ _ _ hfl] at h
      cases h
      exact hf

theorem PAR_finish_append (pre post : List α) (pivot : α) (ap : Bool) {st3 : St α}
    {base f3 : Nat} (hf3 : 1 ≤ f3) {r : St α × Nat × Bool}
    (h : ((rd st3 (f3 - 1)).bind fun x => (wr st3 base x).bind fun st4 =>
      (wr st4 (f3 - 1) pivot).bind fun st5 => some (st5, f3 - 1, ap)) = some r) :
    ((rd (St.mk (pre ++ st3.mem ++ post) st3.calls) (pre.length + f3 - 1)).bind fun x =>
      (wr (St.mk (pre ++ st3.mem ++ post) st3.calls) (pre.length + base) x).bind fun st4 =>
        (wr st4 (pre.length + f3 - 1) pivot).bind fun st5 =>
          some (st5, pre.length + f3 - 1, ap)) =
      some (⟨pre ++ r.1.mem ++ post, r.1.calls⟩, pre.length + r.2.1, r.2.2) := by
  simp only [Option.bind_eq_some] at h
  obtain ⟨x, hx, st4, h4, st5, h5, h6⟩ := h
  cases h6
  rw [show pre.length + f3 - 1 = pre.length + (f3 - 1) by omega,
    rd_append pre post st3.calls hx, Option.some_bind, wr_append pre post h4,
    Option.some_bind, wr_append pre post h5, Option.some_bind]

theorem CPDQS_PAR_append (compar : α → α → Int) (pre post : List α) {st : St α}
    {base nmemb : Nat} {r : St α × Nat × Bool}
    (h : CPDQS_PAR compar st base nmemb = some r) :
    CPDQS_PAR compar ⟨pre ++ st.mem ++ post, st.calls⟩ (pre.length + base) nmemb =
      some (⟨pre ++ r.1.mem ++ post, r.1.calls⟩, pre.length + r.2.1, r.2.2) := by
  unfold CPDQS_PAR at h ⊢
  simp only [Option.bind_eq_bind, Option.bind_eq_some] at h
  obtain ⟨pivot, hp, ⟨st1, f1⟩, h1, h⟩ := h
  have hf1 : base < f1 := PAR_first_gt compar pivot _ _ _ _ h1
  have e1 := PAR_first_append compar pre post pivot (st.mem.length - base)
    ((St.mk (pre ++ st.mem ++ post) st.calls).mem.length - (pre.length + base)) st base
    (st1, f1) (by simp; omega) h1
  simp only [Option.bind_eq_bind]
  rw [rd_append pre post st.calls hp, Option.some_bind, e1, Option.some_bind]
  simp only [] at h ⊢
  have hfin : ∀ (st2 : St α) (l : Nat),
      ((PAR_loop compar (l - f1) st2 pivot f1 l).bind fun a =>
        (rd a.1 (a.2 - 1)).bind fun x => (wr a.1 base x).bind fun st4 =>
          (wr st4 (a.2 - 1) pivot).bind fun st5 => some (st5, a.2 - 1, decide (f1 ≥ l))) =
        some r →
      ((PAR_loop compar (pre.length + l - (pre.length + f1))
          ⟨pre ++ st2.mem ++ post, st2.calls⟩ pivot (pre.length + f1) (pre.length + l)).bind
        fun a => (rd a.1 (a.2 - 1)).bind fun x => (wr a.1 (pre.length + base) x).bind fun st4 =>
          (wr st4 (a.2 - 1) pivot).bind fun st5 =>
            some (st5, a.2 - 1, decide (pre.length + f1 ≥ pre.length + l))) =
        some (⟨pre ++ r.1.mem ++ post, r.1.calls⟩, pre.length + r.2.1, r.2.2) := by
    intro st2 l hh
    simp only [Option.bind_eq_some] at hh
    obtain ⟨⟨st3, f3⟩, h3, hh⟩ := hh
    have hf3 : 1 ≤ f3 := PAR_loop_ge compar pivot _ _ _ _ (st3, f3) (by omega) h3
    rw [Nat.add_sub_add_left, PAR_loop_append compar pre post pivot _ _ _ _ (st3, f3) h3,
      Option.some_bind]
    have hd : decide (pre.length + f1 ≥ pre.length + l) = decide (f1 ≥ l) := by
      rw [decide_eq_decide]
      omega
    rw [hd]
    refine PAR_finish_append pre post pivot _ hf3 ?_
    simp only [Option.bind_eq_some]
    exact hh
  by_cases hg : f1 - 1 = base
  · rw [if_pos hg] at h
    rw [if_pos (show pre.length + f1 - 1 = pre.length + base by omega)]
    simp only [Option.bind_eq_some] at h
    obtain ⟨⟨st2, l⟩, h2, h⟩ := h
    have e2 := PAR_last_guarded_append compar pre post pivot f1 (base + nmemb) st1 (st2, l) h2
    rw [Nat.add_assoc, e2, Option.some_bind]
    apply hfin st2 l
    simp only [Option.bind_eq_some]
    exact h
  · rw [if_neg hg] at h
    rw [if_neg (show ¬ pre.length + f1 - 1 = pre.length + base by omega)]
    simp only [Option.bind_eq_some] at h
    obtain ⟨⟨st2, l⟩, h2, h⟩ := h
    have e2 := PAR_last_append compar pre post pivot (base + nmemb) st1 (st2, l) h2
    rw [Nat.add_assoc, e2, Option.some_bind]
    apply hfin st2 l
    simp only [Option.bind_eq_some]
    exact h

end Cpdqsort


namespace Cpdqsort

variable {α : Type}

/-! ## The pivot shuffle, swap by swap -/

theorem PDQSRTL_shuffle_left_eq (st : St α) (begin pivot_pos l_size : Nat) :
    PDQSRTL_shuffle_left st begin pivot_pos l_size =
      SW_all st (PDQSRTL_shuffle_left_swaps begin pivot_pos l_size) := by
  unfold PDQSRTL_shuffle_left PDQSRTL_shuffle_left_swaps
  by_cases h1 : l_size ≥ CPDQS_ISRT_THRESHOLD
  · rw [if_pos h1, if_pos h1]
    by_cases h2 : l_size > CPDQS_T9THER
    · simp only [if_pos h2, List.cons_append, List.nil_append, SW_all, Option.bind_eq_bind,
        Option.bind_some]
    · simp only [if_neg h2, List.cons_append, List.nil_append, List.append_nil, SW_all,
        Option.bind_eq_bind, Option.bind_some]
  · rw [if_neg h1, if_neg h1]
    rfl

theorem PDQSRTL_shuffle_right_eq (st : St α) (pivot_pos end_ r_size : Nat) :
    PDQSRTL_shuffle_right st pivot_pos end_ r_size =
      SW_all st (PDQSRTL_shuffle_right_swaps pivot_pos end_ r_size) := by
  unfold PDQSRTL_shuffle_right PDQSRTL_shuffle_right_swaps
  by_cases h1 : r_size ≥ CPDQS_ISRT_THRESHOLD
  · rw [if_pos h1, if_pos h1]
    by_cases h2 : r_size > CPDQS_T9THER
    · simp only [if_pos h2, List.cons_append, List.nil_append, SW_all, Option.bind_eq_bind,
        Option.bind_some]
    · simp only [if_neg h2, List.cons_append, List.nil_append, List.append_nil, SW_all,
        Option.bind_eq_bind, Option.bind_some]
  · rw [if_neg h1, if_neg h1]
    rfl

theorem shuffle_left_swaps_bounds (begin pivot_pos : Nat) (hbp : begin ≤ pivot_pos) :
    ∀ ab ∈ PDQSRTL_shuffle_left_swaps begin pivot_pos (pivot_pos - begin),
      begin ≤ ab.1 ∧ ab.1 < pivot_pos ∧ begin ≤ ab.2 ∧ ab.2 < pivot_pos := by
  intro ab hab
  unfold PDQSRTL_shuffle_left_swaps at hab
  simp only [CPDQS_ISRT_THRESHOLD, CPDQS_T9THER] at hab
  split_ifs at hab with h1 h2
  · simp only [List.cons_append, List.nil_append, List.mem_cons, List.mem_singleton,
      List.not_mem_nil, or_false] at hab
    rcases hab with rfl | rfl | rfl | rfl | rfl | rfl <;> simp only [] <;> omega
  · simp only [List.cons_append, List.nil_append, List.append_nil, List.mem_cons,
      List.mem_singleton, List.not_mem_nil, or_false] at hab
    rcases hab with rfl | rfl <;> simp only [] <;> omega
  · simp at hab

theorem shuffle_right_swaps_bounds (pivot_pos end_ : Nat) (hpe : pivot_pos < end_) :
    ∀ ab ∈ PDQSRTL_shuffle_right_swaps pivot_pos end_ (end_ - pivot_pos - 1),
      pivot_pos < ab.1 ∧ ab.1 < end_ ∧ pivot_pos < ab.2 ∧ ab.2 < end_ := by
  intro ab hab
  unfold PDQSRTL_shuffle_right_swaps at hab
  simp only [CPDQS_ISRT_THRESHOLD, CPDQS_T9THER] at hab
  split_ifs at hab with h1 h2
  · simp only [List.cons_append, List.nil_append, List.mem_cons, List.mem_singleton,
      List.not_mem_nil, or_false] at hab
    rcases hab with rfl | rfl | rfl | rfl | rfl | rfl <;> simp only [] <;> omega
  · simp only [List.cons_append, List.nil_append, List.append_nil, List.mem_cons,
      List.mem_singleton, List.not_mem_nil, or_false] at hab
    rcases hab with rfl | rfl <;> simp only [] <;> omega
  · simp at hab

theorem PermOn.getElem?_outside {b e : Nat} {m m2 : List α} (h : PermOn b e m m2)
    {k : Nat} (hk : k < b ∨ e ≤ k) : m2[k]? = m[k]? := by
  induction h with
  | refl m => rfl
  | step m m2 i j x y hi1 hi2 hj1 hj2 _ _ _ ih =>
    rw [ih, List.getElem?_set_ne (by omega), List.getElem?_set_ne (by omega)]

theorem slice_eq_of_getElem? (m m2 : List α) (b n : Nat)
    (h : ∀ i, b ≤ i → i < b + n → m2[i]? = m[i]?) :
    (m2.drop b).take n = (m.drop b).take n := by
  apply List.ext_getElem?
  intro i
  rw [List.getElem?_take, List.getElem?_take]
  by_cases hi : i < n
  · rw [if_pos hi, if_pos hi, List.getElem?_drop, List.getElem?_drop]
    exact h (b + i) (by omega) (by omega)
  · rw [if_neg hi, if_neg hi]

end Cpdqsort


namespace Cpdqsort

variable {α : Type}

/-! ## The stack drains -/

theorem stepPost_shorter {compar : α → α → Int} {d : α} {m m2 : List α} {f : Frame}
    {pushed : List Frame} (hpost : StepPost compar d m m2 f pushed) :
    ∀ g ∈ pushed, f.begin ≤ g.begin ∧ g.end_ ≤ f.end_ ∧
      g.end_ - g.begin < f.end_ - f.begin := by
  intro g hg
  rcases hpost with ⟨hnil, _⟩ | ⟨pos, bad, h1, h2, hpush, _⟩
  · rw [hnil] at hg
    simp at hg
  · rw [hpush] at hg
    simp only [PDQSRTL_push, List.mem_cons, List.mem_singleton, List.not_mem_nil,
      or_false] at hg
    rcases hg with rfl | rfl <;> simp only [] <;> omega

theorem PDQSRTL_passes_drain {compar : α → α → Int} (hswo : StrictWeakOrder compar) (d : α)
    (n : Nat) :
    ∀ (k : Nat) (st : St α) (stack : List Frame),
      StackOK compar d st.mem n stack → stackMeasure stack ≤ k →
      ∃ st2, PDQSRTL_passes compar k st stack = some (st2, []) ∧
        PDQSRTL_loop compar k st stack = some st2 := by
  intro k
  induction k with
  | zero =>
    intro st stack _ hk
    cases stack with
    | nil => exact ⟨st, rfl, rfl⟩
    | cons f rest => simp [stackMeasure] at hk
  | succ k ih =>
    intro st stack hok hk
    cases stack with
    | nil => exact ⟨st, rfl, rfl⟩
    | cons f rest =>
      obtain ⟨st1, pushed, h1, hp1, hpost⟩ := PDQSRTL_step_spec hswo d st f hok.1
      have hok1 := stackOK_step hok hp1 hpost
      have hmeas := stackMeasure_step rest hok.1.1 hpost
      obtain ⟨st2, h2, h3⟩ := ih st1 (pushed ++ rest) hok1 (by omega)
      refine ⟨st2, ?_, ?_⟩
      · rw [PDQSRTL_passes]
        simp only [Option.bind_eq_bind, h1, Option.some_bind, h2]
      · rw [PDQSRTL_loop]
        simp only [Option.bind_eq_bind, h1, Option.some_bind, h3]

theorem PDQSRTL_step_nil (compar : α → α → Int) (c size : Nat) :
    PDQSRTL_step compar ⟨([] : List α), c⟩ (PDQSRTL_init 0 size) = some (⟨[], c⟩, []) := by
  simp [PDQSRTL_step, PDQSRTL_init, CPDQS_ISRT_THRESHOLD, CPDQS_ISRT]

end Cpdqsort


namespace Cpdqsort

variable {α : Type}

/-- C21: for every frame `xs` of at least 24 elements, alone or inside a larger array
`pre ++ xs ++ post`, pivot selection (median of three up to 128 elements, ninther above)
returns with the frame permuted and the rest untouched, and leaves at some position `q`
strictly inside the frame an element not less than the one in front; `CPDQS_PAR` on the
frame then returns, on the frame alone as inside the larger array, with its scan
pointers and the position it returns inside the frame. -/
theorem PDQSRTL_pivot_gives_stopper (compar : α → α → Int) (hswo : StrictWeakOrder compar)
    (pre xs post : List α) (c : Nat) (h : CPDQS_ISRT_THRESHOLD ≤ xs.length) :
    ∃ ys c1 q p y,
      PDQSRTL_pivot compar ⟨xs, c⟩ 0 xs.length xs.length = some ⟨ys, c1⟩ ∧
      PDQSRTL_pivot compar ⟨pre ++ xs ++ post, c⟩ pre.length (pre.length + xs.length)
        xs.length = some ⟨pre ++ ys ++ post, c1⟩ ∧
      List.Perm ys xs ∧ 0 < q ∧ q < xs.length ∧ ys[0]? = some p ∧ ys[q]? = some y ∧
      ¬ compar y p < 0 ∧
      ∀ c2, ∃ zs c3 pos ap st3 first last,
        CPDQS_PAR compar ⟨ys, c2⟩ 0 xs.length = some (⟨zs, c3⟩, pos, ap) ∧
        CPDQS_PAR compar ⟨pre ++ ys ++ post, c2⟩ pre.length xs.length =
          some (⟨pre ++ zs ++ post, c3⟩, pre.length + pos, ap) ∧
        CPDQS_PAR_ptrs compar ⟨ys, c2⟩ 0 xs.length = some (st3, first, last) ∧
        0 < first ∧ first < xs.length ∧ last < xs.length ∧ pos < xs.length := by
  cases xs with
  | nil => simp [CPDQS_ISRT_THRESHOLD] at h
  | cons d t =>
    have h24 : 24 ≤ (d :: t).length := h
    obtain ⟨st1, h1, hperm, q, hq1, hq2, hstop⟩ := PDQSRTL_pivot_spec hswo d ⟨d :: t, c⟩ 0
      (d :: t).length h (le_refl _)
    have hl1 : st1.mem.length = (d :: t).length := hperm.length_eq
    have hemb := PDQSRTL_pivot_append compar pre post (show 3 ≤ (d :: t).length by omega) h1
    cases st1 with
    | mk ys c1 =>
      simp only [] at hl1 hstop
      refine ⟨ys, c1, q, cell d ys 0, cell d ys q, h1, hemb, hperm.perm, hq1, hq2,
        getElem?_eq_cell d (by omega), getElem?_eq_cell d (by omega), hstop, ?_⟩
      intro c2
      obtain ⟨f1, l, st3, f3, l3, st5, _, hptrs, hpar, _, _, hp5, hfe5, hb1, _, _⟩ :=
        CPDQS_PAR_trace compar d ⟨ys, c2⟩ 0 (d :: t).length q (by simp only []; omega) hq1
          (by omega) hstop
      have hparemb := CPDQS_PAR_append compar pre post hpar
      cases st5 with
      | mk zs c3 =>
        exact ⟨zs, c3, f3 - 1, _, st3, f3, l3, hpar, hparemb, hptrs, hp5, by omega, by omega,
          by omega⟩

set_option maxRecDepth 1000000 in
/-- Witness for `PDQSRTL_pivot_gives_stopper`: the 24 elements of `PAR_input` inside
`[99] ++ PAR_input ++ [0]`. -/
theorem PDQSRTL_pivot_gives_stopper_witness :
    StrictWeakOrder int_compar ∧ CPDQS_ISRT_THRESHOLD ≤ PAR_input.length ∧
    ∃ ys c1 q p y,
      PDQSRTL_pivot int_compar ⟨PAR_input, 0⟩ 0 PAR_input.length PAR_input.length =
        some ⟨ys, c1⟩ ∧
      PDQSRTL_pivot int_compar ⟨[99] ++ PAR_input ++ [0], 0⟩ [(99 : Int)].length
        ([(99 : Int)].length + PAR_input.length) PAR_input.length =
        some ⟨[99] ++ ys ++ [0], c1⟩ ∧
      List.Perm ys PAR_input ∧ 0 < q ∧ q < PAR_input.length ∧ ys[0]? = some p ∧
      ys[q]? = some y ∧ ¬ int_compar y p < 0 ∧
      ∀ c2, ∃ zs c3 pos ap st3 first last,
        CPDQS_PAR int_compar ⟨ys, c2⟩ 0 PAR_input.length = some (⟨zs, c3⟩, pos, ap) ∧
        CPDQS_PAR int_compar ⟨[99] ++ ys ++ [0], c2⟩ [(99 : Int)].length PAR_input.length =
          some (⟨[99] ++ zs ++ [0], c3⟩, [(99 : Int)].length + pos, ap) ∧
        CPDQS_PAR_ptrs int_compar ⟨ys, c2⟩ 0 PAR_input.length = some (st3, first, last) ∧
        0 < first ∧ first < PAR_input.length ∧ last < PAR_input.length ∧
        pos < PAR_input.length :=
  ⟨int_compar_swo, by decide,
    PDQSRTL_pivot_gives_stopper int_compar int_compar_swo [99] PAR_input [0] 0 (by decide)⟩

/-- C22: in a frame `[begin, end_)` with pivot position `pivot_pos`, every position that
the shuffle of the highly unbalanced branch swaps on the left side (two swaps from 24
elements on, four more above 128) lies in `[begin, pivot_pos)`, and every position it
swaps on the right side lies in `(pivot_pos, end_)`.  Both shuffles return; each side
after them is a permutation of the side before, the pivot cell is untouched, a range
partitioned around `pivot_pos` stays partitioned, and, unless the budget has run out,
the branch ends by pushing the two sides. -/
theorem PDQSRTL_shuffle_stays_on_side (compar : α → α → Int) (st : St α)
    (begin pivot_pos end_ bad_allowed : Nat) (is_leftmost : Bool) (hbp : begin ≤ pivot_pos)
    (hpe : pivot_pos < end_) (hlen : end_ ≤ st.mem.length) :
    (∀ ab ∈ PDQSRTL_shuffle_left_swaps begin pivot_pos (pivot_pos - begin),
      begin ≤ ab.1 ∧ ab.1 < pivot_pos ∧ begin ≤ ab.2 ∧ ab.2 < pivot_pos) ∧
    (∀ ab ∈ PDQSRTL_shuffle_right_swaps pivot_pos end_ (end_ - pivot_pos - 1),
      pivot_pos < ab.1 ∧ ab.1 < end_ ∧ pivot_pos < ab.2 ∧ ab.2 < end_) ∧
    ∃ st1 st2,
      PDQSRTL_shuffle_left st begin pivot_pos (pivot_pos - begin) = some st1 ∧
      SW_all st (PDQSRTL_shuffle_left_swaps begin pivot_pos (pivot_pos - begin)) = some st1 ∧
      PDQSRTL_shuffle_right st1 pivot_pos end_ (end_ - pivot_pos - 1) = some st2 ∧
      SW_all st1 (PDQSRTL_shuffle_right_swaps pivot_pos end_ (end_ - pivot_pos - 1)) =
        some st2 ∧
      List.Perm ((st2.mem.drop begin).take (pivot_pos - begin))
        ((st.mem.drop begin).take (pivot_pos - begin)) ∧
      List.Perm ((st2.mem.drop (pivot_pos + 1)).take (end_ - (pivot_pos + 1)))
        ((st.mem.drop (pivot_pos + 1)).take (end_ - (pivot_pos + 1))) ∧
      st2.mem[pivot_pos]? = st.mem[pivot_pos]? ∧
      (∀ pivot, st.mem[pivot_pos]? = some pivot →
        (∀ i x, begin ≤ i → i < pivot_pos → st.mem[i]? = some x → compar x pivot < 0) →
        (∀ i x, pivot_pos < i → i < end_ → st.mem[i]? = some x → ¬ compar x pivot < 0) →
        (∀ i x, begin ≤ i → i < pivot_pos → st2.mem[i]? = some x → compar x pivot < 0) ∧
        (∀ i x, pivot_pos < i → i < end_ → st2.mem[i]? = some x → ¬ compar x pivot < 0)) ∧
      (dec_u32 bad_allowed ≠ 0 →
        PDQSRTL_unbalanced compar st begin end_ pivot_pos bad_allowed is_leftmost =
          some (st2, PDQSRTL_push begin end_ pivot_pos (dec_u32 bad_allowed) is_leftmost)) := by
  refine ⟨shuffle_left_swaps_bounds begin pivot_pos hbp,
    shuffle_right_swaps_bounds pivot_pos end_ hpe, ?_⟩
  cases hmem : st.mem with
  | nil => rw [hmem] at hlen; simp at hlen; omega
  | cons d t =>
    rw [← hmem]
    obtain ⟨st1, h1, hp1⟩ := PDQSRTL_shuffle_left_spec d st begin pivot_pos hbp (by omega)
    have hl1 : st1.mem.length = st.mem.length := hp1.length_eq
    obtain ⟨st2, h2, hp2⟩ := PDQSRTL_shuffle_right_spec d st1 pivot_pos end_ hpe (by omega)
    have hl2 : st2.mem.length = st1.mem.length := hp2.length_eq
    have hleft : List.Perm ((st2.mem.drop begin).take (pivot_pos - begin))
        ((st.mem.drop begin).take (pivot_pos - begin)) := by
      rw [slice_eq_of_getElem? st1.mem st2.mem begin (pivot_pos - begin)
        (fun i _ hi2 => hp2.getElem?_outside (Or.inl (by omega)))]
      exact hp1.slice
    have hright : List.Perm ((st2.mem.drop (pivot_pos + 1)).take (end_ - (pivot_pos + 1)))
        ((st.mem.drop (pivot_pos + 1)).take (end_ - (pivot_pos + 1))) := by
      rw [← slice_eq_of_getElem? st.mem st1.mem (pivot_pos + 1) (end_ - (pivot_pos + 1))
        (fun i hi1 _ => hp1.getElem?_outside (Or.inr (by omega)))]
      exact hp2.slice
    have hpiv : st2.mem[pivot_pos]? = st.mem[pivot_pos]? := by
      rw [hp2.getElem?_outside (Or.inl (by omega)),
        hp1.getElem?_outside (Or.inr (le_refl _))]
    refine ⟨st1, st2, h1, by rw [← PDQSRTL_shuffle_left_eq]; exact h1, h2,
      by rw [← PDQSRTL_shuffle_right_eq]; exact h2, hleft, hright, hpiv, ?_, ?_⟩
    · intro pivot hpv hl hr
      have cp := cell_of_getElem? d hpv
      have hpart : Partitioned compar d st.mem begin pivot_pos end_ := by
        refine ⟨?_, ?_⟩
        · intro i hi1 hi2
          rw [cp]
          exact hl i _ hi1 hi2 (getElem?_eq_cell d (by omega))
        · intro i hi1 hi2
          rw [cp]
          exact hr i _ hi1 hi2 (getElem?_eq_cell d (by omega))
      have hpart2 := (hpart.permOn_left hp1).permOn_right hp2
      have cp2 : cell d st2.mem pivot_pos = pivot := by
        apply cell_of_getElem? d
        rw [hpiv]
        exact hpv
      rw [Partitioned, cp2] at hpart2
      refine ⟨?_, ?_⟩
      · intro i x hi1 hi2 hx
        have := hpart2.1 i hi1 hi2
        rwa [cell_of_getElem? d hx] at this
      · intro i x hi1 hi2 hx
        have := hpart2.2 i hi1 hi2
        rwa [cell_of_getElem? d hx] at this
    · intro hbad
      unfold PDQSRTL_unbalanced
      simp only [if_neg hbad, Option.bind_eq_bind, h1, Option.some_bind, h2]

set_option maxRecDepth 1000000 in
/-- Witness for `PDQSRTL_shuffle_stays_on_side`: the first pass on `dup_input`, whose
partition leaves the pivot at position 0 of the frame `[0, 26)`. -/
theorem PDQSRTL_shuffle_stays_on_side_witness :
    (0 ≤ 0 ∧ 0 < 26 ∧ 26 ≤ dup_input.length) ∧
    (∀ ab ∈ PDQSRTL_shuffle_left_swaps 0 0 (0 - 0),
      0 ≤ ab.1 ∧ ab.1 < 0 ∧ 0 ≤ ab.2 ∧ ab.2 < 0) ∧
    (∀ ab ∈ PDQSRTL_shuffle_right_swaps 0 26 (26 - 0 - 1),
      0 < ab.1 ∧ ab.1 < 26 ∧ 0 < ab.2 ∧ ab.2 < 26) ∧
    ∃ st1 st2,
      PDQSRTL_shuffle_left ⟨dup_input, 0⟩ 0 0 (0 - 0) = some st1 ∧
      SW_all ⟨dup_input, 0⟩ (PDQSRTL_shuffle_left_swaps 0 0 (0 - 0)) = some st1 ∧
      PDQSRTL_shuffle_right st1 0 26 (26 - 0 - 1) = some st2 ∧
      SW_all st1 (PDQSRTL_shuffle_right_swaps 0 26 (26 - 0 - 1)) = some st2 ∧
      List.Perm ((st2.mem.drop 0).take (0 - 0)) ((dup_input.drop 0).take (0 - 0)) ∧
      List.Perm ((st2.mem.drop (0 + 1)).take (26 - (0 + 1)))
        ((dup_input.drop (0 + 1)).take (26 - (0 + 1))) ∧
      st2.mem[0]? = dup_input[0]? ∧
      (∀ pivot, dup_input[0]? = some pivot →
        (∀ i x, 0 ≤ i → i < 0 → dup_input[i]? = some x → int_compar x pivot < 0) →
        (∀ i x, 0 < i → i < 26 → dup_input[i]? = some x → ¬ int_compar x pivot < 0) →
        (∀ i x, 0 ≤ i → i < 0 → st2.mem[i]? = some x → int_compar x pivot < 0) ∧
        (∀ i x, 0 < i → i < 26 → st2.mem[i]? = some x → ¬ int_compar x pivot < 0)) ∧
      (dec_u32 2 ≠ 0 →
        PDQSRTL_unbalanced int_compar ⟨dup_input, 0⟩ 0 26 0 2 true =
          some (st2, PDQSRTL_push 0 26 0 (dec_u32 2) true)) :=
  ⟨⟨by decide, by decide, by decide⟩,
    PDQSRTL_shuffle_stays_on_side int_compar ⟨dup_input, 0⟩ 0 0 26 2 true (by decide)
      (by decide) (by decide)⟩

/-- C23: for every array, element size and strict-weak-order comparator, at the loop test
after any number of passes the next pass (if the stack is not empty) is defined and every
entry it pushes is a sub-range of the popped entry with strictly fewer elements; and the
stack is empty after at most `2 * nmemb + 1` passes, where `CPDQS_PDQSRTL` returns. -/
theorem PDQSRTL_terminates (compar : α → α → Int) (hswo : StrictWeakOrder compar)
    (base : List α) (size : Nat) :
    (∀ k, ∃ st stack,
      PDQSRTL_passes compar k ⟨base, 0⟩ [PDQSRTL_init base.length size] = some (st, stack) ∧
      ∀ f top, stack = f :: top →
        ∃ st2 pushed, PDQSRTL_step compar st f = some (st2, pushed) ∧
          ∀ g ∈ pushed, f.begin ≤ g.begin ∧ g.end_ ≤ f.end_ ∧
            g.end_ - g.begin < f.end_ - f.begin) ∧
    ∃ k st, k ≤ 2 * base.length + 1 ∧
      PDQSRTL_passes compar k ⟨base, 0⟩ [PDQSRTL_init base.length size] = some (st, []) ∧
      CPDQS_PDQSRTL compar size ⟨base, 0⟩ base.length = some st := by
  cases base with
  | nil =>
    have hstep := PDQSRTL_step_nil (α := α) compar 0 size
    have h1 : PDQSRTL_passes compar 1 ⟨([] : List α), 0⟩ [PDQSRTL_init 0 size] =
        some (⟨[], 0⟩, []) := by
      rw [PDQSRTL_passes]
      simp only [Option.bind_eq_bind, hstep, Option.some_bind, List.nil_append]
      rfl
    refine ⟨?_, 1, ⟨[], 0⟩, by simp, h1, ?_⟩
    · intro k
      cases k with
      | zero =>
        refine ⟨⟨[], 0⟩, [PDQSRTL_init 0 size], rfl, ?_⟩
        intro f top hf
        simp only [List.cons.injEq] at hf
        rw [← hf.1]
        exact ⟨⟨[], 0⟩, [], hstep, by simp⟩
      | succ k =>
        refine ⟨⟨[], 0⟩, [], ?_, ?_⟩
        · show PDQSRTL_passes compar (k + 1) ⟨([] : List α), 0⟩ [PDQSRTL_init 0 size] = _
          rw [PDQSRTL_passes]
          simp only [Option.bind_eq_bind, hstep, Option.some_bind, List.nil_append]
          exact PDQSRTL_passes_nil compar k _
        · intro f top hf
          simp at hf
    · show PDQSRTL_loop compar (2 * 0 + 1) ⟨([] : List α), 0⟩ [PDQSRTL_init 0 size] = _
      rw [PDQSRTL_loop]
      simp only [Option.bind_eq_bind, hstep, Option.some_bind, List.nil_append]
      rfl
  | cons d t =>
    have hinit := stackOK_init compar d (d :: t) size
    refine ⟨?_, ?_⟩
    · intro k
      obtain ⟨st, stack, h, hok, _⟩ := PDQSRTL_passes_spec hswo d (d :: t).length k
        ⟨d :: t, 0⟩ [PDQSRTL_init (d :: t).length size] hinit
      refine ⟨st, stack, h, ?_⟩
      intro f top hf
      rw [hf] at hok
      obtain ⟨st2, pushed, h2, _, hpost⟩ := PDQSRTL_step_spec hswo d st f hok.1
      exact ⟨st2, pushed, h2, stepPost_shorter hpost⟩
    · obtain ⟨st, h1, h2⟩ := PDQSRTL_passes_drain hswo d (d :: t).length
        (2 * (d :: t).length + 1) ⟨d :: t, 0⟩ [PDQSRTL_init (d :: t).length size] hinit
        (by simp [stackMeasure, PDQSRTL_init])
      exact ⟨2 * (d :: t).length + 1, st, le_refl _, h1, h2⟩

/-- Witness for `PDQSRTL_terminates`: the ascending integer comparator on `dup_input`. -/
theorem PDQSRTL_terminates_witness :
    StrictWeakOrder int_compar ∧
    (∀ k, ∃ st stack,
      PDQSRTL_passes int_compar k ⟨dup_input, 0⟩ [PDQSRTL_init dup_input.length 4] =
        some (st, stack) ∧
      ∀ f top, stack = f :: top →
        ∃ st2 pushed, PDQSRTL_step int_compar st f = some (st2, pushed) ∧
          ∀ g ∈ pushed, f.begin ≤ g.begin ∧ g.end_ ≤ f.end_ ∧
            g.end_ - g.begin < f.end_ - f.begin) ∧
    ∃ k st, k ≤ 2 * dup_input.length + 1 ∧
      PDQSRTL_passes int_compar k ⟨dup_input, 0⟩ [PDQSRTL_init dup_input.length 4] =
        some (st, []) ∧
      CPDQS_PDQSRTL int_compar 4 ⟨dup_input, 0⟩ dup_input.length = some st :=
  ⟨int_compar_swo, PDQSRTL_terminates int_compar int_compar_swo dup_input 4⟩

end Cpdqsort
